import Mathlib

/-!
# Connect Four engine: shallow embedding and verified properties

The embedding follows `board.h`, `player.h`, `state.h` and `computer.hpp`.

* A `Board` is the grid `std::array<std::array<char, WIDTH>, HEIGHT>`, indexed row first,
  row 0 being the bottom row.  It is modelled as a total function on natural indices of
  which only `row < HEIGHT`, `col < WIDTH` are cells of the array.  Every loop of the source
  with constant bounds that stay inside the grid reads it directly; `Board.getTopRow`, whose
  loop bound is `WIDTH` instead of `HEIGHT`, reads through the bounds-checked `Board.read`
  and yields `none` when it leaves the array.
* `Scores` is `std::array<int, WIDTH>`: a function on `Fin WIDTH` with values in `Int`;
  the 32-bit range is made explicit where the source negates (`wrapInt32`).
* Logging (`Log`) does not influence any returned value and is left out.
-/

namespace Connect4

/-! ## board.h -/

abbrev WIDTH : Nat := 7
abbrev HEIGHT : Nat := 6

def EMPTY : Char := ' '

/-- The grid of `board.h`; `cell row col` is `(*this)[row][col]`. -/
structure Board where
  cell : Nat → Nat → Char

/-- The assignment `board[row][col] = v`. -/
def Board.set (b : Board) (row col : Nat) (v : Char) : Board :=
  { cell := fun r c => if r = row ∧ c = col then v else b.cell r c }

/-- The constructor `Board()`: every cell is `EMPTY`. -/
def Board.empty : Board :=
  { cell := fun _ _ => EMPTY }

/-- A read `(*this)[row][col]` that checks the array bounds: `none` outside the grid. -/
def Board.read (b : Board) (row col : Nat) : Option Char :=
  if row < HEIGHT ∧ col < WIDTH then some (b.cell row col) else none

/-- Source `Board::isColValid`: the top cell of the column is empty. -/
def Board.isColValid (b : Board) (col : Nat) : Bool :=
  decide (b.cell (HEIGHT - 1) col = EMPTY)

/-- The loop of `Board::getTopRow` over the remaining rows; falling off the end is the
source's `return HEIGHT - 1`. -/
def Board.getTopRowLoop (b : Board) (col : Nat) : List Nat → Option Nat
  | [] => some (HEIGHT - 1)
  | row :: rest =>
    match b.read row col with
    | none => none
    | some ch => if ch = EMPTY then some row else Board.getTopRowLoop b col rest

/-- Source `Board::getTopRow`: `for (row = 0; row < WIDTH; ++row)`, returning the first row
whose cell is empty.  The bound is `WIDTH`, so a column without an empty cell in rows
`0 .. HEIGHT-1` makes the loop read row `HEIGHT`, outside the array: `none`. -/
def Board.getTopRow (b : Board) (col : Nat) : Option Nat :=
  b.getTopRowLoop col (List.range WIDTH)

/-- Source `Board::addPosition`: the guarded drop; the flag is the source's return value. -/
def Board.addPosition (b : Board) (col : Nat) (player : Char) : Option (Board × Bool) :=
  if b.isColValid col then
    match b.getTopRow col with
    | none => none
    | some row => some (b.set row col player, true)
  else some (b, false)

/-- Source `Board::isDone`: the four scans for a line of four of `player`. -/
def Board.isDone (b : Board) (player : Char) : Bool :=
  -- check col
  ((List.range 3).any fun row => (List.range WIDTH).any fun col =>
    decide (b.cell row col = player ∧ b.cell (row + 1) col = player ∧
      b.cell (row + 2) col = player ∧ b.cell (row + 3) col = player))
  -- check row
  || ((List.range HEIGHT).any fun row => (List.range 4).any fun col =>
    decide (b.cell row col = player ∧ b.cell row (col + 1) = player ∧
      b.cell row (col + 2) = player ∧ b.cell row (col + 3) = player))
  -- check diag
  || ((List.range 3).any fun row => (List.range 4).any fun col =>
    decide (b.cell row col = player ∧ b.cell (row + 1) (col + 1) = player ∧
      b.cell (row + 2) (col + 2) = player ∧ b.cell (row + 3) (col + 3) = player))
  || ((List.range 3).any fun row => ((List.range WIDTH).filter fun col => 3 ≤ col).any fun col =>
    decide (b.cell row col = player ∧ b.cell (row + 1) (col - 1) = player ∧
      b.cell (row + 2) (col - 2) = player ∧ b.cell (row + 3) (col - 3) = player))

/-- Source `Board::isFull`: no cell of the grid is empty. -/
def Board.isFull (b : Board) : Bool :=
  (List.range HEIGHT).all fun row => (List.range WIDTH).all fun col =>
    decide (b.cell row col ≠ EMPTY)

/-! ## player.h -/

def P0 : Char := '0'
def P1 : Char := '1'
def P2 : Char := '2'

def getOpponent (player : Char) : Char :=
  if player = P1 then P2 else P1

/-! ## state.h -/

structure State where
  _board : Board
  _pTurn : Char
  _pWin : Char
  _done : Bool

/-- The constructor `State(pTurn)`. -/
def State.init (pTurn : Char) : State :=
  { _board := Board.empty, _pTurn := pTurn, _pWin := P0, _done := false }

def State.getTurn (s : State) : Char := s._pTurn

def State.getLastPayer (s : State) : Char := getOpponent s._pTurn

def State.getWinner (s : State) : Char := s._pWin

def State.isColValid (s : State) (col : Nat) : Bool := s._board.isColValid col

def State.isDone (s : State) : Bool := s._done

def State.getBoard (s : State) : Board := s._board

/-- Source `State::addPosition`: the unguarded drop followed by the turn and terminal
bookkeeping.  It is `none` exactly when `getTopRow` leaves the array. -/
def State.addPosition (s : State) (col : Nat) : Option State :=
  match s._board.getTopRow col with
  | none => none
  | some row =>
    let board := s._board.set row col s._pTurn
    if board.isDone s._pTurn = false then
      some { _board := board
             _pTurn := getOpponent s._pTurn
             _pWin := s._pWin
             _done := if board.isFull then true else s._done }
    else
      some { _board := board
             _pTurn := s._pTurn
             _pWin := s._pTurn
             _done := true }

/-! ## computer.hpp: `Computer::Scores` -/

/-- The array `std::array<int, WIDTH>`, one score per column. -/
abbrev Scores := Fin WIDTH → Int

def WIN_MOVE : Int := 1000000
def FORCED_MOVE : Int := -10000
def DOUBLE_TRAP_MOVE : Int := 1000
def TRAP_MOVE : Int := 100

/-- The value `std::numeric_limits<int>::lowest()` of a 32-bit `int`. -/
def INT_LOWEST : Int := -2147483648

/-- The columns visited by `for (col = 0; col < WIDTH; ++col)`. -/
def allCols : List (Fin WIDTH) := List.finRange WIDTH

/-- The indices visited by `for (i = hi; i >= lo; --i)`, in that order. -/
def downTo (hi lo : Nat) : List Nat :=
  ((List.range (hi + 1)).filter fun i => lo ≤ i).reverse

/-- The assignment `scores[col] = v`. -/
def Scores.set (s : Scores) (col : Fin WIDTH) (v : Int) : Scores :=
  fun c => if c = col then v else s c

/-- The constructor `Scores()`: the loop stores the sentinel in every entry. -/
def Scores.lowest : Scores := fun _ => INT_LOWEST

/-- The constructor `Scores(value_type i)`: the loop stores `0.0` in every entry and never
reads its argument. -/
def Scores.ofValue (_i : Int) : Scores := fun _ => 0

/-- Source `Scores::max`. -/
def Scores.max (s : Scores) : Int :=
  allCols.foldl (fun m col => Max.max m (s col)) INT_LOWEST

/-- The collecting loop of `Scores::getBestCol`: `Sum.inl 3` is the early `return 3`,
`Sum.inr colSet` the list built by `emplace_back` when the loop runs to its end. -/
def Scores.getBestColLoop (s : Scores) (maxValue : Int) :
    List (Fin WIDTH) → List (Fin WIDTH) → Fin WIDTH ⊕ List (Fin WIDTH)
  | [], colSet => Sum.inr colSet
  | col :: rest, colSet =>
    if s col = maxValue then
      if col = 3 then Sum.inl 3
      else Scores.getBestColLoop s maxValue rest (colSet ++ [col])
    else Scores.getBestColLoop s maxValue rest colSet

/-- Source `Scores::getBestCol`.  The call of `std::shuffle` is the parameter `shuffle`;
`colSet[0]` on an empty vector has no value: `none`. -/
def Scores.getBestCol (shuffle : List (Fin WIDTH) → List (Fin WIDTH)) (s : Scores) :
    Option (Fin WIDTH) :=
  match s.getBestColLoop s.max allCols [] with
  | Sum.inl col => some col
  | Sum.inr colSet =>
    if colSet.length = 1 then colSet[0]?
    else (shuffle colSet)[0]?

/-! ## computer.hpp: threat evaluation -/

/-- Body of the double loop of `horizontalEvaluation` at `(col, row)`. -/
def horizontalStep (board : Board) (player : Char) (col row : Nat) (evaluationBoard : Board) :
    Board :=
  if board.cell row col = player then
    -- XXX- XX-X
    if board.cell row (col + 1) = player then
      -- XXX-
      if board.cell row (col + 2) = player ∧ board.cell row (col + 3) = EMPTY then
        evaluationBoard.set row (col + 3) 'F'
      -- XX-X
      else if board.cell row (col + 2) = EMPTY ∧ board.cell row (col + 3) = player then
        evaluationBoard.set row (col + 2) 'F'
      else evaluationBoard
    -- X-XX
    else if board.cell row (col + 1) = EMPTY ∧ board.cell row (col + 2) = player ∧
        board.cell row (col + 3) = player then
      evaluationBoard.set row (col + 1) 'F'
    else evaluationBoard
  -- -XXX
  else if board.cell row col = EMPTY ∧ board.cell row (col + 1) = player ∧
      board.cell row (col + 2) = player ∧ board.cell row (col + 3) = player then
    evaluationBoard.set row col 'F'
  else evaluationBoard

/-- Source `Computer::horizontalEvaluation`: `col` from `0` to `WIDTH - 4`, `row` from
`HEIGHT - 1` down to `0`. -/
def horizontalEvaluation (board : Board) (player : Char) (evaluationBoard : Board) : Board :=
  (List.range (WIDTH - 3)).foldl
    (fun ev col => (downTo (HEIGHT - 1) 0).foldl
      (fun ev row => horizontalStep board player col row ev) ev)
    evaluationBoard

/-- Body of the double loop of `verticalEvaluation` at `(col, row)`. -/
def verticalStep (board : Board) (player : Char) (col row : Nat) (evaluationBoard : Board) :
    Board :=
  if board.cell row col = EMPTY ∧ board.cell (row - 1) col = player ∧
      board.cell (row - 2) col = player ∧ board.cell (row - 3) col = player then
    evaluationBoard.set row col 'F'
  else evaluationBoard

/-- Source `Computer::verticalEvaluation`: `col` from `0` to `WIDTH - 1`, `row` from
`HEIGHT - 1` down to `3`. -/
def verticalEvaluation (board : Board) (player : Char) (evaluationBoard : Board) : Board :=
  (List.range WIDTH).foldl
    (fun ev col => (downTo (HEIGHT - 1) 3).foldl
      (fun ev row => verticalStep board player col row ev) ev)
    evaluationBoard

/-- Body of the first double loop of `diagonalEvaluation` (lines towards lower columns). -/
def diagonalStepLeft (board : Board) (player : Char) (col row : Nat) (evaluationBoard : Board) :
    Board :=
  if board.cell row col = player then
    if board.cell (row - 1) (col - 1) = player then
      if board.cell (row - 2) (col - 2) = player ∧ board.cell (row - 3) (col - 3) = EMPTY then
        evaluationBoard.set (row - 3) (col - 3) 'F'
      else if board.cell (row - 2) (col - 2) = EMPTY ∧
          board.cell (row - 3) (col - 3) = player then
        evaluationBoard.set (row - 2) (col - 2) 'F'
      else evaluationBoard
    else if board.cell (row - 1) (col - 1) = EMPTY ∧ board.cell (row - 2) (col - 2) = player ∧
        board.cell (row - 3) (col - 3) = player then
      evaluationBoard.set (row - 1) (col - 1) 'F'
    else evaluationBoard
  else if board.cell row col = EMPTY ∧ board.cell (row - 1) (col - 1) = player ∧
      board.cell (row - 2) (col - 2) = player ∧ board.cell (row - 3) (col - 3) = player then
    evaluationBoard.set row col 'F'
  else evaluationBoard

/-- Body of the second double loop of `diagonalEvaluation` (lines towards higher columns). -/
def diagonalStepRight (board : Board) (player : Char) (col row : Nat) (evaluationBoard : Board) :
    Board :=
  if board.cell row col = player then
    if board.cell (row - 1) (col + 1) = player then
      if board.cell (row - 2) (col + 2) = player ∧ board.cell (row - 3) (col + 3) = EMPTY then
        evaluationBoard.set (row - 3) (col + 3) 'F'
      else if board.cell (row - 2) (col + 2) = EMPTY ∧
          board.cell (row - 3) (col + 3) = player then
        evaluationBoard.set (row - 2) (col + 2) 'F'
      else evaluationBoard
    else if board.cell (row - 1) (col + 1) = EMPTY ∧ board.cell (row - 2) (col + 2) = player ∧
        board.cell (row - 3) (col + 3) = player then
      evaluationBoard.set (row - 1) (col + 1) 'F'
    else evaluationBoard
  else if board.cell row col = EMPTY ∧ board.cell (row - 1) (col + 1) = player ∧
      board.cell (row - 2) (col + 2) = player ∧ board.cell (row - 3) (col + 3) = player then
    evaluationBoard.set row col 'F'
  else evaluationBoard

/-- Source `Computer::diagonalEvaluation`: first `col` from `WIDTH - 1` down to `3`, then
`col` from `0` to `WIDTH - 4`; in both, `row` from `HEIGHT - 1` down to `3`. -/
def diagonalEvaluation (board : Board) (player : Char) (evaluationBoard : Board) : Board :=
  let afterLeft := (downTo (WIDTH - 1) 3).foldl
    (fun ev col => (downTo (HEIGHT - 1) 3).foldl
      (fun ev row => diagonalStepLeft board player col row ev) ev)
    evaluationBoard
  (List.range (WIDTH - 3)).foldl
    (fun ev col => (downTo (HEIGHT - 1) 3).foldl
      (fun ev row => diagonalStepRight board player col row ev) ev)
    afterLeft

/-- Body of the double loop of `doubleForceMoveEvaluation` at `(col, row)`. -/
def doubleForceStep (col row : Nat) (evaluationBoard : Board) : Board :=
  if evaluationBoard.cell row col = 'F' ∧ evaluationBoard.cell (row - 1) col = 'F' then
    evaluationBoard.set (row - 1) col 'D'
  else evaluationBoard

/-- Source `Computer::doubleForceMoveEvaluation`: `col` from `0` to `WIDTH - 1`, `row` from
`HEIGHT - 1` down to `1`.  The parameters `board` and `player` are not read. -/
def doubleForceMoveEvaluation (_board : Board) (_player : Char) (evaluationBoard : Board) :
    Board :=
  (List.range WIDTH).foldl
    (fun ev col => (downTo (HEIGHT - 1) 1).foldl
      (fun ev row => doubleForceStep col row ev) ev)
    evaluationBoard

/-- The evaluation board after the horizontal, vertical and diagonal scans, before the
double-force pass. -/
def scanEvaluation (board : Board) (player : Char) : Board :=
  diagonalEvaluation board player
    (verticalEvaluation board player (horizontalEvaluation board player board))

/-- Source `Computer::getEvaluationBoard`. -/
def getEvaluationBoard (board : Board) (player : Char) : Board :=
  doubleForceMoveEvaluation board player (scanEvaluation board player)

/-! ## computer.hpp: column scoring and search -/

/-- First loop of `getScoreCol` over `evalCol`: `some true` is the early
`return Scores::FORCED_MOVE`, `some false` the loop running to its end. -/
def opponentLoop (board opponentEvaluationBoard : Board) : List Nat → Option Bool
  | [] => some false
  | evalCol :: rest =>
    if board.isColValid evalCol then
      match board.getTopRow evalCol with
      | none => none
      | some row =>
        let opponentEvalCol := opponentEvaluationBoard.cell row evalCol
        if opponentEvalCol = 'F' ∨ opponentEvalCol = 'D' then some true
        else opponentLoop board opponentEvaluationBoard rest
    else opponentLoop board opponentEvaluationBoard rest

/-- Second loop of `getScoreCol` over `evalCol`, threading `(score, forceMoveCount)`. -/
def playerLoop (board evaluationBoard : Board) : List Nat → Int × Nat → Option (Int × Nat)
  | [], acc => some acc
  | evalCol :: rest, (score, forceMoveCount) =>
    if board.isColValid evalCol then
      match board.getTopRow evalCol with
      | none => none
      | some row =>
        let playerEvalCol := evaluationBoard.cell row evalCol
        if playerEvalCol = 'D' then
          playerLoop board evaluationBoard rest (Max.max score DOUBLE_TRAP_MOVE, forceMoveCount)
        else if playerEvalCol = 'F' then
          playerLoop board evaluationBoard rest (Max.max score TRAP_MOVE, forceMoveCount + 1)
        else playerLoop board evaluationBoard rest (score, forceMoveCount)
    else playerLoop board evaluationBoard rest (score, forceMoveCount)

/-- Source `Computer::getScoreCol`.  The parameter `col` only feeds the log. -/
def getScoreCol (state : State) (_col : Nat) : Option Int :=
  if state.isDone then some WIN_MOVE -- check if winning move
  else
    let board := state.getBoard
    let player := getOpponent state.getTurn -- get last played
    let opponentEvaluationBoard := getEvaluationBoard board (getOpponent player)
    match opponentLoop board opponentEvaluationBoard (List.range WIDTH) with
    | none => none
    | some true => some FORCED_MOVE
    | some false =>
      let evaluationBoard := getEvaluationBoard board player
      match playerLoop board evaluationBoard (List.range WIDTH) (0, 0) with
      | none => none
      | some (score, forceMoveCount) =>
        if forceMoveCount > 1 then some DOUBLE_TRAP_MOVE else some score

/-- Reduction of an integer to the range of a 32-bit two's complement `int`. -/
def wrapInt32 (x : Int) : Int :=
  (x + 2147483648) % 4294967296 - 2147483648

/-- The recursion factor `static_cast<int>(static_cast<double>(x) / 1.5)` for a 32-bit `x`.
Every such `x` is a `double`, and `x / 1.5 = 2x / 3` is rounded correctly: an integral
quotient is exact, any other lies at least `1/3` away from the integers, far more than the
rounding error, so the truncation toward zero is that of the exact quotient. -/
def recursionFactor (x : Int) : Int :=
  Int.tdiv (2 * x) 3

/-- Source `Computer::getScoreColRec`, writing into `scores`.  The parameter `getScoresRec` is
the call `getScores(·, player, recursionLevel - 1, log)`.  The negation `-bestRecScore` is that
of a 32-bit `int`: it is the exact negation except for `INT_LOWEST`, which it leaves as it
is. -/
def getScoreColRec (getScoresRec : State → Option Scores) (state : State) (col : Fin WIDTH)
    (player : Char) (scores : Scores) : Option Scores :=
  if state.isColValid col.val = false then some scores
  else
    match state.addPosition col.val with
    | none => none
    | some nextState =>
      match getScoreCol nextState col.val with
      | none => none
      | some scoreCol =>
        let scores := scores.set col scoreCol
        if scoreCol = WIN_MOVE ∨ scoreCol = DOUBLE_TRAP_MOVE ∨ scoreCol = FORCED_MOVE then
          some scores
        else
          match getScoresRec nextState with
          | none => none
          | some recScores =>
            let bestRecScore := recScores.max
            let bestRecScore :=
              if player = nextState.getLastPayer then wrapInt32 (-bestRecScore)
              else bestRecScore
            some (scores.set col (recursionFactor bestRecScore))

/-- The loop of `getScores` over the columns.  With `multiThreading` each call runs in a
worker of its own that writes only `scores[col]`, and all workers are joined before the
array is returned, so the array is the one of the sequential loop. -/
def getScoresLoop (getScoresRec : State → Option Scores) (state : State) (player : Char) :
    List (Fin WIDTH) → Scores → Option Scores
  | [], scores => some scores
  | col :: rest, scores =>
    match getScoreColRec getScoresRec state col player scores with
    | none => none
    | some scores => getScoresLoop getScoresRec state player rest scores

/-- Source `Computer::getScores`. -/
def getScores (state : State) (player : Char) : Nat → Option Scores
  | 0 => some (Scores.ofValue 0)
  | recursionLevel + 1 =>
    getScoresLoop (fun nextState => getScores nextState player recursionLevel)
      state player allCols Scores.lowest

/-- Source `Computer::getCol`. -/
def getCol (shuffle : List (Fin WIDTH) → List (Fin WIDTH)) (state : State)
    (recursionLevel : Nat) : Option (Fin WIDTH) :=
  match getScores state state.getTurn recursionLevel with
  | none => none
  | some scores => scores.getBestCol shuffle

/-! ## Reachable states -/

/-- The state after dropping into the columns of `cols` in turn, each of which has to be
droppable when its turn comes. -/
def play (s : State) : List Nat → Option State
  | [] => some s
  | col :: rest =>
    if col < WIDTH ∧ s.isColValid col = true then
      match s.addPosition col with
      | none => none
      | some s' => play s' rest
    else none

/-- A state obtained from `State(P1)` or `State(P2)` by drops into droppable columns. -/
def Reachable (s : State) : Prop :=
  ∃ cols : List Nat, play (State.init P1) cols = some s ∨ play (State.init P2) cols = some s

/-! ## Notions used in the statements -/

/-- Every entry is a 32-bit `int`. -/
def Scores.InRange (s : Scores) : Prop :=
  ∀ c, INT_LOWEST ≤ s c ∧ s c ≤ 2147483647

/-- The marker of `evaluationBoard` at the landing cell `(getTopRow(col), col)` of a droppable
column `col`; no marker for a column that is not droppable. -/
def landingMark (board evaluationBoard : Board) (col : Nat) : Option Char :=
  if board.isColValid col then
    (board.getTopRow col).map fun row => evaluationBoard.cell row col
  else none

/-- The markers of `evaluationBoard` at the landing cells of the droppable columns, in the
order of the columns. -/
def landingMarks (board evaluationBoard : Board) : List Char :=
  (List.range WIDTH).filterMap (landingMark board evaluationBoard)

/-- The relation between the entry `old` of `scores[col]` before a call of `getScoreColRec`
and the entry `new` after it: unchanged for a column that is not droppable; otherwise the
immediate score when it is one of the three short-circuit values, and else the damped,
possibly negated maximum of the continuation scores. -/
def ColEntry (getScoresRec : State → Option Scores) (state : State) (col : Fin WIDTH)
    (player : Char) (old new : Int) : Prop :=
  (state.isColValid col.val = false → new = old) ∧
  (state.isColValid col.val = true →
    ∃ nextState scoreCol, state.addPosition col.val = some nextState ∧
      getScoreCol nextState col.val = some scoreCol ∧
      ((scoreCol = WIN_MOVE ∨ scoreCol = DOUBLE_TRAP_MOVE ∨ scoreCol = FORCED_MOVE) →
        new = scoreCol) ∧
      (¬ (scoreCol = WIN_MOVE ∨ scoreCol = DOUBLE_TRAP_MOVE ∨ scoreCol = FORCED_MOVE) →
        ∃ recScores, getScoresRec nextState = some recScores ∧
          new = recursionFactor
            (if player = nextState.getLastPayer then wrapInt32 (-recScores.max)
             else recScores.max)))

/-- A score vector in which columns 1 and 4 tie for the maximum. -/
def tiedScores : Scores := fun c => [5, 9, 2, 1, 9, 0, 3].getD c.val 0

/-- The state of `cols` played from `State(P1)`; `State(P1)` itself when a drop fails. -/
def playedFromP1 (cols : List Nat) : State :=
  (play (State.init P1) cols).getD (State.init P1)

/-- Column 3 is full (tokens alternate, so nobody has won), every other column is empty;
`P1` is to move. -/
def fullColumnState : State := playedFromP1 [3, 3, 3, 3, 3, 3]

/-- Player `P1` holds the three lowest cells of column 2, `P2` those of column 3; `P1` is to
move and wins by dropping into column 2. -/
def verticalThreeState : State := playedFromP1 [2, 3, 2, 3, 2, 3]

/-- Player `P1` holds row 0 of columns 0, 1, 2 and `P2` row 1 of columns 0 and 1; `P2` is to
move. -/
def horizontalThreeState : State := playedFromP1 [0, 0, 1, 1, 2]

/-- No empty cell of the grid has a non-empty cell above it in its column. -/
def Board.gravityPacked (b : Board) : Bool :=
  (List.range WIDTH).all fun col => (List.range HEIGHT).all fun row =>
    (List.range HEIGHT).all fun above =>
      decide (row < above → b.cell row col = EMPTY → b.cell above col = EMPTY)

/-- The rows of the grid from the top row down, each from column 0 to column `WIDTH - 1`. -/
def Board.rows (b : Board) : List (List Char) :=
  (downTo (HEIGHT - 1) 0).map fun row => (List.range WIDTH).map fun col => b.cell row col

/-- The first 41 drops of a game that fills the board without a line of four. -/
def drawMoves : List Nat :=
  [0, 0, 2, 0, 0, 1, 0, 0, 2, 1, 1, 1, 1, 2, 1, 2, 2, 2, 4, 3, 4, 3, 3, 4, 3, 3, 3, 5, 4, 4,
   5, 4, 5, 5, 6, 5, 6, 6, 5, 6, 6]

/-- The state after `drawMoves`: only the top cell of column 6 is empty and `P2` is to
move. -/
def drawState : State := playedFromP1 drawMoves

/-- Every cell of `ev` still holds what `board` holds, or is an empty cell of `board` marked
`'F'`: the invariant of the horizontal, vertical and diagonal scans. -/
def ScanInv (board ev : Board) : Prop :=
  ∀ r c, ev.cell r c = board.cell r c ∨ (board.cell r c = EMPTY ∧ ev.cell r c = 'F')

/-- Every cell of `ev` still holds what `scan` holds, or is a cell of the grid marked `'D'`
that `scan` marks `'F'` together with the cell directly above it: the invariant of the
double-force pass. -/
def DoubleInv (scan ev : Board) : Prop :=
  ∀ r c, ev.cell r c = scan.cell r c ∨
    (ev.cell r c = 'D' ∧ scan.cell r c = 'F' ∧ scan.cell (r + 1) c = 'F' ∧
      r + 1 < HEIGHT ∧ c < WIDTH)

/-- After `[1, 0, 0, 2, 1, 3, 2, 6, 0, 6, 1, 5, 2]`: `P1` holds rows 1 and 2 of columns 0, 1, 2
(and the bottom cell of column 1), `P2` the bottom cells of columns 0, 2, 3, 5, 6 and cell
`(1, 6)`; column 3 holds the single token of `P2` at row 0. -/
def doubleForcedState : State := playedFromP1 [1, 0, 0, 2, 1, 3, 2, 6, 0, 6, 1, 5, 2]

/-- The rows at which the loop of `Board::getTopRow` evaluates `(*this)[row][col]`, in the
order of the reads; the loop stops at the first row whose cell is empty. -/
def Board.getTopRowReadsLoop (b : Board) (col : Nat) : List Nat → List Nat
  | [] => []
  | row :: rest =>
    row :: (match b.read row col with
      | none => []
      | some ch => if ch = EMPTY then [] else Board.getTopRowReadsLoop b col rest)

/-- The rows read by `Board::getTopRow`. -/
def Board.getTopRowReads (b : Board) (col : Nat) : List Nat :=
  b.getTopRowReadsLoop col (List.range WIDTH)

/-- The four directions of a line: along a row, along a column, and along the two
diagonals. -/
inductive Direction where
  | horizontal
  | vertical
  | diagonalUp
  | diagonalDown

/-- The cell number `k` (from 0 to 3) of the four consecutive cells that start at `(r0, c0)`
and run in the direction `d`: to the right, upwards, up and to the right, or, for
`diagonalDown`, from `(r0 + 3, c0)` down and to the right. -/
def lineCell : Direction → Nat → Nat → Nat → Nat × Nat
  | Direction.horizontal, r0, c0, k => (r0, c0 + k)
  | Direction.vertical, r0, c0, k => (r0 + k, c0)
  | Direction.diagonalUp, r0, c0, k => (r0 + k, c0 + k)
  | Direction.diagonalDown, r0, c0, k => (r0 + 3 - k, c0 + k)

/-- The four cells of the line lie inside the `WIDTH` by `HEIGHT` grid. -/
def lineInGrid (d : Direction) (r0 c0 : Nat) : Prop :=
  ∀ k, k < 4 → (lineCell d r0 c0 k).1 < HEIGHT ∧ (lineCell d r0 c0 k).2 < WIDTH

/-- Stated from the claim: there are four consecutive cells inside the grid, along a row, a
column or either diagonal, that all equal `player`. -/
def Board.hasLineOfFour (b : Board) (player : Char) : Prop :=
  ∃ d r0 c0, lineInGrid d r0 c0 ∧
    ∀ k, k < 4 → b.cell (lineCell d r0 c0 k).1 (lineCell d r0 c0 k).2 = player

/-- Stated from the claim: some line of four consecutive cells inside the grid contains
`(r, c)` and has its other three cells equal to `owner`. -/
def Board.completesLine (b : Board) (owner : Char) (r c : Nat) : Prop :=
  ∃ d r0 c0, lineInGrid d r0 c0 ∧ ∃ k, k < 4 ∧ lineCell d r0 c0 k = (r, c) ∧
    ∀ j, j < 4 → j ≠ k → b.cell (lineCell d r0 c0 j).1 (lineCell d r0 c0 j).2 = owner

/-- The player who makes the last drop when the columns of `cols` are played from `s`: the
player to move in the state that receives the last drop; `none` when there is no drop. -/
def lastMover (s : State) : List Nat → Option Char
  | [] => none
  | [_] => some s.getTurn
  | col :: next :: rest =>
    match s.addPosition col with
    | none => none
    | some s' => lastMover s' (next :: rest)

/-- The invariant of the states built from `State(P1)` or `State(P2)` by drops into droppable
columns: the player to move is `P1` or `P2`; the cells of the grid hold `EMPTY`, `P1` or
`P2`; the board is gravity-packed; and either nobody has a line of four, there is no winner
and the done flag tells whether the board is full, or the player recorded as winner is the
player to move, has a line of four while the opponent has none, and the done flag is set. -/
def State.WellFormed (s : State) : Prop :=
  (s._pTurn = P1 ∨ s._pTurn = P2) ∧
  (∀ r, r < HEIGHT → ∀ c, c < WIDTH →
    s._board.cell r c = EMPTY ∨ s._board.cell r c = P1 ∨ s._board.cell r c = P2) ∧
  s._board.gravityPacked = true ∧
  ((s._pWin = P0 ∧ s._board.isDone P1 = false ∧ s._board.isDone P2 = false ∧
      s._done = s._board.isFull) ∨
   (s._pWin = s._pTurn ∧ s._board.isDone s._pTurn = true ∧
      s._board.isDone (getOpponent s._pTurn) = false ∧ s._done = true))

/-- After `[1, 0, 1, 0, 1, 5, 2, 5, 2, 6, 2, 6, 4, 1, 4, 2, 4]`: `P1` holds rows 0, 1, 2 of
columns 1, 2 and 4, column 3 is empty, and `P2` holds rows 0 and 1 of columns 0, 5, 6 and the
cells `(3, 1)` and `(3, 2)`; `P2` is to move. -/
def tripleForcedState : State :=
  playedFromP1 [1, 0, 1, 0, 1, 5, 2, 5, 2, 6, 2, 6, 4, 1, 4, 2, 4]

/-- The cap `threadNumberMax` of `getScores`:
`static_cast<int>(std::thread::hardware_concurrency()) - 1`. -/
def threadNumberMax (hardwareConcurrency : Nat) : Int :=
  (hardwareConcurrency : Int) - 1

/-- The control state of the thread that runs the column loop of `getScores` with
`multiThreading`: the column it is about to dispatch (`WIDTH` once the loop has ended and the
join phase begins) and the counter `threadNumber`. -/
structure Dispatch where
  col : Nat
  threadNumber : Int
  deriving DecidableEq

/-- One step of the dispatching thread.  Inside the column loop it tests the gate
`while (threadNumber >= threadNumberMax)`: when the test holds it sleeps and tests again, and
the counter is what it was, since no worker has access to it and the only decrement is in the
join loop after the column loop; when the test fails it starts the worker of the column,
increments the counter and moves to the next column. -/
def dispatchStep (threadNumberMax : Int) (s : Dispatch) : Dispatch :=
  if s.col < WIDTH then
    if s.threadNumber ≥ threadNumberMax then s
    else { col := s.col + 1, threadNumber := s.threadNumber + 1 }
  else s

/-- The control state after `n` steps of the dispatching thread. -/
def dispatchRun (threadNumberMax : Int) : Nat → Dispatch → Dispatch
  | 0, s => s
  | n + 1, s => dispatchRun threadNumberMax n (dispatchStep threadNumberMax s)

/-- The four-pattern test shared by `horizontalStep`, `diagonalStepLeft` and
`diagonalStepRight`, on the window whose cells, in the order the source tests them, are
`w 0`, `w 1`, `w 2`, `w 3`. -/
def windowStep (board : Board) (player : Char) (w : Nat → Nat × Nat) (evaluationBoard : Board) :
    Board :=
  if board.cell (w 0).1 (w 0).2 = player then
    if board.cell (w 1).1 (w 1).2 = player then
      if board.cell (w 2).1 (w 2).2 = player ∧ board.cell (w 3).1 (w 3).2 = EMPTY then
        evaluationBoard.set (w 3).1 (w 3).2 'F'
      else if board.cell (w 2).1 (w 2).2 = EMPTY ∧ board.cell (w 3).1 (w 3).2 = player then
        evaluationBoard.set (w 2).1 (w 2).2 'F'
      else evaluationBoard
    else if board.cell (w 1).1 (w 1).2 = EMPTY ∧ board.cell (w 2).1 (w 2).2 = player ∧
        board.cell (w 3).1 (w 3).2 = player then
      evaluationBoard.set (w 1).1 (w 1).2 'F'
    else evaluationBoard
  else if board.cell (w 0).1 (w 0).2 = EMPTY ∧ board.cell (w 1).1 (w 1).2 = player ∧
      board.cell (w 2).1 (w 2).2 = player ∧ board.cell (w 3).1 (w 3).2 = player then
    evaluationBoard.set (w 0).1 (w 0).2 'F'
  else evaluationBoard

/-- Every cell of `ev` still holds what `board` holds, or is an empty cell of `board` marked
`'F'` that completes a line of four of `owner`: the invariant of the three scans for
`owner`. -/
def ScanLineInv (board : Board) (owner : Char) (ev : Board) : Prop :=
  ∀ r c, ev.cell r c = board.cell r c ∨
    (board.cell r c = EMPTY ∧ ev.cell r c = 'F' ∧ board.completesLine owner r c)

/-- Stated from the claim: the integer obtained from a rational by truncation toward zero. -/
def truncateTowardZero (q : ℚ) : Int :=
  if 0 ≤ q then ⌊q⌋ else ⌈q⌉

/-- After `[3, 3]`: one token of each player in column 3; `P1` is to move. -/
def twoTokenState : State := playedFromP1 [3, 3]

/-- The value that `getScoreColRec` leaves in `scores[col]` once the immediate score
`scoreCol` of the post-drop state `nextState` is known: `scoreCol` itself when it is one of
the three short-circuit values, and else the damped, possibly negated maximum of the
continuation scores. -/
def scoreAfterImmediate (getScoresRec : State → Option Scores) (nextState : State)
    (player : Char) (scoreCol : Int) : Option Int :=
  if scoreCol = WIN_MOVE ∨ scoreCol = DOUBLE_TRAP_MOVE ∨ scoreCol = FORCED_MOVE then
    some scoreCol
  else
    match getScoresRec nextState with
    | none => none
    | some recScores =>
      let bestRecScore := recScores.max
      let bestRecScore :=
        if player = nextState.getLastPayer then wrapInt32 (-bestRecScore)
        else bestRecScore
      some (recursionFactor bestRecScore)

/-- Stated from the claim: column `col` is droppable in `s` and the drop of the player to move
into it completes a line of four of that player. -/
def State.dropWins (s : State) (col : Nat) : Prop :=
  col < WIDTH ∧ s.isColValid col = true ∧
    ∃ s', s.addPosition col = some s' ∧ s'.getBoard.hasLineOfFour s.getTurn

/-! # Theorems -/

set_option maxRecDepth 100000

/-! ## Properties of `Scores` -/

theorem mem_allCols (c : Fin WIDTH) : c ∈ allCols := List.mem_finRange c

theorem foldl_max_ge_init (s : Scores) (l : List (Fin WIDTH)) (m : Int) :
    m ≤ l.foldl (fun m col => Max.max m (s col)) m := by
  induction l generalizing m with
  | nil => simp
  | cons a l ih =>
    simp only [List.foldl_cons]
    exact le_trans (le_max_left _ _) (ih _)

theorem foldl_max_ge_mem (s : Scores) (l : List (Fin WIDTH)) (m : Int) (c : Fin WIDTH)
    (hc : c ∈ l) : s c ≤ l.foldl (fun m col => Max.max m (s col)) m := by
  induction l generalizing m with
  | nil => simp at hc
  | cons a l ih =>
    simp only [List.foldl_cons]
    rcases List.mem_cons.mp hc with h | h
    · subst h
      exact le_trans (le_max_right _ _) (foldl_max_ge_init s l _)
    · exact ih _ h

theorem foldl_max_attained (s : Scores) (l : List (Fin WIDTH)) (m : Int) :
    l.foldl (fun m col => Max.max m (s col)) m = m ∨
      ∃ c ∈ l, l.foldl (fun m col => Max.max m (s col)) m = s c := by
  induction l generalizing m with
  | nil => simp
  | cons a l ih =>
    simp only [List.foldl_cons]
    rcases ih (Max.max m (s a)) with h | ⟨c, hc, h⟩
    · rcases max_choice m (s a) with h' | h'
      · left; rw [h, h']
      · right; exact ⟨a, List.mem_cons_self _ _, by rw [h, h']⟩
    · right; exact ⟨c, List.mem_cons_of_mem _ hc, h⟩

theorem Scores.le_max (s : Scores) (c : Fin WIDTH) : s c ≤ s.max :=
  foldl_max_ge_mem s allCols INT_LOWEST c (mem_allCols c)

theorem Scores.lowest_le_max (s : Scores) : INT_LOWEST ≤ s.max :=
  foldl_max_ge_init s allCols INT_LOWEST

theorem Scores.max_attained (s : Scores) (h : ∀ c, INT_LOWEST ≤ s c) : ∃ c, s c = s.max := by
  rcases foldl_max_attained s allCols INT_LOWEST with h' | ⟨c, _, h'⟩
  · refine ⟨0, le_antisymm (s.le_max 0) ?_⟩
    have : s.max = INT_LOWEST := h'
    rw [this]; exact h 0
  · exact ⟨c, h'.symm⟩

theorem getBestColLoop_three (s : Scores) (m : Int) (h3 : s 3 = m) (l acc : List (Fin WIDTH))
    (hl : (3 : Fin WIDTH) ∈ l) : s.getBestColLoop m l acc = Sum.inl 3 := by
  induction l generalizing acc with
  | nil => simp at hl
  | cons a l ih =>
    unfold Scores.getBestColLoop
    by_cases ha : a = 3
    · subst ha; simp [h3]
    · have hl' : (3 : Fin WIDTH) ∈ l := by
        rcases List.mem_cons.mp hl with h | h
        · exact absurd h.symm ha
        · exact h
      simp only [ha, if_false]
      split
      · exact ih _ hl'
      · exact ih _ hl'

theorem getBestColLoop_collect (s : Scores) (m : Int) (h3 : s 3 ≠ m) (l acc : List (Fin WIDTH)) :
    s.getBestColLoop m l acc = Sum.inr (acc ++ l.filter fun c => decide (s c = m)) := by
  induction l generalizing acc with
  | nil => simp [Scores.getBestColLoop]
  | cons a l ih =>
    unfold Scores.getBestColLoop
    by_cases ha : s a = m
    · have ha3 : a ≠ 3 := fun h => h3 (h ▸ ha)
      simp [ha, ha3, ih]
    · simp [ha, ih]

theorem head_mem_of_ne_nil {α : Type} (l : List α) (h : l ≠ []) :
    ∃ a, l[0]? = some a ∧ a ∈ l := by
  cases l with
  | nil => exact absurd rfl h
  | cons a l => exact ⟨a, by simp, List.mem_cons_self _ _⟩

/-! ## The landing cell -/

theorem range_WIDTH : List.range WIDTH = [0, 1, 2, 3, 4, 5, 6] := by decide

theorem getTopRow_of_isColValid (b : Board) (col : Nat) (hc : col < WIDTH)
    (hv : b.isColValid col = true) :
    ∃ row, b.getTopRow col = some row ∧ row < HEIGHT ∧ b.cell row col = EMPTY := by
  have h5 : b.cell 5 col = EMPTY := by simpa [Board.isColValid] using hv
  unfold Board.getTopRow
  rw [range_WIDTH]
  by_cases h0 : b.cell 0 col = EMPTY
  · exact ⟨0, by simp [Board.getTopRowLoop, Board.read, HEIGHT, hc, h0], by decide, h0⟩
  by_cases h1 : b.cell 1 col = EMPTY
  · exact ⟨1, by simp [Board.getTopRowLoop, Board.read, HEIGHT, hc, h0, h1], by decide, h1⟩
  by_cases h2 : b.cell 2 col = EMPTY
  · exact ⟨2, by simp [Board.getTopRowLoop, Board.read, HEIGHT, hc, h0, h1, h2], by decide, h2⟩
  by_cases h3 : b.cell 3 col = EMPTY
  · exact ⟨3, by simp [Board.getTopRowLoop, Board.read, HEIGHT, hc, h0, h1, h2, h3],
      by decide, h3⟩
  by_cases h4 : b.cell 4 col = EMPTY
  · exact ⟨4, by simp [Board.getTopRowLoop, Board.read, HEIGHT, hc, h0, h1, h2, h3, h4],
      by decide, h4⟩
  · exact ⟨5, by simp [Board.getTopRowLoop, Board.read, HEIGHT, hc, h0, h1, h2, h3, h4, h5],
      by decide, h5⟩

theorem getTopRowLoop_lt (b : Board) (col : Nat) (l : List Nat) (row : Nat)
    (h : b.getTopRowLoop col l = some row) : row < HEIGHT ∧ col < WIDTH ∨ l = [] := by
  induction l with
  | nil => right; rfl
  | cons a l ih =>
    left
    unfold Board.getTopRowLoop at h
    unfold Board.read at h
    by_cases hb : a < HEIGHT ∧ col < WIDTH
    · simp only [hb, and_self, if_true] at h
      by_cases he : b.cell a col = EMPTY
      · simp only [he, if_true, Option.some.injEq] at h
        subst h; exact hb
      · simp only [he, if_false] at h
        rcases ih h with h' | h'
        · exact h'
        · subst h'
          simp only [Board.getTopRowLoop, Option.some.injEq] at h
          subst h; exact ⟨by decide, hb.2⟩
    · simp [hb] at h

theorem getTopRow_lt (b : Board) (col row : Nat) (h : b.getTopRow col = some row) :
    row < HEIGHT ∧ col < WIDTH := by
  rcases getTopRowLoop_lt b col _ row h with h' | h'
  · exact h'
  · rw [range_WIDTH] at h'; cases h'

theorem landingMark_of_isColValid (board ev : Board) (col : Nat) (hc : col < WIDTH)
    (hv : board.isColValid col = true) :
    ∃ row, board.getTopRow col = some row ∧
      landingMark board ev col = some (ev.cell row col) := by
  obtain ⟨row, hrow, _, _⟩ := getTopRow_of_isColValid board col hc hv
  exact ⟨row, hrow, by simp [landingMark, hv, hrow]⟩

theorem landingMark_of_not_isColValid (board ev : Board) (col : Nat)
    (hv : board.isColValid col = false) : landingMark board ev col = none := by
  simp [landingMark, hv]

/-- A marker is among `landingMarks` exactly when it sits at the landing cell of a droppable
column. -/
theorem mem_landingMarks (board ev : Board) (ch : Char) :
    ch ∈ landingMarks board ev ↔
      ∃ col, col < WIDTH ∧ board.isColValid col = true ∧
        ∃ row, board.getTopRow col = some row ∧ ev.cell row col = ch := by
  unfold landingMarks
  rw [List.mem_filterMap]
  constructor
  · rintro ⟨col, hcol, hm⟩
    have hc : col < WIDTH := List.mem_range.mp hcol
    by_cases hv : board.isColValid col = true
    · obtain ⟨row, hrow, hl⟩ := landingMark_of_isColValid board ev col hc hv
      rw [hl] at hm
      exact ⟨col, hc, hv, row, hrow, Option.some.inj hm⟩
    · rw [landingMark_of_not_isColValid board ev col (by simpa using hv)] at hm
      cases hm
  · rintro ⟨col, hc, hv, row, hrow, hch⟩
    exact ⟨col, List.mem_range.mpr hc, by simp [landingMark, hv, hrow, hch]⟩

/-! ## The two loops of `getScoreCol` -/

theorem opponentLoop_eq (board ev : Board) (l : List Nat) (hl : ∀ col ∈ l, col < WIDTH) :
    opponentLoop board ev l =
      some ((l.filterMap (landingMark board ev)).any fun ch => decide (ch = 'F' ∨ ch = 'D')) := by
  induction l with
  | nil => simp [opponentLoop]
  | cons a l ih =>
    have ih' := ih fun col hcol => hl col (List.mem_cons_of_mem _ hcol)
    unfold opponentLoop
    by_cases hv : board.isColValid a = true
    · obtain ⟨row, hrow, hm⟩ := landingMark_of_isColValid board ev a
        (hl a (List.mem_cons_self _ _)) hv
      simp only [hv, if_true, hrow, List.filterMap_cons, hm, List.any_cons]
      by_cases hmark : ev.cell row a = 'F' ∨ ev.cell row a = 'D'
      · simp [hmark]
      · simp [hmark, ih']
    · have hv' : board.isColValid a = false := by simpa using hv
      simp [hv', List.filterMap_cons, landingMark_of_not_isColValid board ev a hv', ih']

/-- The score contributed by the markers at the landing cells. -/
theorem playerLoop_eq (board ev : Board) (l : List Nat) (hl : ∀ col ∈ l, col < WIDTH)
    (score : Int) (count : Nat) :
    ∃ score' count', playerLoop board ev l (score, count) = some (score', count') ∧
      count' = count + (l.filterMap (landingMark board ev)).count 'F' ∧
      score' = Max.max score
        (if 'D' ∈ l.filterMap (landingMark board ev) then DOUBLE_TRAP_MOVE
         else if 'F' ∈ l.filterMap (landingMark board ev) then TRAP_MOVE else score) := by
  induction l generalizing score count with
  | nil => exact ⟨score, count, by simp [playerLoop]⟩
  | cons a l ih =>
    have hl' : ∀ col ∈ l, col < WIDTH := fun col hcol => hl col (List.mem_cons_of_mem _ hcol)
    unfold playerLoop
    by_cases hv : board.isColValid a = true
    · obtain ⟨row, hrow, hm⟩ := landingMark_of_isColValid board ev a
        (hl a (List.mem_cons_self _ _)) hv
      simp only [hv, if_true, hrow, List.filterMap_cons, hm]
      by_cases hD : ev.cell row a = 'D'
      · obtain ⟨s', c', h1, h2, h3⟩ := ih hl' (Max.max score DOUBLE_TRAP_MOVE) count
        refine ⟨s', c', by simp [hD, h1], ?_, ?_⟩
        · rw [h2, hD]; simp
        · rw [h3, hD]
          simp only [List.mem_cons, true_or, if_true]
          unfold DOUBLE_TRAP_MOVE TRAP_MOVE
          split_ifs <;> simp only [max_def] <;> split_ifs <;> omega
      · by_cases hF : ev.cell row a = 'F'
        · obtain ⟨s', c', h1, h2, h3⟩ := ih hl' (Max.max score TRAP_MOVE) (count + 1)
          refine ⟨s', c', by simp [hF, h1], ?_, ?_⟩
          · rw [h2, hF]; simp; omega
          · rw [h3, hF]
            simp only [List.mem_cons, true_or, if_true]
            have hne : ('D' : Char) ≠ 'F' := by decide
            simp only [hne, false_or]
            unfold DOUBLE_TRAP_MOVE TRAP_MOVE
            split_ifs <;> simp only [max_def] <;> split_ifs <;> omega
        · obtain ⟨s', c', h1, h2, h3⟩ := ih hl' score count
          refine ⟨s', c', by simp [hD, hF, h1], ?_, ?_⟩
          · rw [h2, List.count_cons]
            have : (ev.cell row a == 'F') = false := by simpa using hF
            simp [this]
          · rw [h3]
            have h1' : ¬ 'D' = ev.cell row a := fun h => hD h.symm
            have h2' : ¬ 'F' = ev.cell row a := fun h => hF h.symm
            simp only [List.mem_cons, h1', h2', false_or]
    · have hv' : board.isColValid a = false := by simpa using hv
      obtain ⟨s', c', h1, h2, h3⟩ := ih hl' score count
      refine ⟨s', c', by simp [hv', h1], ?_, ?_⟩
      · rw [h2]; simp [List.filterMap_cons, landingMark_of_not_isColValid board ev a hv']
      · rw [h3]; simp [List.filterMap_cons, landingMark_of_not_isColValid board ev a hv']

/-! ## `getScoreCol` -/

theorem getOpponent_valid (p : Char) : getOpponent p = P1 ∨ getOpponent p = P2 := by
  unfold getOpponent
  by_cases h : p = P1
  · right; simp [h]
  · left; simp [h]

theorem getOpponent_getOpponent (p : Char) (h : p = P1 ∨ p = P2) :
    getOpponent (getOpponent p) = p := by
  rcases h with h | h <;> subst h <;> decide

theorem getScoreCol_of_isDone (s : State) (col : Nat) (h : s.isDone = true) :
    getScoreCol s col = some WIN_MOVE := by
  simp [getScoreCol, h]

/-- The value of `getScoreCol` on a state that is not done, in terms of the markers at the
landing cells in the two evaluation boards. -/
theorem getScoreCol_of_not_isDone (s : State) (col : Nat) (h : s.isDone = false) :
    getScoreCol s col = some
      (if (landingMarks s.getBoard
            (getEvaluationBoard s.getBoard (getOpponent (getOpponent s.getTurn)))).any
            (fun ch => decide (ch = 'F' ∨ ch = 'D')) = true then FORCED_MOVE
       else if 'D' ∈ landingMarks s.getBoard
            (getEvaluationBoard s.getBoard (getOpponent s.getTurn)) ∨
          2 ≤ (landingMarks s.getBoard
            (getEvaluationBoard s.getBoard (getOpponent s.getTurn))).count 'F'
        then DOUBLE_TRAP_MOVE
       else if (landingMarks s.getBoard
            (getEvaluationBoard s.getBoard (getOpponent s.getTurn))).count 'F' = 1
        then TRAP_MOVE
       else 0) := by
  have hr : ∀ col ∈ List.range WIDTH, col < WIDTH := fun col hc => List.mem_range.mp hc
  unfold getScoreCol
  simp only [h, Bool.false_eq_true, if_false]
  rw [opponentLoop_eq _ _ _ hr]
  change (match some ((landingMarks s.getBoard
      (getEvaluationBoard s.getBoard (getOpponent (getOpponent s.getTurn)))).any
      fun ch => decide (ch = 'F' ∨ ch = 'D')) with
    | none => none
    | some true => some FORCED_MOVE
    | some false => _) = _
  cases hany : (landingMarks s.getBoard
      (getEvaluationBoard s.getBoard (getOpponent (getOpponent s.getTurn)))).any
      fun ch => decide (ch = 'F' ∨ ch = 'D')
  · obtain ⟨score, count, h1, h2, h3⟩ :=
      playerLoop_eq s.getBoard (getEvaluationBoard s.getBoard (getOpponent s.getTurn))
        (List.range WIDTH) hr 0 0
    simp only [h1, Bool.false_eq_true, if_false]
    change (if count > 1 then some DOUBLE_TRAP_MOVE else some score) = _
    have h2' : count = (landingMarks s.getBoard
        (getEvaluationBoard s.getBoard (getOpponent s.getTurn))).count 'F' := by
      rw [h2]; simp [landingMarks]
    have h3' : score = Max.max 0
        (if 'D' ∈ landingMarks s.getBoard (getEvaluationBoard s.getBoard (getOpponent s.getTurn))
          then DOUBLE_TRAP_MOVE
         else if 'F' ∈ landingMarks s.getBoard
            (getEvaluationBoard s.getBoard (getOpponent s.getTurn)) then TRAP_MOVE else 0) := h3
    rw [← h2']
    have hF : 'F' ∈ landingMarks s.getBoard
        (getEvaluationBoard s.getBoard (getOpponent s.getTurn)) ↔ 0 < count := by
      rw [h2']; exact List.count_pos_iff.symm
    rw [h3']
    unfold DOUBLE_TRAP_MOVE TRAP_MOVE
    by_cases hD : 'D' ∈ landingMarks s.getBoard
        (getEvaluationBoard s.getBoard (getOpponent s.getTurn))
    · simp only [hD, true_or, if_true]
      split_ifs <;> simp
    · simp only [hD, false_or, if_false, hF]
      split_ifs <;> first | rfl | omega
  · simp

theorem getScoreCol_isSome (s : State) (col : Nat) : ∃ v, getScoreCol s col = some v := by
  cases h : s.isDone
  · exact ⟨_, getScoreCol_of_not_isDone s col h⟩
  · exact ⟨_, getScoreCol_of_isDone s col h⟩

/-! ## `State::addPosition` -/

theorem addPosition_isSome (s : State) (col : Nat) (hc : col < WIDTH)
    (hv : s.isColValid col = true) : ∃ s', s.addPosition col = some s' := by
  obtain ⟨row, hrow, _, _⟩ := getTopRow_of_isColValid s._board col hc hv
  unfold State.addPosition
  simp only [hrow]
  split
  · exact ⟨_, rfl⟩
  · exact ⟨_, rfl⟩

theorem addPosition_board (s s' : State) (col : Nat) (h : s.addPosition col = some s') :
    ∃ row, s._board.getTopRow col = some row ∧ s'._board = s._board.set row col s._pTurn := by
  unfold State.addPosition at h
  cases hrow : s._board.getTopRow col with
  | none => simp [hrow] at h
  | some row =>
    refine ⟨row, rfl, ?_⟩
    simp only [hrow] at h
    split at h
    · cases h; rfl
    · cases h; rfl

/-- A drop that completes a line of four for the player to move sets the done flag. -/
theorem addPosition_isDone_of_win (s s' : State) (col : Nat) (h : s.addPosition col = some s')
    (hwin : s'.getBoard.isDone s.getTurn = true) : s'.isDone = true := by
  obtain ⟨row, hrow, hb⟩ := addPosition_board s s' col h
  have hwin' : (s._board.set row col s._pTurn).isDone s._pTurn = true := by
    rw [← hb]; exact hwin
  unfold State.addPosition at h
  simp only [hrow, hwin', Bool.true_eq_false, if_false, Option.some.injEq] at h
  subst h; rfl

/-- A drop that leaves the state not done hands the turn to the opponent. -/
theorem addPosition_turn_of_not_isDone (s s' : State) (col : Nat)
    (h : s.addPosition col = some s') (hnd : s'.isDone = false) :
    s'.getTurn = getOpponent s.getTurn ∧ s'.getBoard.isDone s.getTurn = false := by
  obtain ⟨row, hrow, hb⟩ := addPosition_board s s' col h
  unfold State.addPosition at h
  simp only [hrow] at h
  split at h
  · next hd =>
    cases h
    exact ⟨rfl, hd⟩
  · cases h
    simp [State.isDone] at hnd

/-! ## `getScoreColRec` and `getScores` -/

theorem getScoreColRec_spec (getScoresRec : State → Option Scores)
    (hrec : ∀ st, ∃ r, getScoresRec st = some r) (state : State) (col : Fin WIDTH)
    (player : Char) (scores : Scores) :
    ∃ scores', getScoreColRec getScoresRec state col player scores = some scores' ∧
      (∀ j, j ≠ col → scores' j = scores j) ∧
      ColEntry getScoresRec state col player (scores col) (scores' col) := by
  cases hv : state.isColValid col.val
  · refine ⟨scores, ?_, fun _ _ => rfl, fun _ => rfl, fun h => ?_⟩
    · unfold getScoreColRec; simp only [hv, if_true]
    · rw [hv] at h; cases h
  · obtain ⟨next, hnext⟩ := addPosition_isSome state col.val col.isLt hv
    obtain ⟨v, hv'⟩ := getScoreCol_isSome next col.val
    by_cases hshort : v = WIN_MOVE ∨ v = DOUBLE_TRAP_MOVE ∨ v = FORCED_MOVE
    · refine ⟨scores.set col v, ?_, fun j hj => by simp [Scores.set, hj],
        fun h => ?_, fun _ => ⟨next, v, hnext, hv', fun _ => by simp [Scores.set],
          fun h => absurd hshort h⟩⟩
      · unfold getScoreColRec
        simp only [hv, Bool.true_eq_false, if_false, hnext, hv', hshort, if_true]
      · rw [hv] at h; cases h
    · obtain ⟨r, hr⟩ := hrec next
      refine ⟨(scores.set col v).set col (recursionFactor
          (if player = next.getLastPayer then wrapInt32 (-r.max) else r.max)), ?_,
        fun j hj => by simp [Scores.set, hj],
        fun h => ?_, fun _ => ⟨next, v, hnext, hv', fun h => absurd h hshort,
          fun _ => ⟨r, hr, by simp [Scores.set]⟩⟩⟩
      · unfold getScoreColRec
        simp only [hv, Bool.true_eq_false, if_false, hnext, hv', hshort, hr]
      · rw [hv] at h; cases h

theorem getScoresLoop_spec (getScoresRec : State → Option Scores)
    (hrec : ∀ st, ∃ r, getScoresRec st = some r) (state : State) (player : Char)
    (l : List (Fin WIDTH)) (hl : l.Nodup) (init : Scores) :
    ∃ final, getScoresLoop getScoresRec state player l init = some final ∧
      (∀ j, j ∉ l → final j = init j) ∧
      (∀ j, j ∈ l → ColEntry getScoresRec state j player (init j) (final j)) := by
  induction l generalizing init with
  | nil => exact ⟨init, rfl, fun _ _ => rfl, fun j hj => by simp at hj⟩
  | cons a l ih =>
    obtain ⟨hal, hl'⟩ := List.nodup_cons.mp hl
    obtain ⟨s1, h1, hframe, hentry⟩ := getScoreColRec_spec getScoresRec hrec state a player init
    obtain ⟨final, h2, hout, hin⟩ := ih hl' s1
    refine ⟨final, by simp [getScoresLoop, h1, h2], ?_, ?_⟩
    · intro j hj
      have hja : j ≠ a := fun h => hj (h ▸ List.mem_cons_self _ _)
      have hjl : j ∉ l := fun h => hj (List.mem_cons_of_mem _ h)
      rw [hout j hjl, hframe j hja]
    · intro j hj
      rcases List.mem_cons.mp hj with h | h
      · subst h
        rw [hout j hal]; exact hentry
      · have hja : j ≠ a := fun h' => hal (h' ▸ h)
        have := hin j h
        rw [hframe j hja] at this
        exact this

/-- The function `getScores` returns a vector on every state, for every player and depth. -/
theorem getScores_isSome (state : State) (player : Char) (d : Nat) :
    ∃ scores, getScores state player d = some scores := by
  induction d generalizing state with
  | zero => exact ⟨_, rfl⟩
  | succ d ih =>
    obtain ⟨final, h, _, _⟩ := getScoresLoop_spec (fun st => getScores st player d)
      (fun st => ih st) state player allCols (List.nodup_finRange _) Scores.lowest
    exact ⟨final, h⟩

/-- At depth `d + 1` every entry of the vector is the one computed by `getScoreColRec` for its
column, starting from the sentinel. -/
theorem getScores_succ_spec (state : State) (player : Char) (d : Nat) :
    ∃ scores, getScores state player (d + 1) = some scores ∧
      ∀ col, ColEntry (fun st => getScores st player d) state col player INT_LOWEST
        (scores col) := by
  obtain ⟨final, h, _, hin⟩ := getScoresLoop_spec (fun st => getScores st player d)
    (fun st => getScores_isSome st player d) state player allCols (List.nodup_finRange _)
    Scores.lowest
  exact ⟨final, h, fun col => hin col (mem_allCols col)⟩

/-- Unless column 3 attains the maximum, the collected `colSet` is the list of the columns
attaining the maximum, and it is not empty. -/
theorem getBestColLoop_colSet (s : Scores) (hlow : ∀ c, INT_LOWEST ≤ s c) (h3 : s 3 ≠ s.max) :
    s.getBestColLoop s.max allCols [] =
        Sum.inr (allCols.filter fun c => decide (s c = s.max)) ∧
      (allCols.filter fun c => decide (s c = s.max)) ≠ [] := by
  refine ⟨by simpa using getBestColLoop_collect s s.max h3 allCols [], fun h => ?_⟩
  obtain ⟨cm, hcm⟩ := s.max_attained hlow
  have : cm ∈ allCols.filter fun c => decide (s c = s.max) :=
    List.mem_filter.mpr ⟨mem_allCols cm, by simpa using hcm⟩
  rw [h] at this
  simp at this

/-- The column returned by `getBestCol` exists, attains the maximum, and is 3 when column 3
attains the maximum. -/
theorem getBestCol_some_max (shuffle : List (Fin WIDTH) → List (Fin WIDTH))
    (hshuffle : ∀ l, (shuffle l).Perm l) (s : Scores) (hlow : ∀ c, INT_LOWEST ≤ s c) :
    ∃ col, s.getBestCol shuffle = some col ∧ s col = s.max ∧ (s 3 = s.max → col = 3) := by
  by_cases h3 : s 3 = s.max
  · have hloop := getBestColLoop_three s s.max h3 allCols [] (mem_allCols 3)
    exact ⟨3, by simp [Scores.getBestCol, hloop], h3, fun _ => rfl⟩
  · obtain ⟨hloop, hne⟩ := getBestColLoop_colSet s hlow h3
    have hmem : ∀ c, c ∈ (allCols.filter fun c => decide (s c = s.max)) → s c = s.max := by
      intro c hc
      simpa using (List.mem_filter.mp hc).2
    simp only [Scores.getBestCol, hloop]
    split
    · obtain ⟨a, ha, ham⟩ := head_mem_of_ne_nil _ hne
      exact ⟨a, ha, hmem a ham, fun h => absurd h h3⟩
    · have hne' : shuffle (allCols.filter fun c => decide (s c = s.max)) ≠ [] := by
        intro h
        have := (hshuffle (allCols.filter fun c => decide (s c = s.max))).length_eq
        rw [h] at this
        exact hne (List.length_eq_zero.mp this.symm)
      obtain ⟨a, ha, ham⟩ := head_mem_of_ne_nil _ hne'
      have ham' := (hshuffle _).mem_iff.mp ham
      exact ⟨a, ha, hmem a ham', fun h => absurd h h3⟩

/-- C1: for every vector of seven 32-bit scores and every shuffle that permutes its argument,
`Scores::max` is the greatest entry of the vector (it bounds every entry and some entry
attains it), and `getBestCol` returns a column (the list it indexes at position 0 is not
empty); the column is 3 whenever `scores[3]` is the maximum, that is whenever no entry
exceeds `scores[3]`; its score always equals the maximum, so no entry exceeds it; and it is
the unique column attaining the maximum when there is exactly one, that is when one column
holds a score strictly above all the others. -/
theorem getBestCol_spec (shuffle : List (Fin WIDTH) → List (Fin WIDTH))
    (hshuffle : ∀ l, (shuffle l).Perm l) (s : Scores) (hs : s.InRange) :
    ((∀ c, s c ≤ s.max) ∧ ∃ c, s c = s.max) ∧
    (∀ colSet, s.getBestColLoop s.max allCols [] = Sum.inr colSet → colSet ≠ []) ∧
    ∃ col, s.getBestCol shuffle = some col ∧
      (s 3 = s.max → col = 3) ∧
      ((∀ c, s c ≤ s 3) → col = 3) ∧
      s col = s.max ∧
      (∀ c, s c ≤ s col) ∧
      (∀ c, (∀ c', s c' = s.max ↔ c' = c) → col = c) ∧
      (∀ c, (∀ c', c' ≠ c → s c' < s c) → col = c) := by
  have hlow : ∀ c, INT_LOWEST ≤ s c := fun c => (hs c).1
  refine ⟨⟨fun c => s.le_max c, s.max_attained hlow⟩, ?_, ?_⟩
  · intro colSet h
    by_cases h3 : s 3 = s.max
    · rw [getBestColLoop_three s s.max h3 allCols [] (mem_allCols 3)] at h
      cases h
    · obtain ⟨hloop, hne⟩ := getBestColLoop_colSet s hlow h3
      rw [hloop] at h
      cases h
      exact hne
  · obtain ⟨col, hcol, hmax, hthree⟩ := getBestCol_some_max shuffle hshuffle s hlow
    refine ⟨col, hcol, hthree, fun hall => ?_, hmax, fun c => ?_,
      fun c hc => (hc col).mp hmax, fun c hc => ?_⟩
    · obtain ⟨m, hm⟩ := s.max_attained hlow
      exact hthree (le_antisymm (s.le_max 3) (hm ▸ hall m))
    · rw [hmax]
      exact s.le_max c
    · by_contra hne
      have h1 := hc col hne
      have h2 := s.le_max c
      rw [← hmax] at h2
      exact absurd h1 (not_lt.mpr h2)

/-- Witness of `getBestCol_spec`: the identity shuffle and a vector in which columns 1 and 4
tie for the maximum. -/
theorem getBestCol_spec_witness :
    (∀ l : List (Fin WIDTH), (id l).Perm l) ∧ tiedScores.InRange ∧
    (((∀ c, tiedScores c ≤ tiedScores.max) ∧ ∃ c, tiedScores c = tiedScores.max) ∧
      (∀ colSet, tiedScores.getBestColLoop tiedScores.max allCols [] =
        Sum.inr colSet → colSet ≠ []) ∧
      ∃ col, tiedScores.getBestCol id = some col ∧
        (tiedScores 3 = tiedScores.max → col = 3) ∧
        ((∀ c, tiedScores c ≤ tiedScores 3) → col = 3) ∧
        tiedScores col = tiedScores.max ∧
        (∀ c, tiedScores c ≤ tiedScores col) ∧
        (∀ c, (∀ c', tiedScores c' = tiedScores.max ↔ c' = c) → col = c) ∧
        (∀ c, (∀ c', c' ≠ c → tiedScores c' < tiedScores c) → col = c)) :=
  ⟨fun l => List.Perm.refl l, by unfold Scores.InRange; decide,
    getBestCol_spec id (fun l => List.Perm.refl l) tiedScores (by unfold Scores.InRange; decide)⟩

/-- C8: at depth 0 `getScores` returns, for every state and player, the vector whose seven
entries are all 0, and the constructor `Scores(i)` yields that vector for every `i`. -/
theorem getScores_zero (state : State) (player : Char) :
    getScores state player 0 = some (fun _ : Fin 7 => (0 : Int)) ∧
    ∀ i : Int, Scores.ofValue i = fun _ : Fin 7 => (0 : Int) :=
  ⟨rfl, fun _ => rfl⟩

/-- C9: at every depth `d + 1 ≥ 1`, for every state and player, `getScores` returns a vector
in which every column that is not droppable holds the sentinel `INT_LOWEST`; when no column
is droppable all seven entries are the sentinel. -/
theorem getScores_not_droppable (state : State) (player : Char) (d : Nat) :
    ∃ scores, getScores state player (d + 1) = some scores ∧
      (∀ col : Fin WIDTH, state.isColValid col.val = false → scores col = INT_LOWEST) ∧
      ((∀ col : Fin WIDTH, state.isColValid col.val = false) →
        ∀ col : Fin WIDTH, scores col = INT_LOWEST) := by
  obtain ⟨scores, h, hentry⟩ := getScores_succ_spec state player d
  exact ⟨scores, h, fun col hcol => (hentry col).1 hcol,
    fun hall col => (hentry col).1 (hall col)⟩

/-- Witness of `getScores_not_droppable`: column 3 of `fullColumnState` is not droppable and
keeps the sentinel at depth 1. -/
theorem getScores_not_droppable_witness :
    fullColumnState.isColValid 3 = false ∧
    ∃ scores, getScores fullColumnState P1 1 = some scores ∧ scores 3 = INT_LOWEST := by
  obtain ⟨scores, h, hcol, _⟩ := getScores_not_droppable fullColumnState P1 0
  exact ⟨by decide, scores, h, hcol 3 (by decide)⟩

/-- C4: when the state is not done and the drop of the player to move into the droppable
column `c` completes a line of four, `getScoreCol` on the post-drop state is `WIN_MOVE`, and
for every player and every depth `d + 1 ≥ 1` `getScores` returns a vector whose entry `c` is
exactly `WIN_MOVE`. -/
theorem getScores_win_move (s0 s : State) (c : Fin WIDTH) (_hnd : s0.isDone = false)
    (hv : s0.isColValid c.val = true) (hdrop : s0.addPosition c.val = some s)
    (hwin : s.getBoard.isDone s0.getTurn = true) :
    (∀ k, getScoreCol s k = some WIN_MOVE) ∧
    ∀ (player : Char) (d : Nat),
      ∃ scores, getScores s0 player (d + 1) = some scores ∧ scores c = WIN_MOVE := by
  have hdone : s.isDone = true := addPosition_isDone_of_win s0 s c.val hdrop hwin
  refine ⟨fun k => getScoreCol_of_isDone s k hdone, fun player d => ?_⟩
  obtain ⟨scores, h, hentry⟩ := getScores_succ_spec s0 player d
  refine ⟨scores, h, ?_⟩
  obtain ⟨next, v, hnext, hv', hshort, _⟩ := (hentry c).2 hv
  rw [hdrop] at hnext
  cases hnext
  rw [getScoreCol_of_isDone s c.val hdone] at hv'
  cases hv'
  exact hshort (Or.inl rfl)

/-- Witness of `getScores_win_move`: in `verticalThreeState` the landing cell of column 2 sits
on three stacked tokens of the player to move. -/
theorem getScores_win_move_witness :
    verticalThreeState.isDone = false ∧ verticalThreeState.isColValid 2 = true ∧
    ∃ s, verticalThreeState.addPosition 2 = some s ∧
      s.getBoard.isDone verticalThreeState.getTurn = true ∧
      (∀ k, getScoreCol s k = some WIN_MOVE) ∧
      ∀ (player : Char) (d : Nat),
        ∃ scores, getScores verticalThreeState player (d + 1) = some scores ∧
          scores 2 = WIN_MOVE := by
  obtain ⟨s, hs⟩ := addPosition_isSome verticalThreeState 2 (by decide) (by decide)
  obtain ⟨row, hrow, hb⟩ := addPosition_board verticalThreeState s 2 hs
  have hrow3 : verticalThreeState._board.getTopRow 2 = some 3 := by decide
  rw [hrow3] at hrow
  cases hrow
  have hwin : s.getBoard.isDone verticalThreeState.getTurn = true := by
    show s._board.isDone verticalThreeState._pTurn = true
    rw [hb]; decide
  exact ⟨by decide, by decide, s, hs, hwin,
    getScores_win_move verticalThreeState s 2 (by decide) (by decide) hs hwin⟩

theorem any_forced_iff (board ev : Board) :
    (landingMarks board ev).any (fun ch => decide (ch = 'F' ∨ ch = 'D')) = true ↔
      ∃ evalCol, evalCol < WIDTH ∧ board.isColValid evalCol = true ∧
        ∃ row, board.getTopRow evalCol = some row ∧
          (ev.cell row evalCol = 'F' ∨ ev.cell row evalCol = 'D') := by
  rw [List.any_eq_true]
  constructor
  · rintro ⟨ch, hmem, hch⟩
    obtain ⟨col, hc, hv, row, hrow, hcell⟩ := (mem_landingMarks board ev ch).mp hmem
    refine ⟨col, hc, hv, row, hrow, ?_⟩
    rw [hcell]; simpa using hch
  · rintro ⟨col, hc, hv, row, hrow, hcell⟩
    exact ⟨ev.cell row col, (mem_landingMarks board ev _).mpr ⟨col, hc, hv, row, hrow, rfl⟩,
      by simpa using hcell⟩

/-- C5: on a post-drop state that is not done, if the landing cell of some droppable column
is marked `'F'` or `'D'` in the evaluation board of the player now to move, `getScoreCol`
returns `FORCED_MOVE` (the evaluation board of the mover is not consulted); and if no
droppable column has such a landing cell, `getScoreCol` returns a value `≥ 0`. -/
theorem getScoreCol_forced_move (s0 s : State) (c col : Nat)
    (hdrop : s0.addPosition c = some s) (hnd : s.isDone = false) :
    ((∃ evalCol, evalCol < WIDTH ∧ s.getBoard.isColValid evalCol = true ∧
        ∃ row, s.getBoard.getTopRow evalCol = some row ∧
          ((getEvaluationBoard s.getBoard s.getTurn).cell row evalCol = 'F' ∨
           (getEvaluationBoard s.getBoard s.getTurn).cell row evalCol = 'D')) →
      getScoreCol s col = some FORCED_MOVE) ∧
    ((¬ ∃ evalCol, evalCol < WIDTH ∧ s.getBoard.isColValid evalCol = true ∧
        ∃ row, s.getBoard.getTopRow evalCol = some row ∧
          ((getEvaluationBoard s.getBoard s.getTurn).cell row evalCol = 'F' ∨
           (getEvaluationBoard s.getBoard s.getTurn).cell row evalCol = 'D')) →
      ∃ v, getScoreCol s col = some v ∧ 0 ≤ v) := by
  have hturn : getOpponent (getOpponent s.getTurn) = s.getTurn := by
    apply getOpponent_getOpponent
    rw [(addPosition_turn_of_not_isDone s0 s c hdrop hnd).1]
    exact getOpponent_valid _
  have heq := getScoreCol_of_not_isDone s col hnd
  rw [hturn] at heq
  constructor
  · intro h
    rw [heq, if_pos ((any_forced_iff _ _).mpr h)]
  · intro h
    rw [heq, if_neg (fun h' => h ((any_forced_iff _ _).mp h'))]
    refine ⟨_, rfl, ?_⟩
    unfold DOUBLE_TRAP_MOVE TRAP_MOVE
    split_ifs <;> decide

/-- Witness of `getScoreCol_forced_move`: after `P2` drops into column 6 of
`horizontalThreeState`, the landing cell `(0, 3)` is marked `'F'` for `P1`, now to move. -/
theorem getScoreCol_forced_move_witness :
    ∃ s, horizontalThreeState.addPosition 6 = some s ∧ s.isDone = false ∧
      s.getBoard.isColValid 3 = true ∧ s.getBoard.getTopRow 3 = some 0 ∧
      (getEvaluationBoard s.getBoard s.getTurn).cell 0 3 = 'F' ∧
      getScoreCol s 6 = some FORCED_MOVE := by
  obtain ⟨s, hs⟩ := addPosition_isSome horizontalThreeState 6 (by decide) (by decide)
  obtain ⟨row, hrow, hb⟩ := addPosition_board horizontalThreeState s 6 hs
  have hrow0 : horizontalThreeState._board.getTopRow 6 = some 0 := by decide
  rw [hrow0] at hrow
  cases hrow
  have hs' : s = (playedFromP1 [0, 0, 1, 1, 2, 6]) := by
    have : horizontalThreeState.addPosition 6 = some (playedFromP1 [0, 0, 1, 1, 2, 6]) := rfl
    rw [this] at hs
    exact (Option.some.inj hs).symm
  subst hs'
  have hnd : (playedFromP1 [0, 0, 1, 1, 2, 6]).isDone = false := by decide
  have hvalid : (playedFromP1 [0, 0, 1, 1, 2, 6]).getBoard.isColValid 3 = true := by decide
  have htop : (playedFromP1 [0, 0, 1, 1, 2, 6]).getBoard.getTopRow 3 = some 0 := by decide
  have hmark : (getEvaluationBoard (playedFromP1 [0, 0, 1, 1, 2, 6]).getBoard
      (playedFromP1 [0, 0, 1, 1, 2, 6]).getTurn).cell 0 3 = 'F' := by decide
  exact ⟨_, hs, hnd, hvalid, htop, hmark,
    (getScoreCol_forced_move horizontalThreeState _ 6 6 hs hnd).1
      ⟨3, by decide, hvalid, 0, htop, Or.inl hmark⟩⟩

/-- C10: on a post-drop state that is not done and in which no droppable column's landing
cell is marked for the player now to move, `getScoreCol` returns, from the markers `M` at the
landing cells of the droppable columns in the evaluation board of the player who just moved:
`DOUBLE_TRAP_MOVE` if some marker is `'D'` or at least two are `'F'`, `TRAP_MOVE` if exactly
one is `'F'` and none is `'D'`, and 0 otherwise.  On every input `getScoreCol` returns one of
`WIN_MOVE`, `FORCED_MOVE`, 0, `TRAP_MOVE`, `DOUBLE_TRAP_MOVE`. -/
theorem getScoreCol_trap_score (s0 s : State) (c col : Nat)
    (hmover : s0.getTurn = P1 ∨ s0.getTurn = P2)
    (hdrop : s0.addPosition c = some s) (hnd : s.isDone = false)
    (hno : ¬ ∃ evalCol, evalCol < WIDTH ∧ s.getBoard.isColValid evalCol = true ∧
        ∃ row, s.getBoard.getTopRow evalCol = some row ∧
          ((getEvaluationBoard s.getBoard s.getTurn).cell row evalCol = 'F' ∨
           (getEvaluationBoard s.getBoard s.getTurn).cell row evalCol = 'D')) :
    getScoreCol s col = some
      (if 'D' ∈ landingMarks s.getBoard (getEvaluationBoard s.getBoard s0.getTurn) ∨
          2 ≤ (landingMarks s.getBoard (getEvaluationBoard s.getBoard s0.getTurn)).count 'F'
        then DOUBLE_TRAP_MOVE
       else if (landingMarks s.getBoard (getEvaluationBoard s.getBoard s0.getTurn)).count 'F' = 1
        then TRAP_MOVE
       else 0) ∧
    ∀ (st : State) (k : Nat), ∃ v, getScoreCol st k = some v ∧
      (v = WIN_MOVE ∨ v = FORCED_MOVE ∨ v = 0 ∨ v = TRAP_MOVE ∨ v = DOUBLE_TRAP_MOVE) := by
  constructor
  · have hs := (addPosition_turn_of_not_isDone s0 s c hdrop hnd).1
    have hturn : getOpponent (getOpponent s.getTurn) = s.getTurn := by
      apply getOpponent_getOpponent
      rw [hs]; exact getOpponent_valid _
    have hlast : getOpponent s.getTurn = s0.getTurn := by
      rw [hs]; exact getOpponent_getOpponent _ hmover
    have heq := getScoreCol_of_not_isDone s col hnd
    rw [hturn, hlast] at heq
    rw [heq, if_neg (fun h' => hno ((any_forced_iff _ _).mp h'))]
  · intro st k
    cases hd : st.isDone
    · refine ⟨_, getScoreCol_of_not_isDone st k hd, ?_⟩
      split_ifs
      · exact Or.inr (Or.inl rfl)
      · exact Or.inr (Or.inr (Or.inr (Or.inr rfl)))
      · exact Or.inr (Or.inr (Or.inr (Or.inl rfl)))
      · exact Or.inr (Or.inr (Or.inl rfl))
    · exact ⟨_, getScoreCol_of_isDone st k hd, Or.inl rfl⟩

/-- Witness of `getScoreCol_trap_score`: the drop of `P1` into column 2 that yields
`horizontalThreeState` leaves exactly one landing cell, `(0, 3)`, marked `'F'` for `P1`. -/
theorem getScoreCol_trap_score_witness :
    (playedFromP1 [0, 0, 1, 1]).addPosition 2 = some horizontalThreeState ∧
    horizontalThreeState.isDone = false ∧
    landingMarks horizontalThreeState.getBoard
      (getEvaluationBoard horizontalThreeState.getBoard P1) =
        [' ', ' ', ' ', 'F', ' ', ' ', ' '] ∧
    getScoreCol horizontalThreeState 2 = some TRAP_MOVE := by
  have hdrop : (playedFromP1 [0, 0, 1, 1]).addPosition 2 = some horizontalThreeState := rfl
  have hnd : horizontalThreeState.isDone = false := by decide
  have hno : ¬ ∃ evalCol, evalCol < WIDTH ∧
      horizontalThreeState.getBoard.isColValid evalCol = true ∧
      ∃ row, horizontalThreeState.getBoard.getTopRow evalCol = some row ∧
        ((getEvaluationBoard horizontalThreeState.getBoard
            horizontalThreeState.getTurn).cell row evalCol = 'F' ∨
         (getEvaluationBoard horizontalThreeState.getBoard
            horizontalThreeState.getTurn).cell row evalCol = 'D') := by
    intro h
    have := (any_forced_iff _ _).mpr h
    revert this
    decide
  have hmarks : landingMarks horizontalThreeState.getBoard
      (getEvaluationBoard horizontalThreeState.getBoard P1) =
        [' ', ' ', ' ', 'F', ' ', ' ', ' '] := by decide
  have h := (getScoreCol_trap_score (playedFromP1 [0, 0, 1, 1]) horizontalThreeState 2 2
    (Or.inl rfl) hdrop hnd hno).1
  have hP1 : (playedFromP1 [0, 0, 1, 1]).getTurn = P1 := by decide
  rw [hP1, hmarks] at h
  exact ⟨hdrop, hnd, hmarks, h⟩

/-! ## The chosen column -/

theorem play_playedFromP1 (cols : List Nat) (h : (play (State.init P1) cols).isSome = true) :
    play (State.init P1) cols = some (playedFromP1 cols) := by
  unfold playedFromP1
  cases hp : play (State.init P1) cols with
  | none => rw [hp] at h; cases h
  | some s => rfl

theorem recursionFactor_bounds (y : Int) (h1 : INT_LOWEST ≤ y) (h2 : y ≤ 2147483647) :
    -1431655765 ≤ recursionFactor y ∧ recursionFactor y ≤ 1431655764 := by
  unfold INT_LOWEST at h1
  unfold recursionFactor
  by_cases h : 0 ≤ y
  · rw [Int.tdiv_eq_ediv (by omega) (by omega)]; omega
  · have : 2 * y = -(2 * (-y)) := by ring
    rw [this, Int.neg_tdiv, Int.tdiv_eq_ediv (by omega) (by omega)]; omega

theorem wrapInt32_bounds (x : Int) : INT_LOWEST ≤ wrapInt32 x ∧ wrapInt32 x ≤ 2147483647 := by
  unfold wrapInt32 INT_LOWEST
  omega

theorem Scores.max_inRange (s : Scores) (h : s.InRange) :
    INT_LOWEST ≤ s.max ∧ s.max ≤ 2147483647 := by
  obtain ⟨c, hc⟩ := s.max_attained fun c => (h c).1
  rw [← hc]; exact h c

/-- The entry written for a droppable column is a 32-bit value above the sentinel. -/
theorem ColEntry_bounds (getScoresRec : State → Option Scores)
    (hrec : ∀ st r, getScoresRec st = some r → r.InRange) (state : State) (col : Fin WIDTH)
    (player : Char) (x : Int) (h : ColEntry getScoresRec state col player INT_LOWEST x) :
    (INT_LOWEST ≤ x ∧ x ≤ 2147483647) ∧
      (state.isColValid col.val = true → INT_LOWEST < x) := by
  cases hv : state.isColValid col.val
  · rw [h.1 hv]
    exact ⟨by decide, fun h' => by cases h'⟩
  · obtain ⟨next, v, _, hval, hshort, hdeep⟩ := h.2 hv
    by_cases hs : v = WIN_MOVE ∨ v = DOUBLE_TRAP_MOVE ∨ v = FORCED_MOVE
    · rw [hshort hs]
      rcases hs with h' | h' | h' <;> subst h' <;> exact ⟨by decide, fun _ => by decide⟩
    · obtain ⟨r, hr, hx⟩ := hdeep hs
      have hm := r.max_inRange (hrec next r hr)
      have hy :
          INT_LOWEST ≤ (if player = next.getLastPayer then wrapInt32 (-r.max) else r.max) ∧
          (if player = next.getLastPayer then wrapInt32 (-r.max) else r.max) ≤ 2147483647 := by
        split
        · exact wrapInt32_bounds _
        · exact hm
      have hb := recursionFactor_bounds _ hy.1 hy.2
      rw [hx]
      unfold INT_LOWEST
      exact ⟨⟨by omega, by omega⟩, fun _ => by omega⟩

/-- Every vector returned by `getScores` consists of 32-bit values. -/
theorem getScores_inRange (player : Char) (d : Nat) :
    ∀ (state : State) (scores : Scores), getScores state player d = some scores →
      scores.InRange := by
  induction d with
  | zero =>
    intro state scores h
    cases h
    intro c
    show INT_LOWEST ≤ (0 : Int) ∧ (0 : Int) ≤ 2147483647
    exact ⟨by decide, by decide⟩
  | succ d ih =>
    intro state scores h
    obtain ⟨scores', h', hentry⟩ := getScores_succ_spec state player d
    rw [h] at h'
    cases h'
    intro c
    exact (ColEntry_bounds _ (fun st r hr => ih st r hr) state c player _ (hentry c)).1

/-- C2, as the code has it: for every depth `d + 1 ≥ 1`, every shuffle that permutes its
argument and every reachable state that is not done and has a droppable column, `getCol`
returns a column, that column is droppable, and `addPosition` on it succeeds. -/
theorem getCol_droppable (shuffle : List (Fin WIDTH) → List (Fin WIDTH))
    (hshuffle : ∀ l, (shuffle l).Perm l) (state : State) (_hreach : Reachable state)
    (_hnd : state.isDone = false) (hcol : ∃ c : Fin WIDTH, state.isColValid c.val = true)
    (d : Nat) :
    ∃ col, getCol shuffle state (d + 1) = some col ∧ state.isColValid col.val = true ∧
      ∃ s', state.addPosition col.val = some s' := by
  obtain ⟨scores, h, hentry⟩ := getScores_succ_spec state state.getTurn d
  have hrange : scores.InRange := getScores_inRange _ _ state scores h
  have hb := fun c => ColEntry_bounds _ (fun st r hr => getScores_inRange _ d st r hr)
    state c state.getTurn _ (hentry c)
  obtain ⟨col, hbest, hmax, _⟩ := getBestCol_some_max shuffle hshuffle scores
    fun c => (hrange c).1
  obtain ⟨c0, hc0⟩ := hcol
  have hlt : INT_LOWEST < scores col := by
    rw [hmax]
    exact lt_of_lt_of_le ((hb c0).2 hc0) (scores.le_max c0)
  have hvalid : state.isColValid col.val = true := by
    cases hv : state.isColValid col.val
    · rw [(hentry col).1 hv] at hlt
      exact absurd hlt (lt_irrefl _)
    · rfl
  refine ⟨col, ?_, hvalid, addPosition_isSome state col.val col.isLt hvalid⟩
  simp only [getCol, h, hbest]

/-- Witness of `getCol_droppable`: `fullColumnState` at depth 1 with the identity shuffle. -/
theorem getCol_droppable_witness :
    (∀ l : List (Fin WIDTH), (id l).Perm l) ∧ Reachable fullColumnState ∧
    fullColumnState.isDone = false ∧ fullColumnState.isColValid 0 = true ∧
    ∃ col, getCol id fullColumnState 1 = some col ∧
      fullColumnState.isColValid col.val = true ∧
      ∃ s', fullColumnState.addPosition col.val = some s' :=
  have hreach : Reachable fullColumnState :=
    ⟨[3, 3, 3, 3, 3, 3], Or.inl (play_playedFromP1 _ (by decide))⟩
  ⟨fun l => List.Perm.refl l, hreach, by decide, by decide,
    getCol_droppable id (fun l => List.Perm.refl l) fullColumnState hreach (by decide)
      ⟨0, by decide⟩ 0⟩

/-- C2 fails at depth 0: `fullColumnState` is reachable, not done and has droppable columns,
yet for every shuffle `getCol` at depth 0 returns column 3, which is full, so it is not
droppable. -/
theorem getCol_depth_zero_not_droppable :
    Reachable fullColumnState ∧ fullColumnState.isDone = false ∧
    fullColumnState.isColValid 0 = true ∧
    (∀ shuffle : List (Fin WIDTH) → List (Fin WIDTH),
      getCol shuffle fullColumnState 0 = some 3) ∧
    fullColumnState.isColValid 3 = false :=
  ⟨⟨[3, 3, 3, 3, 3, 3], Or.inl (play_playedFromP1 _ (by decide))⟩, by decide, by decide,
    fun _ => rfl, by decide⟩

/-- C3 on the drawn game: `drawState` is reachable, not done, gravity-packed and without a
line of four for either player, column 6 is droppable, and after the drop of `P2` into it
`getScoreCol` returns `WIN_MOVE` although the new board holds no line of four for `P2`
(the board is full, which also sets the done flag). -/
theorem getScoreCol_win_move_on_draw :
    Reachable drawState ∧ drawState.isDone = false ∧ drawState.getTurn = P2 ∧
    drawState.getBoard.rows =
      [['2', '1', '2', '1', '2', '1', ' '],
       ['1', '1', '1', '2', '2', '2', '1'],
       ['1', '2', '2', '1', '1', '2', '2'],
       ['2', '1', '2', '1', '2', '1', '2'],
       ['2', '2', '1', '2', '1', '1', '1'],
       ['1', '2', '1', '2', '1', '2', '1']] ∧
    drawState.getBoard.gravityPacked = true ∧
    drawState.getBoard.isDone P1 = false ∧ drawState.getBoard.isDone P2 = false ∧
    drawState.isColValid 6 = true ∧
    ∃ s, drawState.addPosition 6 = some s ∧ getScoreCol s 6 = some WIN_MOVE ∧
      s.getBoard.isDone P2 = false ∧ s.getWinner = P0 := by
  have hplay : (play (State.init P1) drawMoves).isSome = true := by decide
  refine ⟨⟨drawMoves, Or.inl (play_playedFromP1 _ hplay)⟩, by decide, by decide, by decide,
    by decide, by decide, by decide, by decide, ?_⟩
  obtain ⟨s, hs⟩ := addPosition_isSome drawState 6 (by decide) (by decide)
  have h1 : (drawState.addPosition 6).bind (fun s => getScoreCol s 6) = some WIN_MOVE := by
    decide
  have h2 : (drawState.addPosition 6).map (fun s => s.getBoard.isDone P2) = some false := by
    decide
  have h3 : (drawState.addPosition 6).map (fun s => decide (s.getWinner = P0)) = some true := by
    decide
  rw [hs] at h1 h2 h3
  exact ⟨s, hs, h1, Option.some.inj h2, by simpa using h3⟩

/-! ## The evaluation board -/

theorem foldl_invariant {α β : Type} (P : β → Prop) (f : β → α → β) (l : List α)
    (init : β) (h0 : P init) (hstep : ∀ b a, a ∈ l → P b → P (f b a)) :
    P (l.foldl f init) := by
  induction l generalizing init with
  | nil => exact h0
  | cons a l ih =>
    simp only [List.foldl_cons]
    exact ih _ (hstep _ _ (List.mem_cons_self _ _) h0)
      fun b x hx hb => hstep b x (List.mem_cons_of_mem _ hx) hb

theorem mem_downTo (hi lo r : Nat) : r ∈ downTo hi lo ↔ lo ≤ r ∧ r ≤ hi := by
  simp only [downTo, List.mem_reverse, List.mem_filter, List.mem_range, decide_eq_true_eq]
  omega

theorem ScanInv_refl (board : Board) : ScanInv board board := fun _ _ => Or.inl rfl

theorem ScanInv_set (board ev : Board) (row col : Nat) (h : ScanInv board ev)
    (he : board.cell row col = EMPTY) : ScanInv board (ev.set row col 'F') := by
  intro r c
  by_cases hrc : r = row ∧ c = col
  · obtain ⟨hr, hc⟩ := hrc
    subst hr; subst hc
    right
    exact ⟨he, by simp [Board.set]⟩
  · have : (ev.set row col 'F').cell r c = ev.cell r c := by simp [Board.set, hrc]
    rw [this]; exact h r c

theorem ScanInv_horizontalStep (board ev : Board) (player : Char) (col row : Nat)
    (h : ScanInv board ev) : ScanInv board (horizontalStep board player col row ev) := by
  unfold horizontalStep
  split_ifs with h1 h2 h3 h4 h5 h6
  · exact ScanInv_set _ _ _ _ h h3.2
  · exact ScanInv_set _ _ _ _ h h4.1
  · exact h
  · exact ScanInv_set _ _ _ _ h h5.1
  · exact h
  · exact ScanInv_set _ _ _ _ h h6.1
  · exact h

theorem ScanInv_verticalStep (board ev : Board) (player : Char) (col row : Nat)
    (h : ScanInv board ev) : ScanInv board (verticalStep board player col row ev) := by
  unfold verticalStep
  split_ifs with h1
  · exact ScanInv_set _ _ _ _ h h1.1
  · exact h

theorem ScanInv_diagonalStepLeft (board ev : Board) (player : Char) (col row : Nat)
    (h : ScanInv board ev) : ScanInv board (diagonalStepLeft board player col row ev) := by
  unfold diagonalStepLeft
  split_ifs with h1 h2 h3 h4 h5 h6
  · exact ScanInv_set _ _ _ _ h h3.2
  · exact ScanInv_set _ _ _ _ h h4.1
  · exact h
  · exact ScanInv_set _ _ _ _ h h5.1
  · exact h
  · exact ScanInv_set _ _ _ _ h h6.1
  · exact h

theorem ScanInv_diagonalStepRight (board ev : Board) (player : Char) (col row : Nat)
    (h : ScanInv board ev) : ScanInv board (diagonalStepRight board player col row ev) := by
  unfold diagonalStepRight
  split_ifs with h1 h2 h3 h4 h5 h6
  · exact ScanInv_set _ _ _ _ h h3.2
  · exact ScanInv_set _ _ _ _ h h4.1
  · exact h
  · exact ScanInv_set _ _ _ _ h h5.1
  · exact h
  · exact ScanInv_set _ _ _ _ h h6.1
  · exact h

/-- A double loop preserves what each of its steps preserves. -/
theorem foldl_foldl_invariant (P : Board → Prop) (step : Nat → Nat → Board → Board)
    (cols rows : List Nat) (init : Board) (h0 : P init)
    (hstep : ∀ col row ev, col ∈ cols → row ∈ rows → P ev → P (step col row ev)) :
    P (cols.foldl (fun ev col => rows.foldl (fun ev row => step col row ev) ev) init) :=
  foldl_invariant P _ cols init h0 fun ev col hcol hev =>
    foldl_invariant P _ rows ev hev fun ev' row hrow hev' => hstep col row ev' hcol hrow hev'

/-- The three scans only ever mark empty cells of the board, with `'F'`. -/
theorem ScanInv_scanEvaluation (board : Board) (player : Char) :
    ScanInv board (scanEvaluation board player) := by
  unfold scanEvaluation diagonalEvaluation verticalEvaluation horizontalEvaluation
  apply foldl_foldl_invariant (ScanInv board) (diagonalStepRight board player)
  · apply foldl_foldl_invariant (ScanInv board) (diagonalStepLeft board player)
    · apply foldl_foldl_invariant (ScanInv board) (verticalStep board player)
      · apply foldl_foldl_invariant (ScanInv board) (horizontalStep board player)
        · exact ScanInv_refl board
        · exact fun col row ev _ _ h => ScanInv_horizontalStep board ev player col row h
      · exact fun col row ev _ _ h => ScanInv_verticalStep board ev player col row h
    · exact fun col row ev _ _ h => ScanInv_diagonalStepLeft board ev player col row h
  · exact fun col row ev _ _ h => ScanInv_diagonalStepRight board ev player col row h

theorem DoubleInv_doubleForceStep (scan ev : Board) (col row : Nat) (hcol : col < WIDTH)
    (hrow : 1 ≤ row ∧ row ≤ HEIGHT - 1) (h : DoubleInv scan ev) :
    DoubleInv scan (doubleForceStep col row ev) := by
  unfold doubleForceStep
  split_ifs with hF
  · have hne : ('D' : Char) ≠ 'F' := by decide
    have hup : scan.cell row col = 'F' := by
      rcases h row col with h' | h'
      · rw [← h']; exact hF.1
      · exact absurd (h'.1.symm.trans hF.1) hne
    have hlow : scan.cell (row - 1) col = 'F' := by
      rcases h (row - 1) col with h' | h'
      · rw [← h']; exact hF.2
      · exact absurd (h'.1.symm.trans hF.2) hne
    intro r c
    by_cases hrc : r = row - 1 ∧ c = col
    · obtain ⟨hr, hc⟩ := hrc
      subst hr; subst hc
      right
      have hsucc : row - 1 + 1 = row := by omega
      refine ⟨by simp [Board.set], hlow, by rw [hsucc]; exact hup, by omega, hcol⟩
    · have : (ev.set (row - 1) col 'D').cell r c = ev.cell r c := by simp [Board.set, hrc]
      rw [this]; exact h r c
  · exact h

/-- The double-force pass only changes cells that the scans marked `'F'` and whose upper
neighbour the scans marked `'F'` as well; it changes them to `'D'`. -/
theorem DoubleInv_getEvaluationBoard (board : Board) (player : Char) :
    DoubleInv (scanEvaluation board player) (getEvaluationBoard board player) := by
  unfold getEvaluationBoard doubleForceMoveEvaluation
  apply foldl_foldl_invariant (DoubleInv (scanEvaluation board player))
    (fun col row ev => doubleForceStep col row ev)
  · exact fun _ _ => Or.inl rfl
  · intro col row ev hcol hrow h
    exact DoubleInv_doubleForceStep _ ev col row (List.mem_range.mp hcol)
      ((mem_downTo _ _ _).mp hrow) h

/-- C6: for every board whose cells are `EMPTY`, `P1` or `P2` and every owner,
`getEvaluationBoard` leaves every non-empty cell of the grid as it is, and an empty cell of
the grid is `EMPTY`, `'F'` or `'D'` in the result. -/
theorem getEvaluationBoard_frame (board : Board) (owner : Char)
    (hcells : ∀ r, r < HEIGHT → ∀ c, c < WIDTH →
      board.cell r c = EMPTY ∨ board.cell r c = P1 ∨ board.cell r c = P2) :
    ∀ r, r < HEIGHT → ∀ c, c < WIDTH →
      (board.cell r c ≠ EMPTY →
        (getEvaluationBoard board owner).cell r c = board.cell r c) ∧
      (board.cell r c = EMPTY →
        (getEvaluationBoard board owner).cell r c = EMPTY ∨
        (getEvaluationBoard board owner).cell r c = 'F' ∨
        (getEvaluationBoard board owner).cell r c = 'D') := by
  intro r hr c hc
  have hnotF : board.cell r c ≠ 'F' := by
    rcases hcells r hr c hc with h | h | h <;> rw [h] <;> decide
  rcases DoubleInv_getEvaluationBoard board owner r c with h | ⟨hD, hF, _⟩
  · rw [h]
    rcases ScanInv_scanEvaluation board owner r c with h' | ⟨he, hF⟩
    · rw [h']
      exact ⟨fun _ => rfl, fun he => Or.inl he⟩
    · exact ⟨fun hne => absurd he hne, fun _ => Or.inr (Or.inl hF)⟩
  · rcases ScanInv_scanEvaluation board owner r c with h' | ⟨he, _⟩
    · exact absurd (h'.symm.trans hF) hnotF
    · exact ⟨fun hne => absurd he hne, fun _ => Or.inr (Or.inr hD)⟩

/-- Witness of `getEvaluationBoard_frame`: the board of `doubleForcedState`, evaluated for
`P1`. -/
theorem getEvaluationBoard_frame_witness :
    (∀ r, r < HEIGHT → ∀ c, c < WIDTH →
      doubleForcedState.getBoard.cell r c = EMPTY ∨ doubleForcedState.getBoard.cell r c = P1 ∨
      doubleForcedState.getBoard.cell r c = P2) ∧
    ∀ r, r < HEIGHT → ∀ c, c < WIDTH →
      (doubleForcedState.getBoard.cell r c ≠ EMPTY →
        (getEvaluationBoard doubleForcedState.getBoard P1).cell r c =
          doubleForcedState.getBoard.cell r c) ∧
      (doubleForcedState.getBoard.cell r c = EMPTY →
        (getEvaluationBoard doubleForcedState.getBoard P1).cell r c = EMPTY ∨
        (getEvaluationBoard doubleForcedState.getBoard P1).cell r c = 'F' ∨
        (getEvaluationBoard doubleForcedState.getBoard P1).cell r c = 'D') :=
  ⟨by decide, getEvaluationBoard_frame doubleForcedState.getBoard P1 (by decide)⟩

/-- C7, as the code has it: a cell `(r, c)` that `getEvaluationBoard` turns into `'D'` lies in
the grid below the top row, the scans marked it `'F'`, and the scans marked `'F'` the cell
directly above it, `(r + 1, c)`: the Double-Forced cell is the lower one of the pair. -/
theorem doubleForced_is_lower_of_pair (board : Board) (owner : Char) (r c : Nat)
    (hboard : board.cell r c ≠ 'D')
    (hD : (getEvaluationBoard board owner).cell r c = 'D') :
    r + 1 < HEIGHT ∧ c < WIDTH ∧ (scanEvaluation board owner).cell r c = 'F' ∧
      (scanEvaluation board owner).cell (r + 1) c = 'F' := by
  rcases DoubleInv_getEvaluationBoard board owner r c with h | ⟨_, hF, hF', hr, hc⟩
  · rw [hD] at h
    rcases ScanInv_scanEvaluation board owner r c with h' | ⟨_, hF⟩
    · exact absurd (h'.symm.trans h.symm) hboard
    · rw [hF] at h
      exact absurd h (by decide)
  · exact ⟨hr, hc, hF, hF'⟩

/-- Witness of `doubleForced_is_lower_of_pair`: cell `(1, 3)` of `doubleForcedState`,
evaluated for `P1`. -/
theorem doubleForced_is_lower_of_pair_witness :
    doubleForcedState.getBoard.cell 1 3 ≠ 'D' ∧
    (getEvaluationBoard doubleForcedState.getBoard P1).cell 1 3 = 'D' ∧
    (1 + 1 < HEIGHT ∧ 3 < WIDTH ∧
      (scanEvaluation doubleForcedState.getBoard P1).cell 1 3 = 'F' ∧
      (scanEvaluation doubleForcedState.getBoard P1).cell (1 + 1) 3 = 'F') :=
  ⟨by decide, by decide,
    doubleForced_is_lower_of_pair doubleForcedState.getBoard P1 1 3 (by decide) (by decide)⟩

/-- C7 fails on `doubleForcedState`, which is reachable: evaluated for `P1`, cell `(1, 3)` is
marked `'D'`, but the only lower cell of column 3, `(0, 3)`, holds a token of `P2` and is
marked `'F'` neither by the scans nor in the result; the Forced partner is `(2, 3)`,
above. -/
theorem doubleForced_has_no_forced_cell_below :
    Reachable doubleForcedState ∧
    (getEvaluationBoard doubleForcedState.getBoard P1).rows =
      [[' ', ' ', ' ', ' ', ' ', ' ', ' '],
       [' ', ' ', ' ', ' ', ' ', ' ', ' '],
       [' ', 'F', ' ', ' ', ' ', ' ', ' '],
       ['1', '1', '1', 'F', ' ', ' ', ' '],
       ['1', '1', '1', 'D', ' ', ' ', '2'],
       ['2', '1', '2', '2', ' ', '2', '2']] ∧
    (getEvaluationBoard doubleForcedState.getBoard P1).cell 1 3 = 'D' ∧
    (∀ r, r < 1 → (scanEvaluation doubleForcedState.getBoard P1).cell r 3 ≠ 'F' ∧
      (getEvaluationBoard doubleForcedState.getBoard P1).cell r 3 ≠ 'F') ∧
    doubleForcedState.getBoard.cell 0 3 = P2 ∧
    (getEvaluationBoard doubleForcedState.getBoard P1).cell 2 3 = 'F' :=
  ⟨⟨[1, 0, 0, 2, 1, 3, 2, 6, 0, 6, 1, 5, 2], Or.inl (play_playedFromP1 _ (by decide))⟩,
    by decide, by decide, by decide, by decide, by decide⟩

/-! ## The landing cell, exactly -/

/-- For a column of the grid, `getTopRow` either returns the lowest row whose cell is empty,
or finds no empty cell in rows `0 .. HEIGHT - 1` and reads outside the array. -/
theorem getTopRow_cases (b : Board) (col : Nat) (hc : col < WIDTH) :
    (∃ row, row < HEIGHT ∧ b.getTopRow col = some row ∧ b.cell row col = EMPTY ∧
        ∀ r, r < row → b.cell r col ≠ EMPTY) ∨
      (b.getTopRow col = none ∧ ∀ r, r < HEIGHT → b.cell r col ≠ EMPTY) := by
  unfold Board.getTopRow
  rw [range_WIDTH]
  by_cases h0 : b.cell 0 col = EMPTY
  · exact Or.inl ⟨0, by decide, by simp [Board.getTopRowLoop, Board.read, HEIGHT, hc, h0], h0,
      fun r hr => absurd hr (Nat.not_lt_zero r)⟩
  by_cases h1 : b.cell 1 col = EMPTY
  · exact Or.inl ⟨1, by decide, by simp [Board.getTopRowLoop, Board.read, HEIGHT, hc, h0, h1],
      h1, fun r hr => by interval_cases r; exact h0⟩
  by_cases h2 : b.cell 2 col = EMPTY
  · exact Or.inl ⟨2, by decide,
      by simp [Board.getTopRowLoop, Board.read, HEIGHT, hc, h0, h1, h2],
      h2, fun r hr => by interval_cases r <;> assumption⟩
  by_cases h3 : b.cell 3 col = EMPTY
  · exact Or.inl ⟨3, by decide,
      by simp [Board.getTopRowLoop, Board.read, HEIGHT, hc, h0, h1, h2, h3],
      h3, fun r hr => by interval_cases r <;> assumption⟩
  by_cases h4 : b.cell 4 col = EMPTY
  · exact Or.inl ⟨4, by decide,
      by simp [Board.getTopRowLoop, Board.read, HEIGHT, hc, h0, h1, h2, h3, h4],
      h4, fun r hr => by interval_cases r <;> assumption⟩
  by_cases h5 : b.cell 5 col = EMPTY
  · exact Or.inl ⟨5, by decide,
      by simp [Board.getTopRowLoop, Board.read, HEIGHT, hc, h0, h1, h2, h3, h4, h5],
      h5, fun r hr => by interval_cases r <;> assumption⟩
  · exact Or.inr ⟨by simp [Board.getTopRowLoop, Board.read, HEIGHT, hc, h0, h1, h2, h3, h4, h5],
      fun r hr => by interval_cases r <;> assumption⟩

/-- What `getTopRow` returns is the lowest empty cell of the column. -/
theorem getTopRow_eq_some (b : Board) (col row : Nat) (h : b.getTopRow col = some row) :
    row < HEIGHT ∧ col < WIDTH ∧ b.cell row col = EMPTY ∧
      ∀ r, r < row → b.cell r col ≠ EMPTY := by
  have hc := (getTopRow_lt b col row h).2
  rcases getTopRow_cases b col hc with ⟨k, hk, hsome, he, hbelow⟩ | ⟨hnone, _⟩
  · rw [h] at hsome
    cases hsome
    exact ⟨hk, hc, he, hbelow⟩
  · rw [h] at hnone; cases hnone

/-- The lowest empty cell of a column of the grid is what `getTopRow` returns. -/
theorem getTopRow_of_lowest (b : Board) (col row : Nat) (hr : row < HEIGHT) (hc : col < WIDTH)
    (he : b.cell row col = EMPTY) (hbelow : ∀ r, r < row → b.cell r col ≠ EMPTY) :
    b.getTopRow col = some row := by
  rcases getTopRow_cases b col hc with ⟨k, _, hsome, hke, hkbelow⟩ | ⟨_, hfull⟩
  · rcases Nat.lt_trichotomy k row with hlt | heq | hgt
    · exact absurd hke (hbelow k hlt)
    · rw [← heq]; exact hsome
    · exact absurd he (hkbelow row hgt)
  · exact absurd he (hfull row hr)

/-- A column of the grid without an empty cell makes `getTopRow` leave the array. -/
theorem getTopRow_of_full (b : Board) (col : Nat) (hc : col < WIDTH)
    (hfull : ∀ r, r < HEIGHT → b.cell r col ≠ EMPTY) : b.getTopRow col = none := by
  rcases getTopRow_cases b col hc with ⟨k, hk, _, hke, _⟩ | ⟨hnone, _⟩
  · exact absurd hke (hfull k hk)
  · exact hnone

/-! ## Win detection -/

theorem lineInGrid_horizontal (r0 c0 : Nat) :
    lineInGrid Direction.horizontal r0 c0 ↔ r0 < HEIGHT ∧ c0 < 4 := by
  have hW : WIDTH = 7 := rfl
  have hH : HEIGHT = 6 := rfl
  constructor
  · intro h
    have := h 3 (by decide)
    simp only [lineCell] at this
    omega
  · intro h k hk
    simp only [lineCell]
    omega

theorem lineInGrid_vertical (r0 c0 : Nat) :
    lineInGrid Direction.vertical r0 c0 ↔ r0 < 3 ∧ c0 < WIDTH := by
  have hW : WIDTH = 7 := rfl
  have hH : HEIGHT = 6 := rfl
  constructor
  · intro h
    have := h 3 (by decide)
    simp only [lineCell] at this
    omega
  · intro h k hk
    simp only [lineCell]
    omega

theorem lineInGrid_diagonalUp (r0 c0 : Nat) :
    lineInGrid Direction.diagonalUp r0 c0 ↔ r0 < 3 ∧ c0 < 4 := by
  have hW : WIDTH = 7 := rfl
  have hH : HEIGHT = 6 := rfl
  constructor
  · intro h
    have := h 3 (by decide)
    simp only [lineCell] at this
    omega
  · intro h k hk
    simp only [lineCell]
    omega

theorem lineInGrid_diagonalDown (r0 c0 : Nat) :
    lineInGrid Direction.diagonalDown r0 c0 ↔ r0 < 3 ∧ c0 < 4 := by
  have hW : WIDTH = 7 := rfl
  have hH : HEIGHT = 6 := rfl
  constructor
  · intro h
    have h0 := h 0 (by decide)
    have h3 := h 3 (by decide)
    simp only [lineCell] at h0 h3
    omega
  · intro h k hk
    simp only [lineCell]
    omega

theorem forall_lt_four (P : Nat → Prop) :
    (∀ k, k < 4 → P k) ↔ P 0 ∧ P 1 ∧ P 2 ∧ P 3 := by
  constructor
  · intro h
    exact ⟨h 0 (by decide), h 1 (by decide), h 2 (by decide), h 3 (by decide)⟩
  · rintro ⟨h0, h1, h2, h3⟩ k hk
    interval_cases k <;> assumption

/-- The four scans of `Board::isDone`, as statements about the windows they visit. -/
theorem isDone_eq_true_iff (b : Board) (player : Char) :
    b.isDone player = true ↔
      (∃ row, row < 3 ∧ ∃ col, col < WIDTH ∧ b.cell row col = player ∧
        b.cell (row + 1) col = player ∧ b.cell (row + 2) col = player ∧
        b.cell (row + 3) col = player) ∨
      (∃ row, row < HEIGHT ∧ ∃ col, col < 4 ∧ b.cell row col = player ∧
        b.cell row (col + 1) = player ∧ b.cell row (col + 2) = player ∧
        b.cell row (col + 3) = player) ∨
      (∃ row, row < 3 ∧ ∃ col, col < 4 ∧ b.cell row col = player ∧
        b.cell (row + 1) (col + 1) = player ∧ b.cell (row + 2) (col + 2) = player ∧
        b.cell (row + 3) (col + 3) = player) ∨
      (∃ row, row < 3 ∧ ∃ col, (col < WIDTH ∧ 3 ≤ col) ∧ b.cell row col = player ∧
        b.cell (row + 1) (col - 1) = player ∧ b.cell (row + 2) (col - 2) = player ∧
        b.cell (row + 3) (col - 3) = player) := by
  simp only [Board.isDone, Bool.or_eq_true, List.any_eq_true, List.mem_range, List.mem_filter,
    decide_eq_true_eq, or_assoc]

/-- Every window in which a scan of `Board::isDone` finds four cells of `player` is a line
of four inside the grid. -/
theorem hasLineOfFour_of_isDone (b : Board) (player : Char) (h : b.isDone player = true) :
    b.hasLineOfFour player := by
  rw [isDone_eq_true_iff] at h
  revert h
  rintro (⟨row, hr, col, hc, h0, h1, h2, h3⟩ | ⟨row, hr, col, hc, h0, h1, h2, h3⟩ |
    ⟨row, hr, col, hc, h0, h1, h2, h3⟩ | ⟨row, hr, col, ⟨hc, hc3⟩, h0, h1, h2, h3⟩)
  · exact ⟨Direction.vertical, row, col, (lineInGrid_vertical row col).mpr ⟨hr, hc⟩,
      (forall_lt_four _).mpr ⟨h0, h1, h2, h3⟩⟩
  · exact ⟨Direction.horizontal, row, col, (lineInGrid_horizontal row col).mpr ⟨hr, hc⟩,
      (forall_lt_four _).mpr ⟨h0, h1, h2, h3⟩⟩
  · exact ⟨Direction.diagonalUp, row, col, (lineInGrid_diagonalUp row col).mpr ⟨hr, hc⟩,
      (forall_lt_four _).mpr ⟨h0, h1, h2, h3⟩⟩
  · have hW : WIDTH = 7 := rfl
    refine ⟨Direction.diagonalDown, row, col - 3,
      (lineInGrid_diagonalDown row (col - 3)).mpr ⟨hr, by omega⟩,
      (forall_lt_four _).mpr ⟨?_, ?_, ?_, ?_⟩⟩
    · show b.cell (row + 3 - 0) (col - 3 + 0) = player
      exact h3
    · show b.cell (row + 3 - 1) (col - 3 + 1) = player
      rw [show row + 3 - 1 = row + 2 by omega, show col - 3 + 1 = col - 2 by omega]
      exact h2
    · show b.cell (row + 3 - 2) (col - 3 + 2) = player
      rw [show row + 3 - 2 = row + 1 by omega, show col - 3 + 2 = col - 1 by omega]
      exact h1
    · show b.cell (row + 3 - 3) (col - 3 + 3) = player
      rw [show row + 3 - 3 = row by omega, show col - 3 + 3 = col by omega]
      exact h0

/-- Every line of four inside the grid is a window visited by a scan of `Board::isDone`. -/
theorem isDone_of_hasLineOfFour (b : Board) (player : Char) (h : b.hasLineOfFour player) :
    b.isDone player = true := by
  rw [isDone_eq_true_iff]
  revert h
  rintro ⟨d, r0, c0, hin, hcells⟩
  obtain ⟨h0, h1, h2, h3⟩ := (forall_lt_four _).mp hcells
  cases d with
  | horizontal =>
    obtain ⟨hr, hc⟩ := (lineInGrid_horizontal r0 c0).mp hin
    exact Or.inr (Or.inl ⟨r0, hr, c0, hc, h0, h1, h2, h3⟩)
  | vertical =>
    obtain ⟨hr, hc⟩ := (lineInGrid_vertical r0 c0).mp hin
    exact Or.inl ⟨r0, hr, c0, hc, h0, h1, h2, h3⟩
  | diagonalUp =>
    obtain ⟨hr, hc⟩ := (lineInGrid_diagonalUp r0 c0).mp hin
    exact Or.inr (Or.inr (Or.inl ⟨r0, hr, c0, hc, h0, h1, h2, h3⟩))
  | diagonalDown =>
    obtain ⟨hr, hc⟩ := (lineInGrid_diagonalDown r0 c0).mp hin
    have hW : WIDTH = 7 := rfl
    refine Or.inr (Or.inr (Or.inr ⟨r0, hr, c0 + 3, ⟨by omega, by omega⟩, ?_, ?_, ?_, ?_⟩))
    · have := h3
      simp only [lineCell] at this
      rw [show r0 + 3 - 3 = r0 by omega] at this
      exact this
    · have := h2
      simp only [lineCell] at this
      rw [show r0 + 3 - 2 = r0 + 1 by omega] at this
      rw [show c0 + 3 - 1 = c0 + 2 by omega]
      exact this
    · have := h1
      simp only [lineCell] at this
      rw [show r0 + 3 - 1 = r0 + 2 by omega] at this
      rw [show c0 + 3 - 2 = c0 + 1 by omega]
      exact this
    · have := h0
      simp only [lineCell] at this
      rw [show c0 + 3 - 3 = c0 by omega]
      exact this

/-- C18: `Board::isDone(player)` is true exactly when four consecutive cells inside the grid,
along a row, a column or either diagonal, all equal `player`: every window the scans visit
lies in the grid, and every line of four in the grid is visited. -/
theorem isDone_iff_hasLineOfFour (b : Board) (player : Char) :
    b.isDone player = true ↔ b.hasLineOfFour player := by
  constructor
  · intro h
    exact hasLineOfFour_of_isDone b player h
  · intro h
    exact isDone_of_hasLineOfFour b player h

/-! ## Gravity -/

theorem gravityPacked_iff (b : Board) :
    b.gravityPacked = true ↔
      ∀ col, col < WIDTH → ∀ row, row < HEIGHT → ∀ above, above < HEIGHT →
        row < above → b.cell row col = EMPTY → b.cell above col = EMPTY := by
  simp only [Board.gravityPacked, List.all_eq_true, List.mem_range, decide_eq_true_eq]

theorem cell_set (b : Board) (row col : Nat) (v : Char) (r c : Nat) :
    (b.set row col v).cell r c = if r = row ∧ c = col then v else b.cell r c := rfl

/-- Filling the lowest empty cell of a column with a token keeps the board gravity-packed. -/
theorem gravityPacked_set (b : Board) (row col : Nat) (player : Char)
    (hg : b.gravityPacked = true) (hp : player ≠ EMPTY)
    (hbelow : ∀ r, r < row → b.cell r col ≠ EMPTY) :
    (b.set row col player).gravityPacked = true := by
  rw [gravityPacked_iff] at hg ⊢
  intro c hc r hr above ha hlt he
  rw [cell_set] at he ⊢
  by_cases h1 : r = row ∧ c = col
  · rw [if_pos h1] at he
    exact absurd he hp
  · rw [if_neg h1] at he
    by_cases h2 : above = row ∧ c = col
    · obtain ⟨h2a, h2c⟩ := h2
      subst h2a; subst h2c
      exact absurd he (hbelow r hlt)
    · rw [if_neg h2]
      exact hg c hc r hr above ha hlt he

/-- C12: the empty board is gravity-packed; and on a gravity-packed board, for a droppable
column and a mover's symbol other than `EMPTY`, `Board::addPosition` succeeds with the board
in which exactly the lowest empty cell of the column has changed, to the mover's symbol; that
board is gravity-packed, and `State::addPosition` yields the same board for every state
holding the board with that mover to move. -/
theorem addPosition_gravityPacked (b : Board) (col : Nat) (player : Char)
    (hg : b.gravityPacked = true) (hc : col < WIDTH) (hv : b.isColValid col = true)
    (hp : player ≠ EMPTY) :
    Board.empty.gravityPacked = true ∧
    ∃ row, row < HEIGHT ∧ b.cell row col = EMPTY ∧
      (∀ r, r < row → b.cell r col ≠ EMPTY) ∧
      b.addPosition col player = some (b.set row col player, true) ∧
      (b.set row col player).gravityPacked = true ∧
      (b.set row col player).cell row col = player ∧
      (∀ r c, ¬ (r = row ∧ c = col) → (b.set row col player).cell r c = b.cell r c) ∧
      ∀ s : State, s.getBoard = b → s.getTurn = player →
        ∃ s', s.addPosition col = some s' ∧ s'.getBoard = b.set row col player ∧
          s'.getBoard.gravityPacked = true := by
  refine ⟨by decide, ?_⟩
  obtain ⟨row, hrow, _, _⟩ := getTopRow_of_isColValid b col hc hv
  obtain ⟨hr, _, he, hbelow⟩ := getTopRow_eq_some b col row hrow
  have hgrav := gravityPacked_set b row col player hg hp hbelow
  refine ⟨row, hr, he, hbelow, by simp [Board.addPosition, hv, hrow], hgrav,
    by simp [cell_set], fun r c hrc => by simp [cell_set, hrc], ?_⟩
  intro s hsb hst
  obtain ⟨s', hs'⟩ := addPosition_isSome s col hc
    (by rw [State.isColValid]; rw [← hsb] at hv; exact hv)
  obtain ⟨row', hrow', hb'⟩ := addPosition_board s s' col hs'
  have hsb' : s._board = b := hsb
  have hst' : s._pTurn = player := hst
  rw [hsb', hrow] at hrow'
  cases hrow'
  rw [hsb', hst'] at hb'
  refine ⟨s', hs', hb', ?_⟩
  show s'._board.gravityPacked = true
  rw [hb']; exact hgrav

/-- Witness of `addPosition_gravityPacked`: a drop of `P2` into column 3 of the board of
`horizontalThreeState`. -/
theorem addPosition_gravityPacked_witness :
    horizontalThreeState.getBoard.gravityPacked = true ∧
    horizontalThreeState.getBoard.isColValid 3 = true ∧ P2 ≠ EMPTY ∧
    ∃ row, horizontalThreeState.getBoard.getTopRow 3 = some row ∧
      horizontalThreeState.getBoard.addPosition 3 P2 =
        some (horizontalThreeState.getBoard.set row 3 P2, true) ∧
      (horizontalThreeState.getBoard.set row 3 P2).gravityPacked = true := by
  obtain ⟨_, row, hr, he, hbelow, hadd, hgrav, _⟩ :=
    addPosition_gravityPacked horizontalThreeState.getBoard 3 P2 (by decide) (by decide)
      (by decide) (by decide)
  exact ⟨by decide, by decide, by decide, row,
    getTopRow_of_lowest _ 3 row hr (by decide) he hbelow, hadd, hgrav⟩

/-! ## Reachable states -/

theorem isDone_mono (b1 b2 : Board) (p : Char)
    (h : ∀ r c, b1.cell r c = p → b2.cell r c = p) (hd : b1.isDone p = true) :
    b2.isDone p = true := by
  rw [isDone_eq_true_iff] at hd ⊢
  rcases hd with ⟨row, hr, col, hc, h0, h1, h2, h3⟩ | ⟨row, hr, col, hc, h0, h1, h2, h3⟩ |
    ⟨row, hr, col, hc, h0, h1, h2, h3⟩ | ⟨row, hr, col, hc, h0, h1, h2, h3⟩
  · exact Or.inl ⟨row, hr, col, hc, h _ _ h0, h _ _ h1, h _ _ h2, h _ _ h3⟩
  · exact Or.inr (Or.inl ⟨row, hr, col, hc, h _ _ h0, h _ _ h1, h _ _ h2, h _ _ h3⟩)
  · exact Or.inr (Or.inr (Or.inl ⟨row, hr, col, hc, h _ _ h0, h _ _ h1, h _ _ h2, h _ _ h3⟩))
  · exact Or.inr (Or.inr (Or.inr ⟨row, hr, col, hc, h _ _ h0, h _ _ h1, h _ _ h2, h _ _ h3⟩))

theorem isDone_congr (b1 b2 : Board) (p : Char)
    (h : ∀ r c, b1.cell r c = p ↔ b2.cell r c = p) : b1.isDone p = b2.isDone p := by
  rw [Bool.eq_iff_iff]
  exact ⟨isDone_mono b1 b2 p fun r c => (h r c).mp, isDone_mono b2 b1 p fun r c => (h r c).mpr⟩

/-- A token of `q` put on a cell that did not hold `p` changes nothing for `p ≠ q`. -/
theorem isDone_set_other (b : Board) (row col : Nat) (p q : Char) (hpq : q ≠ p)
    (hcell : b.cell row col ≠ p) : (b.set row col q).isDone p = b.isDone p := by
  apply isDone_congr
  intro r c
  rw [cell_set]
  by_cases h : r = row ∧ c = col
  · obtain ⟨hr, hc⟩ := h
    subst hr; subst hc
    simp [hpq, hcell]
  · rw [if_neg h]

/-- A token of `p` never removes a line of four of `p`. -/
theorem isDone_set_self (b : Board) (row col : Nat) (p : Char) (h : b.isDone p = true) :
    (b.set row col p).isDone p = true := by
  apply isDone_mono b _ p _ h
  intro r c hrc
  rw [cell_set]
  split
  · rfl
  · exact hrc

theorem isFull_eq_true_iff (b : Board) :
    b.isFull = true ↔
      ∀ row, row < HEIGHT → ∀ col, col < WIDTH → b.cell row col ≠ EMPTY := by
  simp only [Board.isFull, List.all_eq_true, List.mem_range, decide_eq_true_eq]

theorem isFull_eq_false_of_empty (b : Board) (row col : Nat) (hr : row < HEIGHT)
    (hc : col < WIDTH) (he : b.cell row col = EMPTY) : b.isFull = false := by
  cases hf : b.isFull
  · rfl
  · exact absurd he ((isFull_eq_true_iff b).mp hf row hr col hc)

theorem getOpponent_ne (p : Char) (h : p = P1 ∨ p = P2) : getOpponent p ≠ p := by
  rcases h with h | h <;> subst h <;> decide

theorem player_ne_EMPTY (p : Char) (h : p = P1 ∨ p = P2) : p ≠ EMPTY := by
  rcases h with h | h <;> subst h <;> decide

theorem WellFormed_init (p : Char) (hp : p = P1 ∨ p = P2) : (State.init p).WellFormed := by
  have hg : Board.empty.gravityPacked = true := by decide
  have h1 : Board.empty.isDone P1 = false := by decide
  have h2 : Board.empty.isDone P2 = false := by decide
  have hf : false = Board.empty.isFull := by decide
  exact ⟨hp, fun _ _ _ _ => Or.inl rfl, hg, Or.inl ⟨rfl, h1, h2, hf⟩⟩

/-- A drop into a droppable column keeps the invariant, and the new state is done exactly
when its board is full or holds a line of four of the player who dropped. -/
theorem WellFormed_addPosition (s s' : State) (col : Nat) (hw : s.WellFormed)
    (h : s.addPosition col = some s') :
    s'.WellFormed ∧
      (s'.isDone = true ↔
        (s'.getBoard.isFull = true ∨ s'.getBoard.isDone s.getTurn = true)) := by
  obtain ⟨hturn, hcells, hg, hcase⟩ := hw
  obtain ⟨row, hrow, hb⟩ := addPosition_board s s' col h
  obtain ⟨hr, hc, he, hbelow⟩ := getTopRow_eq_some s._board col row hrow
  have hpe : s._pTurn ≠ EMPTY := player_ne_EMPTY _ hturn
  have hone : getOpponent s._pTurn ≠ s._pTurn := getOpponent_ne _ hturn
  have hcells' : ∀ r, r < HEIGHT → ∀ c, c < WIDTH →
      (s._board.set row col s._pTurn).cell r c = EMPTY ∨
      (s._board.set row col s._pTurn).cell r c = P1 ∨
      (s._board.set row col s._pTurn).cell r c = P2 := by
    intro r hr' c hc'
    rw [cell_set]
    split
    · exact Or.inr hturn
    · exact hcells r hr' c hc'
  have hg' := gravityPacked_set s._board row col s._pTurn hg hpe hbelow
  have hopp : (s._board.set row col s._pTurn).isDone (getOpponent s._pTurn) =
      s._board.isDone (getOpponent s._pTurn) := by
    apply isDone_set_other _ _ _ _ _ (Ne.symm hone)
    rw [he]
    exact fun h' => player_ne_EMPTY _ (getOpponent_valid _) h'.symm
  have hfull : s._board.isFull = false := isFull_eq_false_of_empty _ row col hr hc he
  unfold State.addPosition at h
  simp only [hrow] at h
  by_cases hwin : (s._board.set row col s._pTurn).isDone s._pTurn = false
  · -- the drop does not complete a line of four
    simp only [hwin, if_true, Option.some.injEq] at h
    rcases hcase with ⟨hpw, hd1, hd2, hdone⟩ | ⟨_, hline, _, _⟩
    · have hoppF : s._board.isDone (getOpponent s._pTurn) = false := by
        rcases getOpponent_valid s._pTurn with ho | ho <;> rw [ho] <;> assumption
      have hboth : (s._board.set row col s._pTurn).isDone P1 = false ∧
          (s._board.set row col s._pTurn).isDone P2 = false := by
        rcases hturn with ht | ht
        · have ho : getOpponent s._pTurn = P2 := by rw [ht]; decide
          rw [ho] at hopp hoppF
          rw [ht] at hwin
          rw [ht]
          exact ⟨hwin, by rw [← ht, hopp]; exact hoppF⟩
        · have ho : getOpponent s._pTurn = P1 := by rw [ht]; decide
          rw [ho] at hopp hoppF
          rw [ht] at hwin
          rw [ht]
          exact ⟨by rw [← ht, hopp]; exact hoppF, hwin⟩
      have hdone' : (if (s._board.set row col s._pTurn).isFull = true then true else s._done) =
          (s._board.set row col s._pTurn).isFull := by
        rw [hdone, hfull]
        cases (s._board.set row col s._pTurn).isFull <;> rfl
      subst h
      refine ⟨⟨getOpponent_valid _, hcells', hg',
        Or.inl ⟨hpw, hboth.1, hboth.2, hdone'⟩⟩, ?_⟩
      show (if (s._board.set row col s._pTurn).isFull = true then true else s._done) = true ↔
        ((s._board.set row col s._pTurn).isFull = true ∨
          (s._board.set row col s._pTurn).isDone s._pTurn = true)
      rw [hdone', hwin]
      simp
    · have := isDone_set_self s._board row col s._pTurn hline
      rw [hwin] at this
      cases this
  · -- the drop completes, or keeps, a line of four of the mover
    have hwin' : (s._board.set row col s._pTurn).isDone s._pTurn = true := by
      simpa using hwin
    simp only [hwin', Bool.true_eq_false, if_false, Option.some.injEq] at h
    have hoppF : s._board.isDone (getOpponent s._pTurn) = false := by
      rcases hcase with ⟨_, hd1, hd2, _⟩ | ⟨_, _, hoF, _⟩
      · rcases getOpponent_valid s._pTurn with ho | ho <;> rw [ho] <;> assumption
      · exact hoF
    subst h
    refine ⟨⟨hturn, hcells', hg',
      Or.inr ⟨rfl, hwin', by rw [hopp]; exact hoppF, rfl⟩⟩, ?_⟩
    show true = true ↔ ((s._board.set row col s._pTurn).isFull = true ∨
      (s._board.set row col s._pTurn).isDone s._pTurn = true)
    simp [hwin']

theorem WellFormed_play (s : State) (hw : s.WellFormed) (cols : List Nat) (s' : State)
    (h : play s cols = some s') : s'.WellFormed := by
  induction cols generalizing s with
  | nil =>
    simp only [play, Option.some.injEq] at h
    subst h; exact hw
  | cons c rest ih =>
    unfold play at h
    split at h
    · cases hadd : s.addPosition c with
      | none => simp [hadd] at h
      | some s1 =>
        simp only [hadd] at h
        exact ih s1 (WellFormed_addPosition s s1 c hw hadd).1 h
    · cases h

/-- Every reachable state satisfies the invariant. -/
theorem WellFormed_of_Reachable (s : State) (h : Reachable s) : s.WellFormed := by
  obtain ⟨cols, h | h⟩ := h
  · exact WellFormed_play _ (WellFormed_init P1 (Or.inl rfl)) cols s h
  · exact WellFormed_play _ (WellFormed_init P2 (Or.inr rfl)) cols s h

/-- After at least one drop from a state satisfying the invariant, the state is done exactly
when its board is full or holds a line of four of the player who made the last drop. -/
theorem isDone_iff_play (s : State) (hw : s.WellFormed) (cols : List Nat) (hne : cols ≠ [])
    (s' : State) (h : play s cols = some s') :
    s'.isDone = true ↔
      (s'.getBoard.isFull = true ∨
        ∃ mover, lastMover s cols = some mover ∧ s'.getBoard.isDone mover = true) := by
  induction cols generalizing s with
  | nil => exact absurd rfl hne
  | cons c rest ih =>
    unfold play at h
    split at h
    · cases hadd : s.addPosition c with
      | none => simp [hadd] at h
      | some s1 =>
        simp only [hadd] at h
        obtain ⟨hw1, hiff⟩ := WellFormed_addPosition s s1 c hw hadd
        cases rest with
        | nil =>
          simp only [play, Option.some.injEq] at h
          subst h
          rw [hiff]
          simp [lastMover]
        | cons c' rest' =>
          have := ih s1 hw1 (by simp) h
          rw [this]
          simp [lastMover, hadd]
    · cases h

/-- C11: every state reached from `State(P1)` or `State(P2)` by drops into droppable columns
is done exactly when its board is full or holds a line of four (`Board::isDone`) of the
player who made the last drop; its winner is `P0`, `P1` or `P2`, it is `P1` or `P2` only if
the board holds a line of four of that player, and it is `P0` exactly when the board holds no
line of four of either player. -/
theorem reachable_isDone_getWinner (p : Char) (hp : p = P1 ∨ p = P2) (cols : List Nat)
    (s : State) (hplay : play (State.init p) cols = some s) :
    (s.isDone = true ↔
      (s.getBoard.isFull = true ∨
        ∃ mover, lastMover (State.init p) cols = some mover ∧
          s.getBoard.isDone mover = true)) ∧
    (s.getWinner = P0 ∨ s.getWinner = P1 ∨ s.getWinner = P2) ∧
    (s.getWinner = P1 → s.getBoard.isDone P1 = true) ∧
    (s.getWinner = P2 → s.getBoard.isDone P2 = true) ∧
    (s.getWinner = P0 ↔
      (s.getBoard.isDone P1 = false ∧ s.getBoard.isDone P2 = false)) := by
  have hw0 := WellFormed_init p hp
  have hw := WellFormed_play _ hw0 cols s hplay
  constructor
  · cases cols with
    | nil =>
      simp only [play, Option.some.injEq] at hplay
      subst hplay
      have hf : (State.init p).getBoard.isFull = false := by
        show Board.empty.isFull = false
        decide
      have hd : (State.init p).isDone = false := rfl
      simp [lastMover, hf, hd]
    | cons c rest => exact isDone_iff_play _ hw0 (c :: rest) (by simp) s hplay
  · obtain ⟨hturn, _, _, hcase⟩ := hw
    have h01 : P0 ≠ P1 := by decide
    have h02 : P0 ≠ P2 := by decide
    rcases hcase with ⟨hpw, hd1, hd2, _⟩ | ⟨hpw, hline, hopp, _⟩
    · have hwin : s.getWinner = P0 := hpw
      refine ⟨Or.inl hwin, fun h => ?_, fun h => ?_, fun _ => ⟨hd1, hd2⟩, fun _ => hwin⟩
      · rw [hwin] at h; exact absurd h h01
      · rw [hwin] at h; exact absurd h h02
    · have hwin : s.getWinner = s._pTurn := hpw
      rcases hturn with ht | ht
      · rw [ht] at hwin hline
        refine ⟨Or.inr (Or.inl hwin), fun _ => hline, fun h => ?_, fun h => ?_, fun h => ?_⟩
        · rw [hwin] at h; exact absurd h (by decide)
        · rw [hwin] at h; exact absurd h.symm h01
        · have : s.getBoard.isDone P1 = true := hline
          rw [h.1] at this; cases this
      · rw [ht] at hwin hline
        refine ⟨Or.inr (Or.inr hwin), fun h => ?_, fun _ => hline, fun h => ?_, fun h => ?_⟩
        · rw [hwin] at h; exact absurd h (by decide)
        · rw [hwin] at h; exact absurd h.symm h02
        · have : s.getBoard.isDone P2 = true := hline
          rw [h.2] at this; cases this

/-- Witness of `reachable_isDone_getWinner`: the 41 drops of `drawMoves` followed by the drop
into column 6 that fills the board. -/
theorem reachable_isDone_getWinner_witness :
    ∃ s, play (State.init P1) (drawMoves ++ [6]) = some s ∧
      (s.isDone = true ↔
        (s.getBoard.isFull = true ∨
          ∃ mover, lastMover (State.init P1) (drawMoves ++ [6]) = some mover ∧
            s.getBoard.isDone mover = true)) ∧
      (s.getWinner = P0 ∨ s.getWinner = P1 ∨ s.getWinner = P2) ∧
      (s.getWinner = P1 → s.getBoard.isDone P1 = true) ∧
      (s.getWinner = P2 → s.getBoard.isDone P2 = true) ∧
      (s.getWinner = P0 ↔
        (s.getBoard.isDone P1 = false ∧ s.getBoard.isDone P2 = false)) :=
  ⟨playedFromP1 (drawMoves ++ [6]), play_playedFromP1 _ (by decide),
    reachable_isDone_getWinner P1 (Or.inl rfl) (drawMoves ++ [6]) _
      (play_playedFromP1 _ (by decide))⟩

/-! ## Defects: the landing row of a full column, chains of Forced cells, the worker gate -/

/-- C20 on a full column: column 3 of the reachable `fullColumnState` has no empty cell in
rows `0 .. HEIGHT - 1`; `getTopRow(3)` reads rows 0 to 6, the last of which is outside the
array, so it has no value, where the claim has it read only rows `0 .. HEIGHT - 1` and
return `HEIGHT - 1`. -/
theorem getTopRow_full_column_reads_outside :
    Reachable fullColumnState ∧
    (∀ r, r < HEIGHT → fullColumnState.getBoard.cell r 3 ≠ EMPTY) ∧
    fullColumnState.getBoard.getTopRowReads 3 = [0, 1, 2, 3, 4, 5, 6] ∧
    ¬ 6 < HEIGHT ∧ fullColumnState.getBoard.read 6 3 = none ∧
    fullColumnState.getBoard.getTopRow 3 = none :=
  ⟨⟨[3, 3, 3, 3, 3, 3], Or.inl (play_playedFromP1 _ (by decide))⟩,
    by decide, by decide, by decide, by decide, by decide⟩

/-- C17 on a chain of three: in the reachable `tripleForcedState`, evaluated for `P1`, the
scans mark `(0, 3)`, `(1, 3)` and `(2, 3)` Forced; `getEvaluationBoard` turns `(1, 3)` into
`'D'` and then leaves `(0, 3)` at `'F'`, although `(1, 3)` and `(0, 3)` were both Forced
after the scans. -/
theorem doubleForce_skips_pair_below_upgraded_cell :
    Reachable tripleForcedState ∧
    (scanEvaluation tripleForcedState.getBoard P1).rows =
      [[' ', ' ', ' ', ' ', ' ', ' ', ' '],
       [' ', ' ', ' ', ' ', ' ', ' ', ' '],
       [' ', '2', '2', ' ', 'F', ' ', ' '],
       [' ', '1', '1', 'F', '1', ' ', ' '],
       ['2', '1', '1', 'F', '1', '2', '2'],
       ['2', '1', '1', 'F', '1', '2', '2']] ∧
    (getEvaluationBoard tripleForcedState.getBoard P1).rows =
      [[' ', ' ', ' ', ' ', ' ', ' ', ' '],
       [' ', ' ', ' ', ' ', ' ', ' ', ' '],
       [' ', '2', '2', ' ', 'F', ' ', ' '],
       [' ', '1', '1', 'F', '1', ' ', ' '],
       ['2', '1', '1', 'D', '1', '2', '2'],
       ['2', '1', '1', 'F', '1', '2', '2']] ∧
    (scanEvaluation tripleForcedState.getBoard P1).cell 1 3 = 'F' ∧
    (scanEvaluation tripleForcedState.getBoard P1).cell 0 3 = 'F' ∧
    (getEvaluationBoard tripleForcedState.getBoard P1).cell 0 3 = 'F' :=
  ⟨⟨[1, 0, 1, 0, 1, 5, 2, 5, 2, 6, 2, 6, 4, 1, 4, 2, 4],
      Or.inl (play_playedFromP1 _ (by decide))⟩,
    by decide, by decide, by decide, by decide, by decide⟩

theorem dispatchRun_stuck (threadNumberMax : Int) (s : Dispatch)
    (h : dispatchStep threadNumberMax s = s) (n : Nat) : dispatchRun threadNumberMax n s = s := by
  induction n with
  | zero => rfl
  | succ n ih =>
    show dispatchRun threadNumberMax n (dispatchStep threadNumberMax s) = s
    rw [h, ih]

theorem dispatchRun_add (threadNumberMax : Int) (m n : Nat) (s : Dispatch) :
    dispatchRun threadNumberMax (m + n) s =
      dispatchRun threadNumberMax n (dispatchRun threadNumberMax m s) := by
  induction m generalizing s with
  | zero => simp [dispatchRun]
  | succ m ih =>
    rw [Nat.succ_add]
    exact ih (dispatchStep threadNumberMax s)

/-- C19 with `hardware_concurrency() = 4`: the cap is 3; after three dispatches the counter
is 3, the gate `threadNumber >= threadNumberMax` holds, and since nothing decrements the
counter before the join phase, the dispatching thread stays at column 3 for ever: the
workers of columns 3 to 6 are never started and the join phase is never reached.  With
`hardware_concurrency() = 1` the cap is 0 and not even column 0 is dispatched; with 8 all
seven columns are dispatched in seven steps. -/
theorem dispatch_never_reaches_join :
    threadNumberMax 4 = 3 ∧
    dispatchRun (threadNumberMax 4) 3 ⟨0, 0⟩ = ⟨3, 3⟩ ∧
    (∀ n, dispatchRun (threadNumberMax 4) (3 + n) ⟨0, 0⟩ = ⟨3, 3⟩ ∧
      (dispatchRun (threadNumberMax 4) (3 + n) ⟨0, 0⟩).col < WIDTH) ∧
    dispatchRun (threadNumberMax 1) 0 ⟨0, 0⟩ = dispatchRun (threadNumberMax 1) 1 ⟨0, 0⟩ ∧
    dispatchRun (threadNumberMax 8) 7 ⟨0, 0⟩ = ⟨WIDTH, 7⟩ := by
  have h3 : dispatchRun (threadNumberMax 4) 3 ⟨0, 0⟩ = ⟨3, 3⟩ := by decide
  refine ⟨by decide, h3, fun n => ?_, by decide, by decide⟩
  have hn : dispatchRun (threadNumberMax 4) (3 + n) ⟨0, 0⟩ = ⟨3, 3⟩ := by
    rw [dispatchRun_add, h3]
    exact dispatchRun_stuck _ _ (by decide) n
  rw [hn]
  exact ⟨rfl, by decide⟩

/-! ## The scans mark exactly the cells that complete a line of four -/

theorem horizontalStep_eq_windowStep (board ev : Board) (player : Char) (col row : Nat) :
    horizontalStep board player col row ev =
      windowStep board player (fun j => (row, col + j)) ev := rfl

theorem diagonalStepLeft_eq_windowStep (board ev : Board) (player : Char) (col row : Nat) :
    diagonalStepLeft board player col row ev =
      windowStep board player (fun j => (row - j, col - j)) ev := rfl

theorem diagonalStepRight_eq_windowStep (board ev : Board) (player : Char) (col row : Nat) :
    diagonalStepRight board player col row ev =
      windowStep board player (fun j => (row - j, col + j)) ev := rfl

/-- A step on a window changes nothing, or marks `'F'` the one empty cell of a window whose
other three cells hold `player`. -/
theorem windowStep_cases (board ev : Board) (player : Char) (w : Nat → Nat × Nat) :
    windowStep board player w ev = ev ∨
      ∃ k, k < 4 ∧ windowStep board player w ev = ev.set (w k).1 (w k).2 'F' ∧
        board.cell (w k).1 (w k).2 = EMPTY ∧
        ∀ j, j < 4 → j ≠ k → board.cell (w j).1 (w j).2 = player := by
  unfold windowStep
  split_ifs with h1 h2 h3 h4 h5 h6
  · exact Or.inr ⟨3, by decide, rfl, h3.2, fun j hj hne => by
      interval_cases j
      · exact h1
      · exact h2
      · exact h3.1
      · exact absurd rfl hne⟩
  · exact Or.inr ⟨2, by decide, rfl, h4.1, fun j hj hne => by
      interval_cases j
      · exact h1
      · exact h2
      · exact absurd rfl hne
      · exact h4.2⟩
  · exact Or.inl rfl
  · exact Or.inr ⟨1, by decide, rfl, h5.1, fun j hj hne => by
      interval_cases j
      · exact h1
      · exact absurd rfl hne
      · exact h5.2.1
      · exact h5.2.2⟩
  · exact Or.inl rfl
  · exact Or.inr ⟨0, by decide, rfl, h6.1, fun j hj hne => by
      interval_cases j
      · exact absurd rfl hne
      · exact h6.2.1
      · exact h6.2.2.1
      · exact h6.2.2.2⟩
  · exact Or.inl rfl

/-- A step on a window with one empty cell and three cells of `player` marks the empty
cell. -/
theorem windowStep_marks (board ev : Board) (player : Char) (w : Nat → Nat × Nat) (k : Nat)
    (hk : k < 4) (hne : player ≠ EMPTY) (he : board.cell (w k).1 (w k).2 = EMPTY)
    (ho : ∀ j, j < 4 → j ≠ k → board.cell (w j).1 (w j).2 = player) :
    (windowStep board player w ev).cell (w k).1 (w k).2 = 'F' := by
  have hne' : ¬ EMPTY = player := fun h => hne h.symm
  have h0 := ho 0 (by decide)
  have h1 := ho 1 (by decide)
  have h2 := ho 2 (by decide)
  have h3 := ho 3 (by decide)
  unfold windowStep
  interval_cases k
  · simp [he, hne', h1, h2, h3, cell_set]
  · simp [he, hne', h0, h2, h3, cell_set]
  · simp [he, hne', h0, h1, h3, cell_set]
  · simp [he, hne', h0, h1, h2, cell_set]

theorem cell_F_set (ev : Board) (row col r c : Nat) (h : ev.cell r c = 'F') :
    (ev.set row col 'F').cell r c = 'F' := by
  rw [cell_set]
  split
  · rfl
  · exact h

theorem cell_F_windowStep (board ev : Board) (player : Char) (w : Nat → Nat × Nat) (r c : Nat)
    (h : ev.cell r c = 'F') : (windowStep board player w ev).cell r c = 'F' := by
  rcases windowStep_cases board ev player w with h' | ⟨k, _, h', _⟩
  · rw [h']; exact h
  · rw [h']; exact cell_F_set ev _ _ r c h

theorem cell_F_verticalStep (board ev : Board) (player : Char) (col row r c : Nat)
    (h : ev.cell r c = 'F') : (verticalStep board player col row ev).cell r c = 'F' := by
  unfold verticalStep
  split
  · exact cell_F_set ev _ _ r c h
  · exact h

/-- A loop reaches a property that one of its steps establishes and all its steps keep. -/
theorem foldl_establish {α β : Type} (Q : β → Prop) (f : β → α → β) (l : List α)
    (init : β) (a : α) (ha : a ∈ l) (hset : ∀ b, Q (f b a))
    (hkeep : ∀ b x, Q b → Q (f b x)) :
    Q (l.foldl f init) := by
  induction l generalizing init with
  | nil => simp at ha
  | cons x l ih =>
    simp only [List.foldl_cons]
    by_cases hax : a = x
    · subst hax
      exact foldl_invariant Q f l _ (hset init) fun b y _ hb => hkeep b y hb
    · rcases List.mem_cons.mp ha with h | h
      · exact absurd h hax
      · exact ih _ h

theorem foldl_foldl_establish (Q : Board → Prop) (step : Nat → Nat → Board → Board)
    (cols rows : List Nat) (init : Board) (col0 row0 : Nat) (hcol : col0 ∈ cols)
    (hrow : row0 ∈ rows) (hset : ∀ ev, Q (step col0 row0 ev))
    (hkeep : ∀ col row ev, Q ev → Q (step col row ev)) :
    Q (cols.foldl (fun ev col => rows.foldl (fun ev row => step col row ev) ev) init) :=
  foldl_establish Q _ cols init col0 hcol
    (fun ev => foldl_establish Q _ rows ev row0 hrow hset fun b x hb => hkeep col0 x b hb)
    fun ev col hev => foldl_invariant Q _ rows ev hev fun b x _ hb => hkeep col x b hb

theorem foldl_foldl_keep (Q : Board → Prop) (step : Nat → Nat → Board → Board)
    (cols rows : List Nat) (init : Board) (h0 : Q init)
    (hkeep : ∀ col row ev, Q ev → Q (step col row ev)) :
    Q (cols.foldl (fun ev col => rows.foldl (fun ev row => step col row ev) ev) init) :=
  foldl_foldl_invariant Q step cols rows init h0 fun col row ev _ _ h => hkeep col row ev h

theorem cell_F_horizontalEvaluation (board ev : Board) (player : Char) (r c : Nat)
    (h : ev.cell r c = 'F') : (horizontalEvaluation board player ev).cell r c = 'F' :=
  foldl_foldl_keep (fun ev => ev.cell r c = 'F') (horizontalStep board player) _ _ ev h
    fun col row ev' h' => by
      rw [horizontalStep_eq_windowStep]; exact cell_F_windowStep board ev' player _ r c h'

theorem cell_F_verticalEvaluation (board ev : Board) (player : Char) (r c : Nat)
    (h : ev.cell r c = 'F') : (verticalEvaluation board player ev).cell r c = 'F' :=
  foldl_foldl_keep (fun ev => ev.cell r c = 'F') (verticalStep board player) _ _ ev h
    fun col row ev' h' => cell_F_verticalStep board ev' player col row r c h'

theorem cell_F_diagonalLeft (board ev : Board) (player : Char) (r c : Nat)
    (h : ev.cell r c = 'F') :
    ((downTo (WIDTH - 1) 3).foldl
      (fun ev col => (downTo (HEIGHT - 1) 3).foldl
        (fun ev row => diagonalStepLeft board player col row ev) ev) ev).cell r c = 'F' :=
  foldl_foldl_keep (fun ev => ev.cell r c = 'F') (diagonalStepLeft board player) _ _ ev h
    fun col row ev' h' => by
      rw [diagonalStepLeft_eq_windowStep]; exact cell_F_windowStep board ev' player _ r c h'

theorem cell_F_diagonalRight (board ev : Board) (player : Char) (r c : Nat)
    (h : ev.cell r c = 'F') :
    ((List.range (WIDTH - 3)).foldl
      (fun ev col => (downTo (HEIGHT - 1) 3).foldl
        (fun ev row => diagonalStepRight board player col row ev) ev) ev).cell r c = 'F' :=
  foldl_foldl_keep (fun ev => ev.cell r c = 'F') (diagonalStepRight board player) _ _ ev h
    fun col row ev' h' => by
      rw [diagonalStepRight_eq_windowStep]; exact cell_F_windowStep board ev' player _ r c h'

theorem cell_F_diagonalEvaluation (board ev : Board) (player : Char) (r c : Nat)
    (h : ev.cell r c = 'F') : (diagonalEvaluation board player ev).cell r c = 'F' :=
  cell_F_diagonalRight board _ player r c (cell_F_diagonalLeft board ev player r c h)

/-- The horizontal scan marks the empty cell of every window of a row that holds three cells
of `player`. -/
theorem horizontalEvaluation_marks (board ev : Board) (player : Char) (r0 c0 k : Nat)
    (hr : r0 < HEIGHT) (hc : c0 < 4) (hk : k < 4) (hne : player ≠ EMPTY)
    (he : board.cell r0 (c0 + k) = EMPTY)
    (ho : ∀ j, j < 4 → j ≠ k → board.cell r0 (c0 + j) = player) :
    (horizontalEvaluation board player ev).cell r0 (c0 + k) = 'F' :=
  foldl_foldl_establish (fun ev => ev.cell r0 (c0 + k) = 'F') (horizontalStep board player)
    _ _ ev c0 r0 (List.mem_range.mpr hc) ((mem_downTo _ _ _).mpr ⟨Nat.zero_le _, by omega⟩)
    (fun ev' => by
      rw [horizontalStep_eq_windowStep]
      exact windowStep_marks board ev' player (fun j => (r0, c0 + j)) k hk hne he ho)
    fun col row ev' h' => by
      rw [horizontalStep_eq_windowStep]
      exact cell_F_windowStep board ev' player _ _ _ h'

/-- The vertical scan marks an empty cell that lies on three cells of `player`. -/
theorem verticalEvaluation_marks (board ev : Board) (player : Char) (row col : Nat)
    (hr : 3 ≤ row ∧ row < HEIGHT) (hc : col < WIDTH)
    (he : board.cell row col = EMPTY) (h1 : board.cell (row - 1) col = player)
    (h2 : board.cell (row - 2) col = player) (h3 : board.cell (row - 3) col = player) :
    (verticalEvaluation board player ev).cell row col = 'F' :=
  foldl_foldl_establish (fun ev => ev.cell row col = 'F') (verticalStep board player)
    _ _ ev col row (List.mem_range.mpr hc) ((mem_downTo _ _ _).mpr ⟨hr.1, by omega⟩)
    (fun ev' => by simp [verticalStep, he, h1, h2, h3, cell_set])
    fun c r ev' h' => cell_F_verticalStep board ev' player c r _ _ h'

/-- The first diagonal scan marks the empty cell of every window running down and to the
left from `(row, col)` that holds three cells of `player`. -/
theorem diagonalLeft_marks (board ev : Board) (player : Char) (row col k : Nat)
    (hr : 3 ≤ row ∧ row < HEIGHT) (hc : 3 ≤ col ∧ col < WIDTH) (hk : k < 4)
    (hne : player ≠ EMPTY) (he : board.cell (row - k) (col - k) = EMPTY)
    (ho : ∀ j, j < 4 → j ≠ k → board.cell (row - j) (col - j) = player) :
    ((downTo (WIDTH - 1) 3).foldl
      (fun ev col => (downTo (HEIGHT - 1) 3).foldl
        (fun ev row => diagonalStepLeft board player col row ev) ev) ev).cell
      (row - k) (col - k) = 'F' :=
  foldl_foldl_establish (fun ev => ev.cell (row - k) (col - k) = 'F')
    (diagonalStepLeft board player)
    _ _ ev col row ((mem_downTo _ _ _).mpr ⟨hc.1, by omega⟩)
    ((mem_downTo _ _ _).mpr ⟨hr.1, by omega⟩)
    (fun ev' => by
      rw [diagonalStepLeft_eq_windowStep]
      exact windowStep_marks board ev' player (fun j => (row - j, col - j)) k hk hne he ho)
    fun c r ev' h' => by
      rw [diagonalStepLeft_eq_windowStep]
      exact cell_F_windowStep board ev' player _ _ _ h'

/-- The second diagonal scan marks the empty cell of every window running down and to the
right from `(row, col)` that holds three cells of `player`. -/
theorem diagonalRight_marks (board ev : Board) (player : Char) (row col k : Nat)
    (hr : 3 ≤ row ∧ row < HEIGHT) (hc : col < 4) (hk : k < 4)
    (hne : player ≠ EMPTY) (he : board.cell (row - k) (col + k) = EMPTY)
    (ho : ∀ j, j < 4 → j ≠ k → board.cell (row - j) (col + j) = player) :
    ((List.range (WIDTH - 3)).foldl
      (fun ev col => (downTo (HEIGHT - 1) 3).foldl
        (fun ev row => diagonalStepRight board player col row ev) ev) ev).cell
      (row - k) (col + k) = 'F' :=
  foldl_foldl_establish (fun ev => ev.cell (row - k) (col + k) = 'F')
    (diagonalStepRight board player)
    _ _ ev col row (List.mem_range.mpr hc)
    ((mem_downTo _ _ _).mpr ⟨hr.1, by omega⟩)
    (fun ev' => by
      rw [diagonalStepRight_eq_windowStep]
      exact windowStep_marks board ev' player (fun j => (row - j, col + j)) k hk hne he ho)
    fun c r ev' h' => by
      rw [diagonalStepRight_eq_windowStep]
      exact cell_F_windowStep board ev' player _ _ _ h'

theorem diagonalEvaluation_eq (board ev : Board) (player : Char) :
    diagonalEvaluation board player ev =
      (List.range (WIDTH - 3)).foldl
        (fun ev col => (downTo (HEIGHT - 1) 3).foldl
          (fun ev row => diagonalStepRight board player col row ev) ev)
        ((downTo (WIDTH - 1) 3).foldl
          (fun ev col => (downTo (HEIGHT - 1) 3).foldl
            (fun ev row => diagonalStepLeft board player col row ev) ev) ev) := rfl

/-- On a gravity-packed board the scans mark every empty cell that completes a line of four
of `owner`. -/
theorem scanEvaluation_of_completesLine (board : Board) (owner : Char) (r c : Nat)
    (hne : owner ≠ EMPTY) (hg : board.gravityPacked = true) (he : board.cell r c = EMPTY)
    (hline : board.completesLine owner r c) : (scanEvaluation board owner).cell r c = 'F' := by
  have hH : HEIGHT = 6 := rfl
  have hW : WIDTH = 7 := rfl
  obtain ⟨d, r0, c0, hin, k, hk, hcell, ho⟩ := hline
  unfold scanEvaluation
  cases d with
  | horizontal =>
    obtain ⟨hr, hc⟩ := (lineInGrid_horizontal r0 c0).mp hin
    simp only [lineCell, Prod.mk.injEq] at hcell
    obtain ⟨e1, e2⟩ := hcell
    subst e1; subst e2
    apply cell_F_diagonalEvaluation
    apply cell_F_verticalEvaluation
    exact horizontalEvaluation_marks board board owner r0 c0 k hr hc hk hne he ho
  | vertical =>
    obtain ⟨hr, hc⟩ := (lineInGrid_vertical r0 c0).mp hin
    simp only [lineCell, Prod.mk.injEq] at hcell
    obtain ⟨e1, e2⟩ := hcell
    subst e1; subst e2
    by_cases hk3 : k = 3
    · subst hk3
      apply cell_F_diagonalEvaluation
      have h0 : board.cell (r0 + 0) c0 = owner := ho 0 (by decide) (by decide)
      have h1 : board.cell (r0 + 1) c0 = owner := ho 1 (by decide) (by decide)
      have h2 : board.cell (r0 + 2) c0 = owner := ho 2 (by decide) (by decide)
      exact verticalEvaluation_marks board _ owner (r0 + 3) c0 ⟨by omega, by omega⟩ hc he
        (by rw [show r0 + 3 - 1 = r0 + 2 by omega]; exact h2)
        (by rw [show r0 + 3 - 2 = r0 + 1 by omega]; exact h1)
        (by rw [show r0 + 3 - 3 = r0 + 0 by omega]; exact h0)
    · have h3 : board.cell (r0 + 3) c0 = owner := ho 3 (by decide) (fun h => hk3 h.symm)
      have := (gravityPacked_iff board).mp hg c0 hc (r0 + k) (by omega) (r0 + 3) (by omega)
        (by omega) he
      rw [h3] at this
      exact absurd this hne
  | diagonalUp =>
    obtain ⟨hr, hc⟩ := (lineInGrid_diagonalUp r0 c0).mp hin
    simp only [lineCell, Prod.mk.injEq] at hcell
    obtain ⟨e1, e2⟩ := hcell
    subst e1; subst e2
    rw [diagonalEvaluation_eq]
    apply cell_F_diagonalRight
    have hmark := diagonalLeft_marks board
      (verticalEvaluation board owner (horizontalEvaluation board owner board)) owner
      (r0 + 3) (c0 + 3) (3 - k) ⟨by omega, by omega⟩ ⟨by omega, by omega⟩ (by omega) hne
      (by rw [show r0 + 3 - (3 - k) = r0 + k by omega,
            show c0 + 3 - (3 - k) = c0 + k by omega]; exact he)
      (fun j hj hjk => by
        have := ho (3 - j) (by omega) (by omega)
        simp only [lineCell] at this
        rw [show r0 + (3 - j) = r0 + 3 - j by omega,
          show c0 + (3 - j) = c0 + 3 - j by omega] at this
        exact this)
    rw [show r0 + 3 - (3 - k) = r0 + k by omega,
      show c0 + 3 - (3 - k) = c0 + k by omega] at hmark
    exact hmark
  | diagonalDown =>
    obtain ⟨hr, hc⟩ := (lineInGrid_diagonalDown r0 c0).mp hin
    simp only [lineCell, Prod.mk.injEq] at hcell
    obtain ⟨e1, e2⟩ := hcell
    subst e1; subst e2
    rw [diagonalEvaluation_eq]
    exact diagonalRight_marks board _ owner (r0 + 3) c0 k ⟨by omega, by omega⟩ hc hk hne he ho

theorem ScanLineInv_set (board ev : Board) (owner : Char) (row col : Nat)
    (h : ScanLineInv board owner ev) (he : board.cell row col = EMPTY)
    (hl : board.completesLine owner row col) : ScanLineInv board owner (ev.set row col 'F') := by
  intro r c
  by_cases hrc : r = row ∧ c = col
  · obtain ⟨hr, hc⟩ := hrc
    subst hr; subst hc
    exact Or.inr ⟨he, by simp [Board.set], hl⟩
  · have : (ev.set row col 'F').cell r c = ev.cell r c := by simp [Board.set, hrc]
    rw [this]; exact h r c

theorem ScanLineInv_horizontalStep (board ev : Board) (owner : Char) (col row : Nat)
    (hc : col < 4) (hr : row < HEIGHT) (h : ScanLineInv board owner ev) :
    ScanLineInv board owner (horizontalStep board owner col row ev) := by
  rw [horizontalStep_eq_windowStep]
  rcases windowStep_cases board ev owner (fun j => (row, col + j)) with h' | ⟨k, hk, h', he, ho⟩
  · rw [h']; exact h
  · rw [h']
    exact ScanLineInv_set board ev owner _ _ h he
      ⟨Direction.horizontal, row, col, (lineInGrid_horizontal row col).mpr ⟨hr, hc⟩, k, hk,
        rfl, ho⟩

theorem ScanLineInv_verticalStep (board ev : Board) (owner : Char) (col row : Nat)
    (hc : col < WIDTH) (hr : 3 ≤ row ∧ row < HEIGHT) (h : ScanLineInv board owner ev) :
    ScanLineInv board owner (verticalStep board owner col row ev) := by
  have hH : HEIGHT = 6 := rfl
  unfold verticalStep
  split_ifs with h1
  · refine ScanLineInv_set board ev owner _ _ h h1.1
      ⟨Direction.vertical, row - 3, col, (lineInGrid_vertical _ _).mpr ⟨by omega, hc⟩, 3,
        by decide, ?_, ?_⟩
    · show (row - 3 + 3, col) = (row, col)
      rw [show row - 3 + 3 = row by omega]
    · intro j hj hne
      show board.cell (row - 3 + j) col = owner
      interval_cases j
      · exact h1.2.2.2
      · rw [show row - 3 + 1 = row - 2 by omega]; exact h1.2.2.1
      · rw [show row - 3 + 2 = row - 1 by omega]; exact h1.2.1
      · exact absurd rfl hne
  · exact h

theorem ScanLineInv_diagonalStepLeft (board ev : Board) (owner : Char) (col row : Nat)
    (hc : 3 ≤ col ∧ col < WIDTH) (hr : 3 ≤ row ∧ row < HEIGHT)
    (h : ScanLineInv board owner ev) :
    ScanLineInv board owner (diagonalStepLeft board owner col row ev) := by
  have hH : HEIGHT = 6 := rfl
  have hW : WIDTH = 7 := rfl
  rw [diagonalStepLeft_eq_windowStep]
  rcases windowStep_cases board ev owner (fun j => (row - j, col - j)) with
    h' | ⟨k, hk, h', he, ho⟩
  · rw [h']; exact h
  · rw [h']
    refine ScanLineInv_set board ev owner _ _ h he
      ⟨Direction.diagonalUp, row - 3, col - 3,
        (lineInGrid_diagonalUp _ _).mpr ⟨by omega, by omega⟩, 3 - k, by omega, ?_, ?_⟩
    · show (row - 3 + (3 - k), col - 3 + (3 - k)) = (row - k, col - k)
      rw [show row - 3 + (3 - k) = row - k by omega, show col - 3 + (3 - k) = col - k by omega]
    · intro j hj hne
      show board.cell (row - 3 + j) (col - 3 + j) = owner
      have := ho (3 - j) (by omega) (by omega)
      simp only at this
      rw [show row - (3 - j) = row - 3 + j by omega,
        show col - (3 - j) = col - 3 + j by omega] at this
      exact this

theorem ScanLineInv_diagonalStepRight (board ev : Board) (owner : Char) (col row : Nat)
    (hc : col < 4) (hr : 3 ≤ row ∧ row < HEIGHT) (h : ScanLineInv board owner ev) :
    ScanLineInv board owner (diagonalStepRight board owner col row ev) := by
  have hH : HEIGHT = 6 := rfl
  rw [diagonalStepRight_eq_windowStep]
  rcases windowStep_cases board ev owner (fun j => (row - j, col + j)) with
    h' | ⟨k, hk, h', he, ho⟩
  · rw [h']; exact h
  · rw [h']
    refine ScanLineInv_set board ev owner _ _ h he
      ⟨Direction.diagonalDown, row - 3, col,
        (lineInGrid_diagonalDown _ _).mpr ⟨by omega, hc⟩, k, hk, ?_, ?_⟩
    · show (row - 3 + 3 - k, col + k) = (row - k, col + k)
      rw [show row - 3 + 3 - k = row - k by omega]
    · intro j hj hne
      show board.cell (row - 3 + 3 - j) (col + j) = owner
      rw [show row - 3 + 3 - j = row - j by omega]
      exact ho j hj hne

/-- Every cell the scans mark is an empty cell of the board that completes a line of four of
`owner`. -/
theorem ScanLineInv_scanEvaluation (board : Board) (owner : Char) :
    ScanLineInv board owner (scanEvaluation board owner) := by
  have hH : HEIGHT = 6 := rfl
  have hW : WIDTH = 7 := rfl
  unfold scanEvaluation
  rw [diagonalEvaluation_eq]
  unfold verticalEvaluation horizontalEvaluation
  apply foldl_foldl_invariant (ScanLineInv board owner) (diagonalStepRight board owner)
  · apply foldl_foldl_invariant (ScanLineInv board owner) (diagonalStepLeft board owner)
    · apply foldl_foldl_invariant (ScanLineInv board owner) (verticalStep board owner)
      · apply foldl_foldl_invariant (ScanLineInv board owner) (horizontalStep board owner)
        · exact fun _ _ => Or.inl rfl
        · intro col row ev hcol hrow h
          have := (mem_downTo _ _ _).mp hrow
          exact ScanLineInv_horizontalStep board ev owner col row (List.mem_range.mp hcol)
            (by omega) h
      · intro col row ev hcol hrow h
        have := (mem_downTo _ _ _).mp hrow
        exact ScanLineInv_verticalStep board ev owner col row (List.mem_range.mp hcol)
          ⟨this.1, by omega⟩ h
    · intro col row ev hcol hrow h
      have h1 := (mem_downTo _ _ _).mp hrow
      have h2 := (mem_downTo _ _ _).mp hcol
      exact ScanLineInv_diagonalStepLeft board ev owner col row ⟨h2.1, by omega⟩
        ⟨h1.1, by omega⟩ h
  · intro col row ev hcol hrow h
    have h1 := (mem_downTo _ _ _).mp hrow
    exact ScanLineInv_diagonalStepRight board ev owner col row (List.mem_range.mp hcol)
      ⟨h1.1, by omega⟩ h

/-- On a gravity-packed board with cells `EMPTY`, `P1` or `P2`, a cell of the grid is marked
`'F'` by the scans exactly when it is empty and completes a line of four of `owner`. -/
theorem scanEvaluation_F_iff (board : Board) (owner : Char)
    (hg : board.gravityPacked = true)
    (hcells : ∀ r, r < HEIGHT → ∀ c, c < WIDTH →
      board.cell r c = EMPTY ∨ board.cell r c = P1 ∨ board.cell r c = P2)
    (howner : owner = P1 ∨ owner = P2) (r c : Nat) (hr : r < HEIGHT) (hc : c < WIDTH) :
    (scanEvaluation board owner).cell r c = 'F' ↔
      (board.cell r c = EMPTY ∧ board.completesLine owner r c) := by
  constructor
  · intro hF
    rcases ScanLineInv_scanEvaluation board owner r c with h | ⟨he, _, hl⟩
    · have hnotF : board.cell r c ≠ 'F' := by
        rcases hcells r hr c hc with h' | h' | h' <;> rw [h'] <;> decide
      rw [hF] at h
      exact absurd h.symm hnotF
    · exact ⟨he, hl⟩
  · rintro ⟨he, hl⟩
    exact scanEvaluation_of_completesLine board owner r c (player_ne_EMPTY _ howner) hg he hl

/-- A cell of the grid is marked `'F'` or `'D'` by `getEvaluationBoard` exactly when the scans
mark it `'F'`, on a board with cells `EMPTY`, `P1` or `P2`. -/
theorem getEvaluationBoard_marked_iff_scan (board : Board) (owner : Char)
    (hcells : ∀ r, r < HEIGHT → ∀ c, c < WIDTH →
      board.cell r c = EMPTY ∨ board.cell r c = P1 ∨ board.cell r c = P2)
    (r c : Nat) (hr : r < HEIGHT) (hc : c < WIDTH) :
    ((getEvaluationBoard board owner).cell r c = 'F' ∨
      (getEvaluationBoard board owner).cell r c = 'D') ↔
      (scanEvaluation board owner).cell r c = 'F' := by
  have hnotD : board.cell r c ≠ 'D' := by
    rcases hcells r hr c hc with h | h | h <;> rw [h] <;> decide
  constructor
  · intro hm
    rcases DoubleInv_getEvaluationBoard board owner r c with h | ⟨_, hF, _⟩
    · rw [h] at hm
      rcases hm with hm | hm
      · exact hm
      · rcases ScanInv_scanEvaluation board owner r c with h' | ⟨_, h'⟩
        · rw [hm] at h'
          exact absurd h'.symm hnotD
        · rw [hm] at h'
          exact absurd h' (by decide)
    · exact hF
  · intro hF
    rcases DoubleInv_getEvaluationBoard board owner r c with h | ⟨hD, _⟩
    · exact Or.inl (h.trans hF)
    · exact Or.inr hD

/-- C14: on a gravity-packed board whose cells are `EMPTY`, `P1` or `P2`, and for an owner
`P1` or `P2`, a cell of the grid is marked `'F'` or `'D'` in `getEvaluationBoard` exactly
when it is empty in the board and some line of four consecutive cells inside the grid, along
a row, a column or either diagonal, contains it and has its other three cells equal to the
owner, whichever of the four cells of the line it is. -/
theorem getEvaluationBoard_marked_iff (board : Board) (owner : Char)
    (hg : board.gravityPacked = true)
    (hcells : ∀ r, r < HEIGHT → ∀ c, c < WIDTH →
      board.cell r c = EMPTY ∨ board.cell r c = P1 ∨ board.cell r c = P2)
    (howner : owner = P1 ∨ owner = P2) (r c : Nat) (hr : r < HEIGHT) (hc : c < WIDTH) :
    ((getEvaluationBoard board owner).cell r c = 'F' ∨
      (getEvaluationBoard board owner).cell r c = 'D') ↔
      (board.cell r c = EMPTY ∧ board.completesLine owner r c) := by
  rw [getEvaluationBoard_marked_iff_scan board owner hcells r c hr hc]
  exact scanEvaluation_F_iff board owner hg hcells howner r c hr hc

/-- Witness of `getEvaluationBoard_marked_iff`: cell `(0, 3)` of the board of
`tripleForcedState`, evaluated for `P1`, completes the row `(0, 1) .. (0, 4)`. -/
theorem getEvaluationBoard_marked_iff_witness :
    tripleForcedState.getBoard.gravityPacked = true ∧
    (∀ r, r < HEIGHT → ∀ c, c < WIDTH →
      tripleForcedState.getBoard.cell r c = EMPTY ∨ tripleForcedState.getBoard.cell r c = P1 ∨
      tripleForcedState.getBoard.cell r c = P2) ∧
    (getEvaluationBoard tripleForcedState.getBoard P1).cell 0 3 = 'F' ∧
    tripleForcedState.getBoard.cell 0 3 = EMPTY ∧
    tripleForcedState.getBoard.completesLine P1 0 3 :=
  have h := (getEvaluationBoard_marked_iff tripleForcedState.getBoard P1 (by decide)
    (by decide) (Or.inl rfl) 0 3 (by decide) (by decide)).mp (Or.inl (by decide))
  ⟨by decide, by decide, by decide, h.1, h.2⟩

/-! ## An immediately winning drop of the opponent -/

theorem lineCell_injective (d : Direction) (r0 c0 j k : Nat)
    (h : lineCell d r0 c0 j = lineCell d r0 c0 k) : j = k := by
  cases d <;> simp only [lineCell, Prod.mk.injEq] at h <;> omega

/-- On a board without a line of four of `p`, putting a token of `p` on a cell yields a line
of four of `p` exactly when the cell completes one. -/
theorem isDone_set_iff_completesLine (b : Board) (p : Char) (row col : Nat)
    (hb : b.isDone p = false) :
    (b.set row col p).isDone p = true ↔ b.completesLine p row col := by
  constructor
  · intro h
    obtain ⟨d, r0, c0, hin, hcells⟩ := hasLineOfFour_of_isDone _ _ h
    by_cases hk : ∃ k, k < 4 ∧ lineCell d r0 c0 k = (row, col)
    · obtain ⟨k, hk4, hkc⟩ := hk
      refine ⟨d, r0, c0, hin, k, hk4, hkc, fun j hj hjk => ?_⟩
      have := hcells j hj
      rw [cell_set] at this
      have hne : ¬ ((lineCell d r0 c0 j).1 = row ∧ (lineCell d r0 c0 j).2 = col) := by
        rintro ⟨e1, e2⟩
        have : lineCell d r0 c0 j = lineCell d r0 c0 k := by
          rw [hkc]; exact Prod.ext e1 e2
        exact hjk (lineCell_injective d r0 c0 j k this)
      rw [if_neg hne] at this
      exact this
    · have hline : b.hasLineOfFour p := by
        refine ⟨d, r0, c0, hin, fun k hk4 => ?_⟩
        have := hcells k hk4
        rw [cell_set] at this
        have hne : ¬ ((lineCell d r0 c0 k).1 = row ∧ (lineCell d r0 c0 k).2 = col) := by
          rintro ⟨e1, e2⟩
          exact hk ⟨k, hk4, Prod.ext e1 e2⟩
        rw [if_neg hne] at this
        exact this
      rw [isDone_of_hasLineOfFour b p hline] at hb
      cases hb
  · rintro ⟨d, r0, c0, hin, k, hk, hkc, ho⟩
    apply isDone_of_hasLineOfFour
    refine ⟨d, r0, c0, hin, fun j hj => ?_⟩
    rw [cell_set]
    split
    · rfl
    · next hne =>
      by_cases hjk : j = k
      · subst hjk
        rw [hkc] at hne
        exact absurd ⟨rfl, rfl⟩ hne
      · exact ho j hj hjk

theorem getScoreCol_forced_iff_any (s : State) (k : Nat) (hnd : s.isDone = false) :
    getScoreCol s k = some FORCED_MOVE ↔
      (landingMarks s.getBoard
        (getEvaluationBoard s.getBoard (getOpponent (getOpponent s.getTurn)))).any
        (fun ch => decide (ch = 'F' ∨ ch = 'D')) = true := by
  rw [getScoreCol_of_not_isDone s k hnd]
  constructor
  · intro h
    by_contra hany
    rw [if_neg hany] at h
    revert h
    unfold FORCED_MOVE DOUBLE_TRAP_MOVE TRAP_MOVE
    split_ifs <;> decide
  · intro h
    rw [if_pos h]

theorem addPosition_getBoard (s s' : State) (col : Nat) (h : s.addPosition col = some s') :
    ∃ row, s.getBoard.getTopRow col = some row ∧
      s'.getBoard = s.getBoard.set row col s.getTurn :=
  addPosition_board s s' col h

/-- On a state that satisfies the invariant and is not done, `getScoreCol` returns
`FORCED_MOVE` exactly when some drop of the player to move completes a line of four. -/
theorem getScoreCol_forced_iff (s : State) (k : Nat) (hw : s.WellFormed)
    (hnd : s.isDone = false) :
    getScoreCol s k = some FORCED_MOVE ↔
      ∃ col, col < WIDTH ∧ s.isColValid col = true ∧
        ∃ s', s.addPosition col = some s' ∧ s'.getBoard.isDone s.getTurn = true := by
  obtain ⟨hturn0, hcells0, hg0, hcase⟩ := hw
  have hturn : s.getTurn = P1 ∨ s.getTurn = P2 := hturn0
  have hcells : ∀ r, r < HEIGHT → ∀ c, c < WIDTH →
      s.getBoard.cell r c = EMPTY ∨ s.getBoard.cell r c = P1 ∨ s.getBoard.cell r c = P2 :=
    hcells0
  have hg : s.getBoard.gravityPacked = true := hg0
  have hline : s.getBoard.isDone s.getTurn = false := by
    show s._board.isDone s._pTurn = false
    rcases hcase with ⟨_, h1, h2, _⟩ | ⟨_, _, _, hd⟩
    · rcases hturn0 with h | h <;> rw [h] <;> assumption
    · have : s.isDone = true := hd
      rw [hnd] at this; cases this
  have hopp : getOpponent (getOpponent s.getTurn) = s.getTurn :=
    getOpponent_getOpponent _ hturn
  rw [getScoreCol_forced_iff_any s k hnd, hopp, any_forced_iff]
  constructor
  · rintro ⟨col, hc, hv, row, hrow, hmark⟩
    obtain ⟨hr, _, _, _⟩ := getTopRow_eq_some s.getBoard col row hrow
    have hscan := (getEvaluationBoard_marked_iff_scan s.getBoard s.getTurn hcells row col
      hr hc).mp hmark
    obtain ⟨_, hl⟩ := (scanEvaluation_F_iff s.getBoard s.getTurn hg hcells hturn row col
      hr hc).mp hscan
    obtain ⟨s', hs'⟩ := addPosition_isSome s col hc hv
    obtain ⟨row', hrow', hb⟩ := addPosition_getBoard s s' col hs'
    rw [hrow] at hrow'
    cases hrow'
    refine ⟨col, hc, hv, s', hs', ?_⟩
    rw [hb]
    exact (isDone_set_iff_completesLine s.getBoard s.getTurn row col hline).mpr hl
  · rintro ⟨col, hc, hv, s', hs', hwin⟩
    obtain ⟨row, hrow, hb⟩ := addPosition_getBoard s s' col hs'
    obtain ⟨hr, _, he, _⟩ := getTopRow_eq_some s.getBoard col row hrow
    rw [hb] at hwin
    have hl := (isDone_set_iff_completesLine s.getBoard s.getTurn row col hline).mp hwin
    refine ⟨col, hc, hv, row, hrow, ?_⟩
    exact (getEvaluationBoard_marked_iff_scan s.getBoard s.getTurn hcells row col hr hc).mpr
      ((scanEvaluation_F_iff s.getBoard s.getTurn hg hcells hturn row col hr hc).mpr ⟨he, hl⟩)

/-- C15: on a state that is not done and results from a drop into a droppable column of a
reachable state, `getScoreCol` returns `FORCED_MOVE` exactly when the player now to move has
an immediately winning drop: a droppable column such that `State::addPosition` on it yields
a board with a line of four of that player. -/
theorem getScoreCol_forced_iff_winning_drop (s0 s : State) (c k : Nat)
    (hreach : Reachable s0) (_hc : c < WIDTH) (_hv : s0.isColValid c = true)
    (hdrop : s0.addPosition c = some s) (hnd : s.isDone = false) :
    getScoreCol s k = some FORCED_MOVE ↔
      ∃ col, col < WIDTH ∧ s.isColValid col = true ∧
        ∃ s', s.addPosition col = some s' ∧ s'.getBoard.isDone s.getTurn = true := by
  have hw0 := WellFormed_of_Reachable s0 hreach
  have hw := (WellFormed_addPosition s0 s c hw0 hdrop).1
  exact getScoreCol_forced_iff s k hw hnd

/-- Witness of `getScoreCol_forced_iff_winning_drop`: `P1` holds row 0 of columns 0, 1, 2 in
`horizontalThreeState`, `P2` drops into column 6 without winning, and `P1` wins by dropping
into column 3. -/
theorem getScoreCol_forced_iff_winning_drop_witness :
    Reachable horizontalThreeState ∧ horizontalThreeState.isColValid 6 = true ∧
    horizontalThreeState.addPosition 6 = some (playedFromP1 [0, 0, 1, 1, 2, 6]) ∧
    (playedFromP1 [0, 0, 1, 1, 2, 6]).isDone = false ∧
    (playedFromP1 [0, 0, 1, 1, 2, 6]).getTurn = P1 ∧
    (playedFromP1 [0, 0, 1, 1, 2, 6]).addPosition 3 =
      some (playedFromP1 [0, 0, 1, 1, 2, 6, 3]) ∧
    (playedFromP1 [0, 0, 1, 1, 2, 6, 3]).getBoard.isDone P1 = true ∧
    getScoreCol (playedFromP1 [0, 0, 1, 1, 2, 6]) 6 = some FORCED_MOVE :=
  have hreach : Reachable horizontalThreeState :=
    ⟨[0, 0, 1, 1, 2], Or.inl (play_playedFromP1 _ (by decide))⟩
  have hdrop : horizontalThreeState.addPosition 6 = some (playedFromP1 [0, 0, 1, 1, 2, 6]) := rfl
  have hwin : (playedFromP1 [0, 0, 1, 1, 2, 6]).addPosition 3 =
      some (playedFromP1 [0, 0, 1, 1, 2, 6, 3]) := rfl
  ⟨hreach, by decide, hdrop, by decide, by decide, hwin, by decide,
    (getScoreCol_forced_iff_winning_drop horizontalThreeState _ 6 6 hreach (by decide)
      (by decide) hdrop (by decide)).mpr
      ⟨3, by decide, by decide, _, hwin, by decide⟩⟩

/-! ## The search recurrence -/

/-- Writing any symbol into the lowest empty cell of a column keeps the board gravity-packed
(writing `EMPTY` changes no cell). -/
theorem gravityPacked_set_lowest (b : Board) (row col : Nat) (player : Char)
    (hg : b.gravityPacked = true) (he : b.cell row col = EMPTY)
    (hbelow : ∀ r, r < row → b.cell r col ≠ EMPTY) :
    (b.set row col player).gravityPacked = true := by
  by_cases hp : player = EMPTY
  · subst hp
    have hsame : ∀ r c, (b.set row col EMPTY).cell r c = b.cell r c := by
      intro r c
      rw [cell_set]
      split
      · next h =>
        obtain ⟨h1, h2⟩ := h
        subst h1; subst h2
        exact he.symm
      · rfl
    rw [gravityPacked_iff] at hg ⊢
    intro c hc r hr above ha hlt h
    rw [hsame] at h ⊢
    exact hg c hc r hr above ha hlt h
  · exact gravityPacked_set b row col player hg hp hbelow

/-- The recursion factor of the source is the division by 1.5 followed by truncation toward
zero. -/
theorem recursionFactor_eq_truncate (x : Int) :
    recursionFactor x = truncateTowardZero ((x : ℚ) / 1.5) := by
  unfold recursionFactor truncateTowardZero
  by_cases h : 0 ≤ x
  · have e : ((x : ℚ) / 1.5) = ((2 * x : Int) : ℚ) / ((3 : ℕ) : ℚ) := by
      push_cast; norm_num; ring
    have hq : (0 : ℚ) ≤ (x : ℚ) / 1.5 := by
      apply div_nonneg
      · exact_mod_cast h
      · norm_num
    rw [if_pos hq, e, Rat.floor_intCast_div_natCast, Int.tdiv_eq_ediv (by omega) (by omega)]
    rfl
  · have e : ((x : ℚ) / 1.5) = -(((2 * (-x) : Int) : ℚ) / ((3 : ℕ) : ℚ)) := by
      push_cast; norm_num; ring
    have hq : ¬ (0 : ℚ) ≤ (x : ℚ) / 1.5 := by
      rw [not_le]
      apply div_neg_of_neg_of_pos
      · exact_mod_cast (not_le.mp h)
      · norm_num
    rw [if_neg hq, e, Int.ceil_neg, Rat.floor_intCast_div_natCast,
      show 2 * x = -(2 * (-x)) by ring, Int.neg_tdiv, Int.tdiv_eq_ediv (by omega) (by omega)]
    simp

theorem wrapInt32_neg (m : Int) (h1 : INT_LOWEST < m) (h2 : m ≤ 2147483647) :
    wrapInt32 (-m) = -m := by
  unfold INT_LOWEST at h1
  unfold wrapInt32
  omega

/-- A drop that leaves the state not done leaves the board not full. -/
theorem addPosition_isFull_of_not_isDone (s s' : State) (col : Nat)
    (h : s.addPosition col = some s') (hnd : s'.isDone = false) :
    s'.getBoard.isFull = false := by
  unfold State.addPosition at h
  cases hrow : s._board.getTopRow col with
  | none => simp [hrow] at h
  | some row =>
    simp only [hrow] at h
    split at h
    · cases h
      cases hf : (s._board.set row col s._pTurn).isFull
      · exact hf
      · simp [State.isDone, hf] at hnd
    · cases h
      simp [State.isDone] at hnd

/-- A gravity-packed board that is not full has a droppable column. -/
theorem exists_isColValid_of_not_isFull (b : Board) (hg : b.gravityPacked = true)
    (hf : b.isFull = false) : ∃ col : Fin WIDTH, b.isColValid col.val = true := by
  have hH : HEIGHT = 6 := rfl
  have : ¬ ∀ row, row < HEIGHT → ∀ col, col < WIDTH → b.cell row col ≠ EMPTY := by
    intro h
    rw [(isFull_eq_true_iff b).mpr h] at hf
    cases hf
  push_neg at this
  obtain ⟨row, hr, col, hc, he⟩ := this
  refine ⟨⟨col, hc⟩, ?_⟩
  have h5 : b.cell 5 col = EMPTY := by
    by_cases h : row = 5
    · rw [← h]; exact he
    · exact (gravityPacked_iff b).mp hg col hc row hr 5 (by omega) (by omega) he
  simpa [Board.isColValid] using h5

/-- The maximum of a vector returned by `getScores` for a state with a droppable column, or at
depth 0, is a 32-bit value above the sentinel. -/
theorem getScores_max_bounds (state : State) (player : Char) (d : Nat) (scores : Scores)
    (h : getScores state player d = some scores)
    (hcol : ∃ col : Fin WIDTH, state.isColValid col.val = true) :
    INT_LOWEST < scores.max ∧ scores.max ≤ 2147483647 := by
  have hrange := getScores_inRange player d state scores h
  refine ⟨?_, (scores.max_inRange hrange).2⟩
  cases d with
  | zero =>
    cases h
    exact lt_of_lt_of_le (by decide : INT_LOWEST < 0) ((Scores.ofValue 0).le_max 0)
  | succ d =>
    obtain ⟨scores', h', hentry⟩ := getScores_succ_spec state player d
    rw [h] at h'
    cases h'
    obtain ⟨c0, hc0⟩ := hcol
    have hb := ColEntry_bounds _ (fun st r hr => getScores_inRange player d st r hr)
      state c0 player _ (hentry c0)
    exact lt_of_lt_of_le (hb.2 hc0) (scores.le_max c0)

/-- C16: for a state whose board is gravity-packed (as in every reachable state), every
player and every droppable column `c`, with `next` the state after the drop and `imm` the
value of `getScoreCol` on it: at every depth `d + 1 ≥ 1`
entry `c` of `getScores` is `imm` when `imm` is `WIN_MOVE`, `DOUBLE_TRAP_MOVE` or
`FORCED_MOVE`; otherwise it is `sign * max(getScores(next, player, d))` divided by 1.5 and
truncated toward zero, where `sign` is -1 exactly when `player` is `next.getLastPayer()`, and
the same `player` is passed to the recursive call. -/
theorem getScores_recurrence (state : State) (player : Char) (c : Fin WIDTH)
    (hg : state.getBoard.gravityPacked = true) (hv : state.isColValid c.val = true) :
    ∃ next imm, state.addPosition c.val = some next ∧ getScoreCol next c.val = some imm ∧
      ∀ d, ∃ scores, getScores state player (d + 1) = some scores ∧
        ((imm = WIN_MOVE ∨ imm = DOUBLE_TRAP_MOVE ∨ imm = FORCED_MOVE) → scores c = imm) ∧
        (¬ (imm = WIN_MOVE ∨ imm = DOUBLE_TRAP_MOVE ∨ imm = FORCED_MOVE) →
          ∃ recScores, getScores next player d = some recScores ∧
            scores c = truncateTowardZero
              ((((if player = next.getLastPayer then -1 else 1) * recScores.max : Int) : ℚ)
                / 1.5) ∧
            scores c =
              Int.tdiv (2 * ((if player = next.getLastPayer then -1 else 1) * recScores.max))
                3) := by
  obtain ⟨next, hnext⟩ := addPosition_isSome state c.val c.isLt hv
  obtain ⟨imm, himm⟩ := getScoreCol_isSome next c.val
  refine ⟨next, imm, hnext, himm, fun d => ?_⟩
  obtain ⟨scores, h, hentry⟩ := getScores_succ_spec state player d
  obtain ⟨next', imm', hnext', himm', hshort, hdeep⟩ := (hentry c).2 hv
  rw [hnext] at hnext'
  cases hnext'
  rw [himm] at himm'
  cases himm'
  refine ⟨scores, h, hshort, fun hns => ?_⟩
  obtain ⟨recScores, hrec, hval⟩ := hdeep hns
  -- the continuation has a droppable column, so its maximum can be negated
  have hnd : next.isDone = false := by
    cases hd : next.isDone
    · rfl
    · rw [getScoreCol_of_isDone next c.val hd] at himm
      cases himm
      exact absurd (Or.inl rfl) hns
  have hgnext : next.getBoard.gravityPacked = true := by
    obtain ⟨row, hrow, hb⟩ := addPosition_getBoard state next c.val hnext
    obtain ⟨_, _, he, hbelow⟩ := getTopRow_eq_some state.getBoard c.val row hrow
    rw [hb]
    exact gravityPacked_set_lowest state.getBoard row c.val state.getTurn hg he hbelow
  have hcol := exists_isColValid_of_not_isFull next.getBoard hgnext
    (addPosition_isFull_of_not_isDone state next c.val hnext hnd)
  obtain ⟨hlow, hhigh⟩ := getScores_max_bounds next player d recScores hrec hcol
  have harg : (if player = next.getLastPayer then wrapInt32 (-recScores.max)
      else recScores.max) =
      (if player = next.getLastPayer then -1 else 1) * recScores.max := by
    split
    · rw [wrapInt32_neg _ hlow hhigh]; ring
    · ring
  rw [harg] at hval
  refine ⟨recScores, hrec, ?_, hval⟩
  rw [hval, recursionFactor_eq_truncate]

/-- Witness of `getScores_recurrence`: column 3 of `twoTokenState` with `P1` searching; the
drop yields no immediate signal, and at depth 2 the entry is the negated maximum of the
depth-1 continuation, divided by 1.5 and truncated. -/
theorem getScores_recurrence_witness :
    twoTokenState.getBoard.gravityPacked = true ∧ twoTokenState.getTurn = P1 ∧
    twoTokenState.isColValid 3 = true ∧
    ∃ next imm, twoTokenState.addPosition 3 = some next ∧ getScoreCol next 3 = some imm ∧
      imm = 0 ∧ P1 = next.getLastPayer ∧
      ∃ scores recScores, getScores twoTokenState P1 2 = some scores ∧
        getScores next P1 1 = some recScores ∧
        scores 3 = truncateTowardZero (((-1 * recScores.max : Int) : ℚ) / 1.5) ∧
        scores 3 = Int.tdiv (2 * (-1 * recScores.max)) 3 := by
  obtain ⟨next, imm, hnext0, himm0', hall⟩ :=
    getScores_recurrence twoTokenState P1 3 (by decide) (by decide)
  have hnext : twoTokenState.addPosition 3 = some next := hnext0
  have himm : getScoreCol next 3 = some imm := himm0'
  have himm0 : (twoTokenState.addPosition 3).bind (fun s => getScoreCol s 3) = some 0 := by
    decide
  have hlast : (twoTokenState.addPosition 3).map (fun s => decide (P1 = s.getLastPayer)) =
      some true := by decide
  rw [hnext] at himm0 hlast
  have himmz : imm = 0 := by
    have : getScoreCol next 3 = some 0 := himm0
    rw [himm] at this
    exact Option.some.inj this
  have hlast' : P1 = next.getLastPayer := by simpa using hlast
  obtain ⟨scores, hs, _, hdeep⟩ := hall 1
  obtain ⟨recScores, hrec, h1, h2⟩ := hdeep (by rw [himmz]; decide)
  rw [if_pos hlast'] at h1 h2
  exact ⟨by decide, by decide, by decide, next, imm, hnext, himm, himmz, hlast', scores,
    recScores, hs, hrec, h1, h2⟩

/-! ## The empty board -/

theorem getScores_eq_zero_of_all (state : State) (player : Char) (d : Nat)
    (h : (getScores state player d).map (fun sc => decide (∀ c : Fin WIDTH, sc c = 0)) =
      some true) :
    getScores state player d = some (fun _ => 0) := by
  obtain ⟨scores, hs⟩ := getScores_isSome state player d
  rw [hs] at h ⊢
  simp only [Option.map_some', Option.some.injEq, decide_eq_true_eq] at h
  congr 1
  funext c
  exact h c

theorem getScoreCol_after_drop_of_bind (state : State) (v : Int)
    (h : ∀ col : Fin WIDTH,
      (state.addPosition col.val).bind (fun s => getScoreCol s col.val) = some v)
    (col : Fin WIDTH) :
    ∃ s, state.addPosition col.val = some s ∧ getScoreCol s col.val = some v := by
  have := h col
  cases hs : state.addPosition col.val with
  | none => rw [hs] at this; cases this
  | some s => rw [hs] at this; exact ⟨s, rfl, this⟩

theorem getCol_of_zero_scores (shuffle : List (Fin WIDTH) → List (Fin WIDTH)) (state : State)
    (d : Nat) (h : getScores state state.getTurn d = some (fun _ => 0)) :
    getCol shuffle state d = some 3 := by
  unfold getCol
  rw [h]
  rfl

/-- C13: from the empty board, with `P1` or `P2` to move, `getScoreCol` returns 0 on the
state after the first drop into each of the seven columns; `getScores` at depth 1 and at
depth 2 returns seven zeros, for either player as the searching player; and `getCol` selects
column 3 at both depths, for every shuffle. -/
theorem empty_board_scores (p : Char) (hp : p = P1 ∨ p = P2) :
    (∀ col : Fin WIDTH, ∃ s, (State.init p).addPosition col.val = some s ∧
      getScoreCol s col.val = some 0) ∧
    (∀ player, player = P1 ∨ player = P2 →
      getScores (State.init p) player 1 = some (fun _ => 0) ∧
      getScores (State.init p) player 2 = some (fun _ => 0)) ∧
    ∀ shuffle : List (Fin WIDTH) → List (Fin WIDTH),
      getCol shuffle (State.init p) 1 = some 3 ∧ getCol shuffle (State.init p) 2 = some 3 := by
  have h11 : getScores (State.init P1) P1 1 = some (fun _ => 0) :=
    getScores_eq_zero_of_all _ _ _ (by decide)
  have h12 : getScores (State.init P1) P2 1 = some (fun _ => 0) :=
    getScores_eq_zero_of_all _ _ _ (by decide)
  have h21 : getScores (State.init P2) P1 1 = some (fun _ => 0) :=
    getScores_eq_zero_of_all _ _ _ (by decide)
  have h22 : getScores (State.init P2) P2 1 = some (fun _ => 0) :=
    getScores_eq_zero_of_all _ _ _ (by decide)
  have k11 : getScores (State.init P1) P1 2 = some (fun _ => 0) :=
    getScores_eq_zero_of_all _ _ _ (by decide)
  have k12 : getScores (State.init P1) P2 2 = some (fun _ => 0) :=
    getScores_eq_zero_of_all _ _ _ (by decide)
  have k21 : getScores (State.init P2) P1 2 = some (fun _ => 0) :=
    getScores_eq_zero_of_all _ _ _ (by decide)
  have k22 : getScores (State.init P2) P2 2 = some (fun _ => 0) :=
    getScores_eq_zero_of_all _ _ _ (by decide)
  rcases hp with hp | hp <;> subst hp
  · refine ⟨getScoreCol_after_drop_of_bind _ 0 (by decide), fun player hpl => ?_,
      fun shuffle => ⟨getCol_of_zero_scores shuffle _ 1 h11,
        getCol_of_zero_scores shuffle _ 2 k11⟩⟩
    rcases hpl with hpl | hpl <;> subst hpl
    · exact ⟨h11, k11⟩
    · exact ⟨h12, k12⟩
  · refine ⟨getScoreCol_after_drop_of_bind _ 0 (by decide), fun player hpl => ?_,
      fun shuffle => ⟨getCol_of_zero_scores shuffle _ 1 h22,
        getCol_of_zero_scores shuffle _ 2 k22⟩⟩
    rcases hpl with hpl | hpl <;> subst hpl
    · exact ⟨h21, k21⟩
    · exact ⟨h22, k22⟩

/-- Witness of `empty_board_scores`: the empty board with `P2` to move. -/
theorem empty_board_scores_witness :
    (∀ col : Fin WIDTH, ∃ s, (State.init P2).addPosition col.val = some s ∧
      getScoreCol s col.val = some 0) ∧
    (∀ player, player = P1 ∨ player = P2 →
      getScores (State.init P2) player 1 = some (fun _ => 0) ∧
      getScores (State.init P2) player 2 = some (fun _ => 0)) ∧
    ∀ shuffle : List (Fin WIDTH) → List (Fin WIDTH),
      getCol shuffle (State.init P2) 1 = some 3 ∧ getCol shuffle (State.init P2) 2 = some 3 :=
  empty_board_scores P2 (Or.inr rfl)

/-! ## Score bounds -/

theorem recursionFactor_bounds_million (y : Int) (h1 : -1000000 ≤ y) (h2 : y ≤ 1000000) :
    -666666 ≤ recursionFactor y ∧ recursionFactor y ≤ 666666 := by
  unfold recursionFactor
  by_cases h : 0 ≤ y
  · rw [Int.tdiv_eq_ediv (by omega) (by omega)]; omega
  · have : 2 * y = -(2 * (-y)) := by ring
    rw [this, Int.neg_tdiv, Int.tdiv_eq_ediv (by omega) (by omega)]; omega

/-- When `getScoreCol` does not return `WIN_MOVE`, the state is not done. -/
theorem isDone_eq_false_of_getScoreCol (s : State) (k : Nat) (v : Int)
    (h : getScoreCol s k = some v) (hv : v ≠ WIN_MOVE) : s.isDone = false := by
  cases hd : s.isDone
  · rfl
  · rw [getScoreCol_of_isDone s k hd] at h
    exact absurd (Option.some.inj h).symm hv

/-- When `getScoreCol` returns `WIN_MOVE`, the state is done. -/
theorem isDone_of_getScoreCol_win (s : State) (k : Nat)
    (h : getScoreCol s k = some WIN_MOVE) : s.isDone = true := by
  cases hd : s.isDone
  · rw [getScoreCol_of_not_isDone s k hd] at h
    revert h
    unfold WIN_MOVE FORCED_MOVE DOUBLE_TRAP_MOVE TRAP_MOVE
    split_ifs <;> decide
  · rfl

/-- A drop on a gravity-packed board that leaves the state not done yields a gravity-packed
board with a droppable column. -/
theorem addPosition_next_droppable (state next : State) (col : Nat)
    (hg : state.getBoard.gravityPacked = true) (h : state.addPosition col = some next)
    (hnd : next.isDone = false) :
    next.getBoard.gravityPacked = true ∧ ∃ c : Fin WIDTH, next.isColValid c.val = true := by
  have hgnext : next.getBoard.gravityPacked = true := by
    obtain ⟨row, hrow, hb⟩ := addPosition_getBoard state next col h
    obtain ⟨_, _, he, hbelow⟩ := getTopRow_eq_some state.getBoard col row hrow
    rw [hb]
    exact gravityPacked_set_lowest state.getBoard row col state.getTurn hg he hbelow
  exact ⟨hgnext, exists_isColValid_of_not_isFull next.getBoard hgnext
    (addPosition_isFull_of_not_isDone state next col h hnd)⟩

/-- The entry of a droppable column, given that the continuation maximum lies in
`[-1000000, 1000000]` whenever the search recurses: it is a short-circuit value or lies in
`[-666666, 666666]`. -/
theorem ColEntry_range (getScoresRec : State → Option Scores) (state : State)
    (col : Fin WIDTH) (player : Char) (old x : Int)
    (h : ColEntry getScoresRec state col player old x)
    (hv : state.isColValid col.val = true)
    (hrec : ∀ next imm r, state.addPosition col.val = some next →
      getScoreCol next col.val = some imm →
      ¬ (imm = WIN_MOVE ∨ imm = DOUBLE_TRAP_MOVE ∨ imm = FORCED_MOVE) →
      getScoresRec next = some r → -1000000 ≤ r.max ∧ r.max ≤ 1000000) :
    (x = WIN_MOVE ∨ x = DOUBLE_TRAP_MOVE ∨ x = FORCED_MOVE ∨ (-666666 ≤ x ∧ x ≤ 666666)) ∧
      (x = WIN_MOVE → ∃ next, state.addPosition col.val = some next ∧
        getScoreCol next col.val = some WIN_MOVE) := by
  obtain ⟨next, imm, hnext, himm, hshort, hdeep⟩ := h.2 hv
  by_cases hs : imm = WIN_MOVE ∨ imm = DOUBLE_TRAP_MOVE ∨ imm = FORCED_MOVE
  · have hx := hshort hs
    refine ⟨?_, fun hw => ⟨next, hnext, by rw [himm, ← hx, hw]⟩⟩
    rw [hx]
    rcases hs with h' | h' | h'
    · exact Or.inl h'
    · exact Or.inr (Or.inl h')
    · exact Or.inr (Or.inr (Or.inl h'))
  · obtain ⟨r, hr, hx⟩ := hdeep hs
    obtain ⟨hlo, hhi⟩ := hrec next imm r hnext himm hs hr
    have harg : -1000000 ≤ (if player = next.getLastPayer then wrapInt32 (-r.max) else r.max) ∧
        (if player = next.getLastPayer then wrapInt32 (-r.max) else r.max) ≤ 1000000 := by
      split
      · rw [wrapInt32_neg r.max (by unfold INT_LOWEST; omega) (by omega)]
        omega
      · exact ⟨hlo, hhi⟩
    have hb := recursionFactor_bounds_million _ harg.1 harg.2
    rw [← hx] at hb
    refine ⟨Or.inr (Or.inr (Or.inr hb)), fun hw => ?_⟩
    rw [hw] at hb
    unfold WIN_MOVE at hb
    omega

/-- On a gravity-packed board, at every depth, the entry of every droppable column lies in
`[-666666, 1000000]`, and so does the maximum of the vector when a column is droppable. -/
theorem getScores_bounds (player : Char) (d : Nat) :
    ∀ (state : State) (scores : Scores), state.getBoard.gravityPacked = true →
      getScores state player d = some scores →
      (∀ c : Fin WIDTH, state.isColValid c.val = true →
        -666666 ≤ scores c ∧ scores c ≤ 1000000) ∧
      ((∃ c : Fin WIDTH, state.isColValid c.val = true) →
        -666666 ≤ scores.max ∧ scores.max ≤ 1000000) := by
  induction d with
  | zero =>
    intro state scores _ h
    cases h
    have hz : ∀ c : Fin WIDTH, Scores.ofValue 0 c = 0 := fun _ => rfl
    refine ⟨fun c _ => by rw [hz]; omega, fun _ => ?_⟩
    obtain ⟨cm, hcm⟩ := (Scores.ofValue 0).max_attained fun c => by rw [hz]; decide
    rw [← hcm, hz]
    omega
  | succ d ih =>
    intro state scores hg h
    obtain ⟨scores', h', hentry⟩ := getScores_succ_spec state player d
    rw [h] at h'
    cases h'
    have hcols : ∀ c : Fin WIDTH, state.isColValid c.val = true →
        -666666 ≤ scores c ∧ scores c ≤ 1000000 := by
      intro c hv
      have hr := (ColEntry_range _ state c player _ _ (hentry c) hv
        (fun next imm r hnext himm hs hr => by
          have hnd := isDone_eq_false_of_getScoreCol next c.val imm himm
            (fun hw => hs (Or.inl hw))
          obtain ⟨hgn, hcn⟩ := addPosition_next_droppable state next c.val hg hnext hnd
          obtain ⟨hlo, hhi⟩ := (ih next r hgn hr).2 hcn
          exact ⟨by omega, hhi⟩)).1
      unfold WIN_MOVE DOUBLE_TRAP_MOVE FORCED_MOVE at hr
      omega
    refine ⟨hcols, fun ⟨c0, hc0⟩ => ?_⟩
    have hrange := getScores_inRange player (d + 1) state scores h
    obtain ⟨cm, hcm⟩ := scores.max_attained fun c => (hrange c).1
    have hge : scores c0 ≤ scores.max := scores.le_max c0
    have h0 := hcols c0 hc0
    cases hvm : state.isColValid cm.val
    · have := (hentry cm).1 hvm
      rw [hcm] at this
      unfold INT_LOWEST at this
      omega
    · have := hcols cm hvm
      rw [hcm] at this
      exact this

/-- On a gravity-packed board, at depth `d + 1`: a column that is not droppable keeps the
sentinel; the entry of a droppable column is a short-circuit value or lies in
`[-666666, 666666]`, and it is `WIN_MOVE` only if `getScoreCol` returns `WIN_MOVE` after the
drop; whenever the search recurses, the continuation maximum lies in
`[-666666, 1000000]`. -/
theorem getScores_succ_range (state : State) (player : Char) (d : Nat)
    (hg : state.getBoard.gravityPacked = true) :
    ∃ scores, getScores state player (d + 1) = some scores ∧
      (∀ c : Fin WIDTH, state.isColValid c.val = false → scores c = INT_LOWEST) ∧
      (∀ c : Fin WIDTH, state.isColValid c.val = true →
        (scores c = WIN_MOVE ∨ scores c = DOUBLE_TRAP_MOVE ∨ scores c = FORCED_MOVE ∨
          (-666666 ≤ scores c ∧ scores c ≤ 666666)) ∧
        (scores c = WIN_MOVE → ∃ next, state.addPosition c.val = some next ∧
          getScoreCol next c.val = some WIN_MOVE)) ∧
      (∀ (c : Fin WIDTH) (next : State) (imm : Int), state.addPosition c.val = some next →
        getScoreCol next c.val = some imm →
        ¬ (imm = WIN_MOVE ∨ imm = DOUBLE_TRAP_MOVE ∨ imm = FORCED_MOVE) →
        ∃ recScores, getScores next player d = some recScores ∧
          -666666 ≤ recScores.max ∧ recScores.max ≤ 1000000) := by
  obtain ⟨scores, h, hentry⟩ := getScores_succ_spec state player d
  have hrec : ∀ (c : Fin WIDTH) (next : State) (imm : Int) (r : Scores),
      state.addPosition c.val = some next → getScoreCol next c.val = some imm →
      ¬ (imm = WIN_MOVE ∨ imm = DOUBLE_TRAP_MOVE ∨ imm = FORCED_MOVE) →
      getScores next player d = some r → -666666 ≤ r.max ∧ r.max ≤ 1000000 := by
    intro c next imm r hnext himm hs hr
    have hnd := isDone_eq_false_of_getScoreCol next c.val imm himm (fun hw => hs (Or.inl hw))
    obtain ⟨hgn, hcn⟩ := addPosition_next_droppable state next c.val hg hnext hnd
    exact (getScores_bounds player d next r hgn hr).2 hcn
  refine ⟨scores, h, fun c hv => (hentry c).1 hv, fun c hv => ?_, fun c next imm hnext himm hs => ?_⟩
  · exact ColEntry_range _ state c player _ _ (hentry c) hv
      (fun next imm r hnext himm hs hr => by
        obtain ⟨hlo, hhi⟩ := hrec c next imm r hnext himm hs hr
        exact ⟨by omega, hhi⟩)
  · obtain ⟨r, hr⟩ := getScores_isSome next player d
    exact ⟨r, hr, hrec c next imm r hnext himm hs hr⟩

/-- C22: for every reachable state that is not done, every player and every depth
`d + 1 ≥ 1`, `getScores` returns a vector in which the entry of each droppable column lies in
`[-666666, 1000000]` and is not the sentinel; and whenever `getScoreColRec` recurses on the
state after a drop, the maximum of the continuation vector is not the sentinel and its
negation is representable in 32 bits, so that the 32-bit negation is the exact one. -/
theorem getScores_entry_bounds (state : State) (hreach : Reachable state)
    (_hnd : state.isDone = false) (player : Char) (d : Nat) :
    ∃ scores, getScores state player (d + 1) = some scores ∧
      (∀ c : Fin WIDTH, state.isColValid c.val = true →
        -666666 ≤ scores c ∧ scores c ≤ 1000000 ∧ scores c ≠ INT_LOWEST) ∧
      (∀ (c : Fin WIDTH) (next : State) (imm : Int), state.addPosition c.val = some next →
        getScoreCol next c.val = some imm →
        ¬ (imm = WIN_MOVE ∨ imm = DOUBLE_TRAP_MOVE ∨ imm = FORCED_MOVE) →
        ∃ recScores, getScores next player d = some recScores ∧
          recScores.max ≠ INT_LOWEST ∧
          (INT_LOWEST ≤ -recScores.max ∧ -recScores.max ≤ 2147483647) ∧
          wrapInt32 (-recScores.max) = -recScores.max) := by
  have hg : state.getBoard.gravityPacked = true := (WellFormed_of_Reachable state hreach).2.2.1
  obtain ⟨scores, h, _, hvalid, hrec⟩ := getScores_succ_range state player d hg
  refine ⟨scores, h, fun c hv => ?_, fun c next imm hnext himm hs => ?_⟩
  · have := (hvalid c hv).1
    unfold WIN_MOVE DOUBLE_TRAP_MOVE FORCED_MOVE at this
    unfold INT_LOWEST
    omega
  · obtain ⟨r, hr, hlo, hhi⟩ := hrec c next imm hnext himm hs
    refine ⟨r, hr, ?_, ?_, wrapInt32_neg r.max (by unfold INT_LOWEST; omega) (by omega)⟩
    · unfold INT_LOWEST; omega
    · unfold INT_LOWEST; omega

/-- Witness of `getScores_entry_bounds`: `twoTokenState` with `P1` searching at depth 2. -/
theorem getScores_entry_bounds_witness :
    Reachable twoTokenState ∧ twoTokenState.isDone = false ∧
    ∃ scores, getScores twoTokenState P1 2 = some scores ∧
      (∀ c : Fin WIDTH, twoTokenState.isColValid c.val = true →
        -666666 ≤ scores c ∧ scores c ≤ 1000000 ∧ scores c ≠ INT_LOWEST) ∧
      (∀ (c : Fin WIDTH) (next : State) (imm : Int),
        twoTokenState.addPosition c.val = some next →
        getScoreCol next c.val = some imm →
        ¬ (imm = WIN_MOVE ∨ imm = DOUBLE_TRAP_MOVE ∨ imm = FORCED_MOVE) →
        ∃ recScores, getScores next P1 1 = some recScores ∧
          recScores.max ≠ INT_LOWEST ∧
          (INT_LOWEST ≤ -recScores.max ∧ -recScores.max ≤ 2147483647) ∧
          wrapInt32 (-recScores.max) = -recScores.max) :=
  have hreach : Reachable twoTokenState := ⟨[3, 3], Or.inl (play_playedFromP1 _ (by decide))⟩
  ⟨hreach, by decide, getScores_entry_bounds twoTokenState hreach (by decide) P1 1⟩

/-! ## The search takes an immediate win -/

/-- At depth `d + 1` the entry of a column whose drop sets the done flag is `WIN_MOVE`. -/
theorem getScores_entry_of_isDone (state next : State) (player : Char) (d : Nat)
    (c : Fin WIDTH) (hv : state.isColValid c.val = true)
    (hnext : state.addPosition c.val = some next) (hdone : next.isDone = true)
    (scores : Scores) (h : getScores state player (d + 1) = some scores) :
    scores c = WIN_MOVE := by
  obtain ⟨scores', h', hentry⟩ := getScores_succ_spec state player d
  rw [h] at h'
  cases h'
  obtain ⟨next', imm, hnext', himm, hshort, _⟩ := (hentry c).2 hv
  rw [hnext] at hnext'
  cases hnext'
  rw [getScoreCol_of_isDone next c.val hdone] at himm
  cases himm
  exact hshort (Or.inl rfl)

/-- C21: for every reachable state that is not done, every depth `d + 1 ≥ 1` and every
shuffle that permutes its argument, if the player to move has a droppable column whose drop
completes a line of four of that player, then `getScores(state, state.getTurn(), d + 1)`
returns a vector whose `getBestCol()` is such a column (and so is `getCol`). -/
theorem getCol_takes_immediate_win (shuffle : List (Fin WIDTH) → List (Fin WIDTH))
    (hshuffle : ∀ l, (shuffle l).Perm l) (state : State) (hreach : Reachable state)
    (_hnd : state.isDone = false) (d : Nat) (hwin : ∃ c : Fin WIDTH, state.dropWins c.val) :
    ∃ scores col, getScores state state.getTurn (d + 1) = some scores ∧
      scores.getBestCol shuffle = some col ∧ getCol shuffle state (d + 1) = some col ∧
      state.dropWins col.val := by
  have hw : state.WellFormed := WellFormed_of_Reachable state hreach
  have hg : state.getBoard.gravityPacked = true := hw.2.2.1
  obtain ⟨scores, h, hinvalid, hvalid, _⟩ := getScores_succ_range state state.getTurn d hg
  obtain ⟨w, _, hwv, s', hadd, hline⟩ := hwin
  have hwdone : s'.isDone = true :=
    addPosition_isDone_of_win state s' w.val hadd (isDone_of_hasLineOfFour _ _ hline)
  have hwentry : scores w = WIN_MOVE :=
    getScores_entry_of_isDone state s' state.getTurn d w hwv hadd hwdone scores h
  have hlow : ∀ c, INT_LOWEST ≤ scores c :=
    fun c => (getScores_inRange state.getTurn (d + 1) state scores h c).1
  obtain ⟨col, hbest, hmax, _⟩ := getBestCol_some_max shuffle hshuffle scores hlow
  have hge : WIN_MOVE ≤ scores col := by
    rw [hmax, ← hwentry]; exact scores.le_max w
  have hcv : state.isColValid col.val = true := by
    cases hv : state.isColValid col.val
    · have := hinvalid col hv
      rw [this] at hge
      exact absurd hge (by decide)
    · rfl
  have hcol : scores col = WIN_MOVE := by
    have := (hvalid col hcv).1
    simp only [WIN_MOVE, DOUBLE_TRAP_MOVE, FORCED_MOVE] at this hge ⊢
    omega
  obtain ⟨next, hnext, himm⟩ := (hvalid col hcv).2 hcol
  have hdone : next.isDone = true := isDone_of_getScoreCol_win next col.val himm
  have hgetCol : getCol shuffle state (d + 1) = some col := by
    unfold getCol
    rw [h]
    exact hbest
  refine ⟨scores, col, h, hbest, hgetCol, col.isLt, hcv, ?_⟩
  rcases ((WellFormed_addPosition state next col.val hw hnext).2).mp hdone with hfull | hline'
  · obtain ⟨row, _, hb⟩ := addPosition_getBoard state next col.val hnext
    have hempty : state.getBoard.cell 5 w.val = EMPTY := by
      simpa [State.isColValid, Board.isColValid, State.getBoard] using hwv
    have hne := (isFull_eq_true_iff _).mp hfull 5 (by decide) w.val w.isLt
    rw [hb, cell_set] at hne
    have heq : col = w := by
      by_contra hwc
      have : ¬ (5 = row ∧ w.val = col.val) := fun hh => hwc (Fin.ext hh.2.symm)
      rw [if_neg this] at hne
      exact hne hempty
    rw [heq]
    exact ⟨s', hadd, hline⟩
  · exact ⟨next, hnext, hasLineOfFour_of_isDone _ _ hline'⟩

/-- Witness of `getCol_takes_immediate_win`: in `verticalThreeState` the drop of `P1` into
column 2 completes the vertical line of rows 0 to 3. -/
theorem getCol_takes_immediate_win_witness :
    Reachable verticalThreeState ∧ verticalThreeState.isDone = false ∧
    verticalThreeState.dropWins 2 ∧
    ∃ scores col, getScores verticalThreeState verticalThreeState.getTurn 3 = some scores ∧
      scores.getBestCol id = some col ∧ getCol id verticalThreeState 3 = some col ∧
      verticalThreeState.dropWins col.val :=
  have hreach : Reachable verticalThreeState :=
    ⟨[2, 3, 2, 3, 2, 3], Or.inl (play_playedFromP1 _ (by decide))⟩
  have hwins : verticalThreeState.dropWins 2 :=
    ⟨by decide, by decide, playedFromP1 [2, 3, 2, 3, 2, 3, 2], rfl,
      hasLineOfFour_of_isDone _ _ (by decide)⟩
  ⟨hreach, by decide, hwins,
    getCol_takes_immediate_win id (fun l => List.Perm.refl l) verticalThreeState hreach
      (by decide) 2 ⟨2, hwins⟩⟩

/-! ## The immediate score and the entry of the column -/

theorem Scores.set_set (s : Scores) (col : Fin WIDTH) (v w : Int) :
    (s.set col v).set col w = s.set col w := by
  funext c
  unfold Scores.set
  by_cases h : c = col
  · simp [h]
  · simp [h]

theorem Scores.set_self (s : Scores) (col : Fin WIDTH) (v : Int) : (s.set col v) col = v := by
  simp [Scores.set]

/-- For a droppable column, `getScoreColRec` stores in `scores[col]` the value of
`scoreAfterImmediate` at the immediate score of the state after the drop. -/
theorem getScoreColRec_eq_scoreAfterImmediate (getScoresRec : State → Option Scores)
    (state next : State) (col : Fin WIDTH) (player : Char) (scores : Scores) (imm : Int)
    (hv : state.isColValid col.val = true) (hnext : state.addPosition col.val = some next)
    (himm : getScoreCol next col.val = some imm) :
    getScoreColRec getScoresRec state col player scores =
      (scoreAfterImmediate getScoresRec next player imm).map (fun v => scores.set col v) := by
  unfold getScoreColRec scoreAfterImmediate
  simp only [hv, Bool.true_eq_false, if_false, hnext, himm]
  by_cases hs : imm = WIN_MOVE ∨ imm = DOUBLE_TRAP_MOVE ∨ imm = FORCED_MOVE
  · simp only [if_pos hs, Option.map_some']
  · simp only [if_neg hs]
    cases hr : getScoresRec next with
    | none => rfl
    | some r => simp only [Option.map_some', Scores.set_set]

/-- The value `TRAP_MOVE` is not a short-circuit value, and it is not read after the test. -/
theorem scoreAfterImmediate_trap (getScoresRec : State → Option Scores) (next : State)
    (player : Char) :
    scoreAfterImmediate getScoresRec next player TRAP_MOVE =
      scoreAfterImmediate getScoresRec next player 0 := by
  unfold scoreAfterImmediate
  have h1 : ¬ (TRAP_MOVE = WIN_MOVE ∨ TRAP_MOVE = DOUBLE_TRAP_MOVE ∨ TRAP_MOVE = FORCED_MOVE) := by
    decide
  have h2 : ¬ ((0 : Int) = WIN_MOVE ∨ (0 : Int) = DOUBLE_TRAP_MOVE ∨ (0 : Int) = FORCED_MOVE) := by
    decide
  rw [if_neg h1, if_neg h2]

/-- At depth `d + 1` the entry of a droppable column is the value of `scoreAfterImmediate` at
the immediate score of the state after the drop. -/
theorem getScores_entry_eq_scoreAfterImmediate (state next : State) (player : Char) (d : Nat)
    (c : Fin WIDTH) (imm : Int) (hv : state.isColValid c.val = true)
    (hnext : state.addPosition c.val = some next) (himm : getScoreCol next c.val = some imm) :
    ∃ scores, getScores state player (d + 1) = some scores ∧
      scoreAfterImmediate (fun st => getScores st player d) next player imm =
        some (scores c) := by
  obtain ⟨scores, h, hentry⟩ := getScores_succ_spec state player d
  obtain ⟨next', imm', hnext', himm', hshort, hrec⟩ := (hentry c).2 hv
  rw [hnext] at hnext'
  cases hnext'
  rw [himm] at himm'
  cases himm'
  refine ⟨scores, h, ?_⟩
  unfold scoreAfterImmediate
  by_cases hs : imm = WIN_MOVE ∨ imm = DOUBLE_TRAP_MOVE ∨ imm = FORCED_MOVE
  · rw [if_pos hs, hshort hs]
  · obtain ⟨r, hr, hval⟩ := hrec hs
    rw [if_neg hs]
    simp only [hr, hval]

/-- With the all-zero continuation of depth 0, `scoreAfterImmediate` is the immediate score
when that is a short-circuit value and 0 otherwise. -/
theorem scoreAfterImmediate_depth_zero (next : State) (player : Char) (imm : Int) :
    scoreAfterImmediate (fun st => getScores st player 0) next player imm =
      some (if imm = WIN_MOVE ∨ imm = DOUBLE_TRAP_MOVE ∨ imm = FORCED_MOVE then imm else 0) := by
  unfold scoreAfterImmediate
  by_cases hs : imm = WIN_MOVE ∨ imm = DOUBLE_TRAP_MOVE ∨ imm = FORCED_MOVE
  · rw [if_pos hs, if_pos hs]
  · rw [if_neg hs, if_neg hs]
    have hmax : (Scores.ofValue 0).max = 0 := by decide
    show some (recursionFactor (if player = next.getLastPayer
      then wrapInt32 (-(Scores.ofValue 0).max) else (Scores.ofValue 0).max)) = some 0
    rw [hmax]
    by_cases hp : player = next.getLastPayer
    · rw [if_pos hp]; rfl
    · rw [if_neg hp]; rfl

/-- C23: for every state, player and droppable column `c`, with `next` the state after the
drop and `imm` the value of `getScoreCol` on it: the depth-1 entry of `getScores` for `c` is
`WIN_MOVE`, `DOUBLE_TRAP_MOVE`, `FORCED_MOVE` or 0 and never `TRAP_MOVE`; at every depth
`d + 1 ≥ 1` the entry is the value that `getScoreColRec` computes from `imm`, and when `imm`
is `TRAP_MOVE` it is the value computed from 0 in its place; `getScoreColRec` stores that
value whatever the continuation and the vector written into. -/
theorem getScores_discards_trap_move (state : State) (player : Char) (c : Fin WIDTH)
    (hv : state.isColValid c.val = true) :
    ∃ next imm, state.addPosition c.val = some next ∧ getScoreCol next c.val = some imm ∧
      (∃ scores, getScores state player 1 = some scores ∧
        (scores c = WIN_MOVE ∨ scores c = DOUBLE_TRAP_MOVE ∨ scores c = FORCED_MOVE ∨
          scores c = 0) ∧ scores c ≠ TRAP_MOVE) ∧
      (∀ d, ∃ scores, getScores state player (d + 1) = some scores ∧
        scoreAfterImmediate (fun st => getScores st player d) next player imm =
          some (scores c) ∧
        (imm = TRAP_MOVE →
          scoreAfterImmediate (fun st => getScores st player d) next player 0 =
            some (scores c))) ∧
      (∀ (getScoresRec : State → Option Scores) (scores : Scores),
        getScoreColRec getScoresRec state c player scores =
          (scoreAfterImmediate getScoresRec next player imm).map
            (fun v => scores.set c v)) := by
  obtain ⟨next, hnext⟩ := addPosition_isSome state c.val c.isLt hv
  obtain ⟨imm, himm⟩ := getScoreCol_isSome next c.val
  refine ⟨next, imm, hnext, himm, ?_, fun d => ?_, fun g scores =>
    getScoreColRec_eq_scoreAfterImmediate g state next c player scores imm hv hnext himm⟩
  · obtain ⟨scores, h, hval⟩ :=
      getScores_entry_eq_scoreAfterImmediate state next player 0 c imm hv hnext himm
    rw [scoreAfterImmediate_depth_zero] at hval
    have hval' := Option.some.inj hval
    refine ⟨scores, h, ?_⟩
    by_cases hs : imm = WIN_MOVE ∨ imm = DOUBLE_TRAP_MOVE ∨ imm = FORCED_MOVE
    · rw [if_pos hs] at hval'
      rw [← hval']
      refine ⟨?_, ?_⟩
      · rcases hs with hs | hs | hs
        · exact Or.inl hs
        · exact Or.inr (Or.inl hs)
        · exact Or.inr (Or.inr (Or.inl hs))
      · rcases hs with hs | hs | hs <;> rw [hs] <;> decide
    · rw [if_neg hs] at hval'
      rw [← hval']
      exact ⟨Or.inr (Or.inr (Or.inr rfl)), by decide⟩
  · obtain ⟨scores, h, hval⟩ :=
      getScores_entry_eq_scoreAfterImmediate state next player d c imm hv hnext himm
    refine ⟨scores, h, hval, fun ht => ?_⟩
    rw [← scoreAfterImmediate_trap, ← ht]
    exact hval

/-- Witness of `getScores_discards_trap_move`: the drop of `P1` into column 2 after
`[0, 0, 1, 1]` yields `horizontalThreeState`, whose immediate score is `TRAP_MOVE`. -/
theorem getScores_discards_trap_move_witness :
    (playedFromP1 [0, 0, 1, 1]).isColValid 2 = true ∧
    (playedFromP1 [0, 0, 1, 1]).addPosition 2 = some horizontalThreeState ∧
    getScoreCol horizontalThreeState 2 = some TRAP_MOVE ∧
    ∃ scores, getScores (playedFromP1 [0, 0, 1, 1]) P1 1 = some scores ∧ scores 2 = 0 := by
  have hv : (playedFromP1 [0, 0, 1, 1]).isColValid 2 = true := by decide
  have hdrop : (playedFromP1 [0, 0, 1, 1]).addPosition 2 = some horizontalThreeState := rfl
  have htrap : getScoreCol horizontalThreeState 2 = some TRAP_MOVE := by decide
  obtain ⟨next, imm, hnext, himm, ⟨scores, h, hcases, _⟩, hall, _⟩ :=
    getScores_discards_trap_move (playedFromP1 [0, 0, 1, 1]) P1 2 hv
  have hnext' : (playedFromP1 [0, 0, 1, 1]).addPosition 2 = some next := hnext
  rw [hdrop] at hnext'
  cases hnext'
  have himm' : getScoreCol horizontalThreeState 2 = some imm := himm
  rw [htrap] at himm'
  cases himm'
  obtain ⟨scores1, h1, _, hzero⟩ := hall 0
  rw [h] at h1
  cases h1
  have hz := hzero rfl
  rw [scoreAfterImmediate_depth_zero] at hz
  exact ⟨hv, hdrop, htrap, scores, h, (Option.some.inj hz).symm⟩

end Connect4
